import Mathlib

/-!
# Verification of the pathfinding library

A shallow embedding, in Lean 4, of the core of the `pathfinding` repository:
the packed obstacle grid (`src/domains/bitgrid.rs`), the node pools
(`src/node_pool/gridpool.rs`, `src/node_pool/indexpool.rs`), the indexed
priority queue (`src/pqueue.rs`), the best-first engine
(`pathfinding/src/lib.rs`, `astar_unchecked`), the no-corner-cutting grid
expander (`src/expansion_policy/bitgrid/no_corner_cutting.rs`), and the JPS
cardinal jump scan (`src/expansion_policy/bitgrid/jps.rs`).

Modelling conventions:
* Rust `f64` values (costs, `g`, `lb`, heuristics) are idealised as exact
  rationals; `f64::INFINITY` becomes `⊤` in `WithTop ℚ`.
* Rust `u64` words are `Nat` values with explicit `% 2 ^ 64` / masking where
  the code can overflow or truncate.
* The packed bit array backing a `BitGrid` (a `Box<[u8]>` together with the
  eight `0xFF` guard bytes at each end) is a total function `Int → Bool`
  giving the bit at each logical bit position; position `0` is the first bit
  after the head guard, negative positions are the head guard, and positions
  at or past `8 * bytes` are the tail guard.
* Loops are embedded as fuel-indexed structural recursions so that every
  definition is computable by the kernel.
-/

namespace Pathfinding

/-! ## Little-endian bit reads

`readBits b p n` is the `n`-bit little-endian integer formed by the bits of
the backing store `b` at positions `p, p+1, …, p+n-1`.  The Rust code obtains
such words with unaligned `u64` reads (`(ptr as *const u64).read_unaligned()
.to_le()`); reading the 8 bytes starting at byte index `i` yields exactly the
bits at positions `8*i … 8*i+63`. -/

def readBits (b : Int → Bool) (p : Int) : Nat → Nat
  | 0 => 0
  | n + 1 => (cond (b p) 1 0) + 2 * readBits b (p + 1) n

/-- The unaligned little-endian `u64` read at byte index `i` (which may be
negative: the head guard bytes). -/
def readWord (b : Int → Bool) (i : Int) : Nat :=
  readBits b (8 * i) 64

theorem readBits_lt (b : Int → Bool) (p : Int) (n : Nat) :
    readBits b p n < 2 ^ n := by
  induction n generalizing p with
  | zero => simp [readBits]
  | succ n ih =>
    have h := ih (p + 1)
    cases hb : b p <;> simp [readBits, hb, pow_succ] <;> omega

theorem testBit_readBits (b : Int → Bool) (p : Int) (n j : Nat) :
    (readBits b p n).testBit j = if j < n then b (p + j) else false := by
  induction n generalizing p j with
  | zero => simp [readBits]
  | succ n ih =>
    cases j with
    | zero =>
      cases hb : b p <;>
        simp [readBits, hb, Nat.testBit_zero, Nat.succ_pos, Nat.add_mul_mod_self_left]
    | succ j =>
      have h2 : (readBits b p (n + 1)) / 2 = readBits b (p + 1) n := by
        cases hb : b p <;> simp [readBits, hb] <;> omega
      rw [Nat.testBit_succ, h2, ih]
      have hpq : p + 1 + (j : Int) = p + ((j : Int) + 1) := by ring
      simp [Nat.succ_lt_succ_iff, hpq]

/-! ## Directions (src/util.rs)

The eight compass directions, in the declaration order of the Rust `enum
Direction`; `enumset` assigns bit `k` of an `EnumSet` to the `k`-th variant. -/

inductive Direction where
  | northWest | north | northEast | west | east | southWest | south | southEast
deriving DecidableEq, Repr

/-- The bit index `enumset` gives each variant (declaration order). -/
def Direction.ord : Direction → Nat
  | .northWest => 0
  | .north => 1
  | .northEast => 2
  | .west => 3
  | .east => 4
  | .southWest => 5
  | .south => 6
  | .southEast => 7

/-- Horizontal offset of the neighbouring cell in a direction. -/
def Direction.dx : Direction → Int
  | .northWest => -1
  | .north => 0
  | .northEast => 1
  | .west => -1
  | .east => 1
  | .southWest => -1
  | .south => 0
  | .southEast => 1

/-- Vertical offset of the neighbouring cell in a direction. -/
def Direction.dy : Direction → Int
  | .northWest => -1
  | .north => -1
  | .northEast => -1
  | .west => 0
  | .east => 0
  | .southWest => 1
  | .south => 1
  | .southEast => 1

/-- Membership of a direction in an `EnumSet<Direction>` modelled as the
bitset's `u64` value. -/
def dirMem (d : Direction) (s : Nat) : Bool := s.testBit d.ord

/-! ## BitGrid (src/domains/bitgrid.rs) -/

/-- The packed obstacle grid.  `backing p` is the bit at logical packed bit
position `p`: position `0` is the first bit of the padded cell array (the
first bit after the 8 head guard bytes), negative positions read the head
guard (all ones), and positions at or beyond `8 * bytesLen` read the tail
guard (all ones).  `locate (x, y) = (y+1) * (width+1) + (x+1)` maps a padded
coordinate to its bit position, exactly as `BitGrid::locate` does (the Rust
function additionally splits the position into a byte index offset by the 8
guard bytes and a bit index, which the reads below recombine). -/
structure BitGrid where
  width : Int
  height : Int
  backing : Int → Bool

namespace BitGrid

/-- `padded_width * padded_height + 1`, the number of padded cell bits. -/
def paddedSize (g : BitGrid) : Nat :=
  ((g.width + 1) * (g.height + 2) + 1).toNat

/-- Number of data bytes of the backing array (`(padded_size - 1) / 8 + 1`). -/
def bytesLen (g : BitGrid) : Nat := (g.paddedSize - 1) / 8 + 1

/-- `BitGrid::locate`, as the flat bit position (byte index and bit offset
recombined).  Rust computes `(y + 1) as usize` and `(x + 1) as usize`; for the
coordinates the code is allowed to pass (`x ≥ -1`, `y ≥ -1`) the casts are
exact, which `Int.toNat` mirrors. -/
def locate (g : BitGrid) (x y : Int) : Nat :=
  (y + 1).toNat * (g.width + 1).toNat + (x + 1).toNat

/-- `BitGrid::get_unchecked`: the single bit at the located position. -/
def getu (g : BitGrid) (x y : Int) : Bool :=
  g.backing (g.locate x y)

/-- `BitGrid::set_unchecked`: set the located bit. -/
def setu (g : BitGrid) (x y : Int) (v : Bool) : BitGrid :=
  { g with backing := fun p => if p = (g.locate x y : Int) then v else g.backing p }

/-- `BitGrid::get` on an in-bounds-or-padding coordinate; the Rust function
panics outside `-1..width+1 × -1..height+1`, which callers never trigger, so
the model is the unchecked read. -/
def get (g : BitGrid) (x y : Int) : Bool := g.getu x y

/-- `BitGrid::set`: bounds-checked write.  The Rust function panics when
`(x, y)` is not in `0..width × 0..height`; the failure is modelled as
`none`. -/
def set (g : BitGrid) (x y : Int) (v : Bool) : Option BitGrid :=
  if 0 ≤ x ∧ x < g.width ∧ 0 ≤ y ∧ y < g.height then some (g.setu x y v) else none

/-- `BitGrid::get_row_unchecked`: unaligned 64-bit read at the byte holding
the located bit, shifted down to that bit, keeping 57 bits.  (`w >> bit`
followed by `& (1 << 57) - 1`.) -/
def get_row (g : BitGrid) (x y : Int) : Nat :=
  let id := g.locate x y
  (readWord g.backing (id / 8) >>> (id % 8)) &&& (2 ^ 57 - 1)

/-- `BitGrid::get_row_upper_unchecked`: unaligned 64-bit read seven bytes
below the located byte, shifted up so the located bit lands at bit 63, with
the low seven bits cleared.  (`(w << 7 - bit) & !0 << 7`, in `u64`.) -/
def get_row_upper (g : BitGrid) (x y : Int) : Nat :=
  let id := g.locate x y
  ((readWord g.backing (((id / 8 : Nat) : Int) - 7) <<< (7 - id % 8)) % 2 ^ 64) &&&
    (2 ^ 64 - 2 ^ 7)

/-- `BitGrid::get_neighbors_unchecked`: assemble the eight surrounding bits
from three row reads.  `EnumSet::from_u64_truncated` keeps only the bits of
existing variants, i.e. the low 8 bits. -/
def get_neighbors (g : BitGrid) (x y : Int) : Nat :=
  let upper := g.get_row (x - 1) (y - 1)
  let middle := g.get_row (x - 1) y
  let lower := g.get_row (x - 1) (y + 1)
  (upper &&& 7 ||| (middle &&& 1) <<< 3 ||| (middle &&& 4) <<< 2 |||
      (lower &&& 7) <<< 5) &&& 255

end BitGrid

/-- The integer range `a..b` as a list (`for x in a..b`). -/
def intRange (a b : Int) : List Int :=
  (List.range (b - a).toNat).map fun (k : Nat) => a + (k : Int)

namespace BitGrid

/-- The freshly allocated backing store: data bytes zeroed, guard bytes (and
anything beyond, which is never read) all ones. -/
def initBacking (bytes : Nat) : Int → Bool :=
  fun p => decide (p < 0) || decide ((bytes : Int) * 8 ≤ p)

/-- The list of padding cells `BitGrid::new` writes, in program order:
`(x, -1)` and `(x, height)` for `x in -1..width`, then `(-1, y)` for
`y in 0..height`, then `(width, height)`. -/
def paddingWrites (width height : Int) : List (Int × Int) :=
  ((intRange (-1) width).flatMap fun x => [(x, -1), (x, height)]) ++
    ((intRange 0 height).map fun y => (-1, y)) ++ [(width, height)]

/-- `BitGrid::new width height` (callers guarantee `width > 0`, `height > 0`;
the Rust constructor asserts it). -/
def new (width height : Int) : BitGrid :=
  let g0 : BitGrid :=
    { width := width, height := height,
      backing := initBacking (bytesLen ⟨width, height, fun _ => false⟩) }
  (paddingWrites width height).foldl (fun g c => g.setu c.1 c.2 true) g0

/-- Bit `j` of `get_row` is the backing bit `j` positions after the located
one (and bits 57 and above are clear). -/
theorem testBit_get_row (g : BitGrid) (x y : Int) (j : Nat) :
    (g.get_row x y).testBit j =
      if j < 57 then g.backing ((g.locate x y : Nat) + j) else false := by
  unfold get_row readWord
  generalize g.locate x y = id
  rw [Nat.testBit_and, Nat.testBit_shiftRight, testBit_readBits,
    Nat.testBit_two_pow_sub_one]
  by_cases h : j < 57
  · have hmod : id % 8 < 8 := Nat.mod_lt _ (by omega)
    have hlt : id % 8 + j < 64 := by omega
    simp only [h, hlt, if_true, Bool.and_true, decide_eq_true_eq, decide_True]
    congr 1
    omega
  · simp [h]

/-- Bit `j` of `get_row_upper` is the backing bit `63 - j` positions before
the located one, for `7 ≤ j < 64`; all other bits are clear. -/
theorem testBit_get_row_upper (g : BitGrid) (x y : Int) (j : Nat) :
    (g.get_row_upper x y).testBit j =
      if 7 ≤ j ∧ j < 64 then g.backing ((g.locate x y : Int) - 63 + j) else false := by
  unfold get_row_upper readWord
  generalize g.locate x y = id
  have hmask : (2 ^ 64 - 2 ^ 7 : Nat) = (2 ^ 57 - 1) <<< 7 := by
    rw [Nat.shiftLeft_eq]
    norm_num
  rw [hmask, Nat.testBit_and, Nat.testBit_shiftLeft, Nat.testBit_two_pow_sub_one,
    Nat.testBit_mod_two_pow, Nat.testBit_shiftLeft, testBit_readBits]
  have hmod : id % 8 < 8 := Nat.mod_lt _ (by omega)
  by_cases h : 7 ≤ j ∧ j < 64
  · have hge : j ≥ 7 - id % 8 := by omega
    have hlt : j - (7 - id % 8) < 64 := by omega
    have h57 : j - 7 < 57 := by omega
    simp only [h, and_self, if_true, h.1, h.2, hge, hlt, h57,
      ge_iff_le, Bool.true_and, Bool.and_true, decide_eq_true_eq, decide_True]
    congr 1
    omega
  · rcases Nat.lt_or_ge j 7 with hj | hj
    · simp [Nat.not_le.mpr hj]
    · have hj64 : ¬ j < 64 := by omega
      have : ¬ j - 7 < 57 := by omega
      simp [hj, hj64, this]

/-- Moving `i` cells to the right moves the located bit `i` positions, for
any start with `x ≥ -1` (the flat layout is linear in `x`). -/
theorem locate_add_right (g : BitGrid) (x y : Int) (i : Nat) (hx : -1 ≤ x) :
    g.locate (x + i) y = g.locate x y + i := by
  unfold locate
  omega

/-- Moving `i` cells to the left moves the located bit `i` positions back,
provided the target column still satisfies `x - i ≥ -1`. -/
theorem locate_sub_left (g : BitGrid) (x y : Int) (i : Nat) (hx : -1 ≤ x - i) :
    (g.locate (x - i) y : Int) = (g.locate x y : Int) - i := by
  unfold locate
  omega

/-- Within the current padded row, `get_row` bits are `get` values. -/
theorem get_row_bit_cell (g : BitGrid) (x y : Int) (i : Nat)
    (hx : -1 ≤ x) (hi : i < 57) :
    (g.get_row x y).testBit i = g.get (x + i) y := by
  rw [testBit_get_row, if_pos hi]
  unfold get getu
  rw [locate_add_right g x y i hx]
  congr 1

/-- Bit combination helper for `get_neighbors`: which input bit each
direction's bit comes from. -/
theorem testBit_nbCombine (a b c : Nat) (d : Direction) :
    ((a &&& 7 ||| (b &&& 1) <<< 3 ||| (b &&& 4) <<< 2 ||| (c &&& 7) <<< 5) &&&
        255).testBit d.ord =
      match d with
      | .northWest => a.testBit 0
      | .north => a.testBit 1
      | .northEast => a.testBit 2
      | .west => b.testBit 0
      | .east => b.testBit 2
      | .southWest => c.testBit 0
      | .south => c.testBit 1
      | .southEast => c.testBit 2 := by
  have h7 : ∀ k, Nat.testBit 7 k = decide (k < 3) := fun k => by
    simpa using Nat.testBit_two_pow_sub_one 3 k
  have h255 : ∀ k, Nat.testBit 255 k = decide (k < 8) := fun k => by
    simpa using Nat.testBit_two_pow_sub_one 8 k
  have h1 : ∀ k, Nat.testBit 1 k = decide (k < 1) := fun k => by
    simpa using Nat.testBit_two_pow_sub_one 1 k
  have h4 : ∀ k, Nat.testBit 4 k = decide (2 = k) := fun k => by
    simpa using @Nat.testBit_two_pow 2 k
  have hb2 : ∀ m j, Nat.testBit (m % 2) (j + 1) = false := fun m j =>
    Nat.testBit_lt_two_pow
      (lt_of_lt_of_le (Nat.mod_lt m (by omega))
        (le_trans (by norm_num) (Nat.pow_le_pow_right (by omega) (Nat.succ_le_succ (Nat.zero_le j)))))
  cases d <;>
    simp [Direction.ord, Nat.testBit_or, Nat.testBit_and, Nat.testBit_shiftLeft,
      h7, h255, h1, h4, hb2]

end BitGrid

open BitGrid in
set_option maxRecDepth 100000 in
/-- C3, counterexample.  The claim asserts that bit `i` of `get_row (x, y)`
equals `1` whenever `x + i > W`.  On the empty 10×2 grid, at the in-bounds
cell `(9, 0)` with `i = 2` we have `x + i = 11 > 10 = W`, yet the bit is `0`:
the packed layout wraps the read into the free cell `(0, 1)` of the next row
(only the first out-of-row bit, the padding column, is guaranteed to be 1). -/
theorem claim3_row_window_counterexample :
    ((BitGrid.new 10 2).get_row 9 0).testBit 2 = false ∧
    (0 : Int) ≤ 9 ∧ (9 : Int) < (BitGrid.new 10 2).width ∧
    (0 : Int) ≤ 0 ∧ (0 : Int) < (BitGrid.new 10 2).height ∧
    (BitGrid.new 10 2).width < 9 + (2 : Nat) := by
  decide

open BitGrid in
/-- C3, amended.  For every `BitGrid` `M`, in-bounds `(x, y)` and `i < 57`
with `x + i ≤ W`, bit `i` of `M.get_row x y` equals `M.get (x + i) y` (this
includes the padding column `x + i = W`, which reads 1); the original claim's
further assertion that bits with `x + i > W` read 1 is dropped, since those
bits wrap into the following row of the packed layout. -/
theorem claim3_row_window_amended (g : BitGrid) (x y : Int) (i : Nat)
    (hx : 0 ≤ x) (hxw : x < g.width) (hy : 0 ≤ y) (hyh : y < g.height)
    (hi : i < 57) (hle : x + i ≤ g.width) :
    (g.get_row x y).testBit i = g.get (x + i) y :=
  get_row_bit_cell g x y i (by omega) hi

open BitGrid in
set_option maxRecDepth 100000 in
/-- C3, amended, witness at the empty 10×2 grid, `(x, y) = (3, 0)`,
`i = 2`. -/
theorem claim3_row_window_amended_witness :
    ((0 : Int) ≤ 3 ∧ (3 : Int) < (BitGrid.new 10 2).width ∧
      (0 : Int) ≤ 0 ∧ (0 : Int) < (BitGrid.new 10 2).height ∧
      2 < 57 ∧ (3 : Int) + (2 : Nat) ≤ (BitGrid.new 10 2).width) ∧
    ((BitGrid.new 10 2).get_row 3 0).testBit 2 = (BitGrid.new 10 2).get (3 + (2 : Nat)) 0 :=
  ⟨by decide,
    claim3_row_window_amended (BitGrid.new 10 2) 3 0 2 (by decide) (by decide)
      (by decide) (by decide) (by decide) (by decide)⟩

open BitGrid in
/-- C7.  For every `BitGrid` and padded coordinate, `get_row_upper` has its
low seven bits clear, bit 63 equals the cell `(x, y)`, and bit `7 + k`
equals the cell `(x - 56 + k, y)` for every `k < 57` for which that cell
exists (`x - 56 + k ≥ -1`). -/
theorem claim7_row_upper (g : BitGrid) (x y : Int)
    (hx : -1 ≤ x) (hxw : x ≤ g.width) (hy : -1 ≤ y) (hyh : y ≤ g.height) :
    g.get_row_upper x y % 2 ^ 7 = 0 ∧
    (g.get_row_upper x y).testBit 63 = g.get x y ∧
    ∀ k : Nat, k < 57 → -1 ≤ x - 56 + (k : Int) →
      (g.get_row_upper x y).testBit (7 + k) = g.get (x - 56 + (k : Int)) y := by
  refine ⟨?_, ?_, ?_⟩
  · apply Nat.eq_of_testBit_eq
    intro j
    rw [Nat.testBit_mod_two_pow, Nat.zero_testBit]
    by_cases hj : j < 7
    · rw [testBit_get_row_upper, if_neg (by omega)]
      simp
    · simp [hj]
  · rw [testBit_get_row_upper, if_pos (by omega)]
    unfold BitGrid.get BitGrid.getu
    congr 1
    omega
  · intro k hk hcell
    rw [testBit_get_row_upper, if_pos (by omega)]
    unfold BitGrid.get BitGrid.getu
    have h1 : x - 56 + (k : Int) = x - ((56 - k : Nat) : Int) := by omega
    rw [h1, locate_sub_left g x y (56 - k) (by omega)]
    congr 1
    omega

open BitGrid in
set_option maxRecDepth 100000 in
/-- C7, witness at the empty 5×5 grid, `(x, y) = (2, 0)` (checking the
conclusion's universally quantified part at `k = 55`, the cell `(1, 0)`). -/
theorem claim7_row_upper_witness :
    ((-1 : Int) ≤ 2 ∧ (2 : Int) ≤ (BitGrid.new 5 5).width ∧
      (-1 : Int) ≤ 0 ∧ (0 : Int) ≤ (BitGrid.new 5 5).height) ∧
    (BitGrid.new 5 5).get_row_upper 2 0 % 2 ^ 7 = 0 ∧
    ((BitGrid.new 5 5).get_row_upper 2 0).testBit 63 = (BitGrid.new 5 5).get 2 0 ∧
    ∀ k : Nat, k < 57 → -1 ≤ (2 : Int) - 56 + (k : Int) →
      ((BitGrid.new 5 5).get_row_upper 2 0).testBit (7 + k) =
        (BitGrid.new 5 5).get (2 - 56 + (k : Int)) 0 :=
  ⟨by decide,
    claim7_row_upper (BitGrid.new 5 5) 2 0 (by decide) (by decide) (by decide) (by decide)⟩

/-- Argument congruence for `get` (both coordinates rewritten). -/
theorem get_congr (g : BitGrid) {a b c d : Int} (h1 : a = c) (h2 : b = d) :
    g.get a b = g.get c d := by
  rw [h1, h2]

open BitGrid in
/-- Helper for C6/C10: each direction's bit of `get_neighbors` is the `get`
of the corresponding surrounding cell. -/
theorem neighbors_bit (g : BitGrid) (x y : Int)
    (hx : 0 ≤ x) (hxw : x < g.width) (hy : 0 ≤ y) (hyh : y < g.height)
    (d : Direction) :
    dirMem d (g.get_neighbors x y) = g.get (x + d.dx) (y + d.dy) := by
  have hx1 : (-1 : Int) ≤ x - 1 := by omega
  unfold dirMem BitGrid.get_neighbors
  rw [testBit_nbCombine]
  cases d
  · rw [get_row_bit_cell g (x - 1) (y - 1) 0 hx1 (by norm_num)]
    simp only [Direction.dx, Direction.dy]
    exact get_congr g (by omega) (by omega)
  · rw [get_row_bit_cell g (x - 1) (y - 1) 1 hx1 (by norm_num)]
    simp only [Direction.dx, Direction.dy]
    exact get_congr g (by omega) (by omega)
  · rw [get_row_bit_cell g (x - 1) (y - 1) 2 hx1 (by norm_num)]
    simp only [Direction.dx, Direction.dy]
    exact get_congr g (by omega) (by omega)
  · rw [get_row_bit_cell g (x - 1) y 0 hx1 (by norm_num)]
    simp only [Direction.dx, Direction.dy]
    exact get_congr g (by omega) (by omega)
  · rw [get_row_bit_cell g (x - 1) y 2 hx1 (by norm_num)]
    simp only [Direction.dx, Direction.dy]
    exact get_congr g (by omega) (by omega)
  · rw [get_row_bit_cell g (x - 1) (y + 1) 0 hx1 (by norm_num)]
    simp only [Direction.dx, Direction.dy]
    exact get_congr g (by omega) (by omega)
  · rw [get_row_bit_cell g (x - 1) (y + 1) 1 hx1 (by norm_num)]
    simp only [Direction.dx, Direction.dy]
    exact get_congr g (by omega) (by omega)
  · rw [get_row_bit_cell g (x - 1) (y + 1) 2 hx1 (by norm_num)]
    simp only [Direction.dx, Direction.dy]
    exact get_congr g (by omega) (by omega)

namespace BitGrid

/-- A coordinate of the padding ring: inside the padded domain but not the
unpadded one. -/
def IsPaddingCell (W H x y : Int) : Prop :=
  (-1 ≤ x ∧ x ≤ W ∧ -1 ≤ y ∧ y ≤ H) ∧ ¬(0 ≤ x ∧ x < W ∧ 0 ≤ y ∧ y < H)

/-- `a ∈ intRange l u ↔ l ≤ a < u`. -/
theorem mem_intRange {a l u : Int} : a ∈ intRange l u ↔ l ≤ a ∧ a < u := by
  unfold intRange
  rw [List.mem_map]
  constructor
  · rintro ⟨k, hk, rfl⟩
    rw [List.mem_range] at hk
    omega
  · intro h
    exact ⟨(a - l).toNat, List.mem_range.mpr (by omega), by omega⟩

/-- The located position, as an integer, in closed form. -/
theorem locate_eq (g : BitGrid) (x y : Int) (hx : -1 ≤ x) (hy : -1 ≤ y)
    (hw : 0 ≤ g.width) :
    ((g.locate x y : Nat) : Int) = (y + 1) * (g.width + 1) + (x + 1) := by
  unfold locate
  have h1 : ((y + 1).toNat : Int) = y + 1 := Int.toNat_of_nonneg (by omega)
  have h2 : ((g.width + 1).toNat : Int) = g.width + 1 := Int.toNat_of_nonneg (by omega)
  have h3 : ((x + 1).toNat : Int) = x + 1 := Int.toNat_of_nonneg (by omega)
  push_cast
  rw [h1, h2, h3]

/-- An in-bounds cell and a padding cell always occupy distinct bits: the
in-bounds position has remainder `x+1 ∈ 1..W` and quotient `y+1 ∈ 1..H`
modulo the padded row stride `W+1`, while every padding position has
remainder 0, quotient 0, or quotient above `H`. -/
theorem locate_inbounds_ne_padding (g : BitGrid) {x y px py : Int}
    (hx : 0 ≤ x ∧ x < g.width) (hy : 0 ≤ y ∧ y < g.height)
    (hp : IsPaddingCell g.width g.height px py) :
    g.locate x y ≠ g.locate px py := by
  obtain ⟨⟨hpx1, hpx2, hpy1, hpy2⟩, hout⟩ := hp
  have hw : (0 : Int) ≤ g.width := by omega
  have hW1 : (0 : Int) < g.width + 1 := by omega
  intro heq
  have heqi : ((g.locate x y : Nat) : Int) = ((g.locate px py : Nat) : Int) := by
    rw [heq]
  rw [locate_eq g x y (by omega) (by omega) hw,
    locate_eq g px py (by omega) (by omega) hw] at heqi
  -- compare remainders and quotients modulo the stride W+1
  have hmod : ((y + 1) * (g.width + 1) + (x + 1)) % (g.width + 1) = x + 1 := by
    rw [add_comm, mul_comm, Int.add_mul_emod_self_left]
    exact Int.emod_eq_of_lt (by omega) (by omega)
  have hdiv : ((y + 1) * (g.width + 1) + (x + 1)) / (g.width + 1) = y + 1 := by
    rw [add_comm, mul_comm, Int.add_mul_ediv_left _ _ (by omega : g.width + 1 ≠ 0),
      Int.ediv_eq_zero_of_lt (by omega) (by omega)]
    omega
  rcases (by omega : px = -1 ∨ px = g.width ∨ py = -1 ∨ py = g.height) with h | h | h | h
  · -- left padding column: remainder 0
    have : ((py + 1) * (g.width + 1) + (px + 1)) % (g.width + 1) = 0 := by
      rw [h]
      simp [Int.add_mul_emod_self_left, mul_comm]
    rw [heqi, this] at hmod
    omega
  · -- right padding column: (py+2) * (W+1), remainder 0
    have hrw : (py + 1) * (g.width + 1) + (px + 1) = (py + 2) * (g.width + 1) := by
      rw [h]
      ring
    have : ((py + 1) * (g.width + 1) + (px + 1)) % (g.width + 1) = 0 := by
      rw [hrw]
      simp [Int.mul_emod_left]
    rw [heqi, this] at hmod
    omega
  · -- top padding row: quotient 0 or remainder 0
    rcases (by omega : px < g.width ∨ px = g.width) with h2 | h2
    · have : ((py + 1) * (g.width + 1) + (px + 1)) / (g.width + 1) = 0 := by
        rw [h]
        simpa using Int.ediv_eq_zero_of_lt (by omega) (by omega)
      rw [heqi, this] at hdiv
      omega
    · have hrw : (py + 1) * (g.width + 1) + (px + 1) = 1 * (g.width + 1) := by
        rw [h, h2]
        ring
      have : ((py + 1) * (g.width + 1) + (px + 1)) % (g.width + 1) = 0 := by
        rw [hrw]
        simp [Int.mul_emod_left]
      rw [heqi, this] at hmod
      omega
  · -- bottom padding row: quotient ≥ H+1 or remainder 0
    rcases (by omega : px < g.width ∨ px = g.width) with h2 | h2
    · have : ((py + 1) * (g.width + 1) + (px + 1)) / (g.width + 1) = py + 1 := by
        rw [add_comm, mul_comm, Int.add_mul_ediv_left _ _ (by omega : g.width + 1 ≠ 0),
          Int.ediv_eq_zero_of_lt (by omega) (by omega)]
        omega
      rw [heqi, this] at hdiv
      omega
    · have hrw : (py + 1) * (g.width + 1) + (px + 1) = (py + 2) * (g.width + 1) := by
        rw [h2]
        ring
      have : ((py + 1) * (g.width + 1) + (px + 1)) % (g.width + 1) = 0 := by
        rw [hrw]
        simp [Int.mul_emod_left]
      rw [heqi, this] at hmod
      omega

end BitGrid

open BitGrid in
/-- C6.  For every `BitGrid` and in-bounds `(x, y)`, a direction is in
`get_neighbors x y` exactly when `get` at the corresponding surrounding cell
is true: the direction set is the explicit 3×3 read. -/
theorem claim6_neighbors (g : BitGrid) (x y : Int)
    (hx : 0 ≤ x) (hxw : x < g.width) (hy : 0 ≤ y) (hyh : y < g.height)
    (d : Direction) :
    dirMem d (g.get_neighbors x y) = g.get (x + d.dx) (y + d.dy) :=
  neighbors_bit g x y hx hxw hy hyh d

open BitGrid in
set_option maxRecDepth 100000 in
/-- C6, witness: the empty 5×5 grid at `(0, 0)`; the west neighbour is the
padding column, hence reported obstructed. -/
theorem claim6_neighbors_witness :
    ((0 : Int) ≤ 0 ∧ (0 : Int) < (BitGrid.new 5 5).width ∧
      (0 : Int) ≤ 0 ∧ (0 : Int) < (BitGrid.new 5 5).height) ∧
    dirMem .west ((BitGrid.new 5 5).get_neighbors 0 0) =
      (BitGrid.new 5 5).get (0 + Direction.west.dx) (0 + Direction.west.dy) :=
  ⟨by decide,
    claim6_neighbors (BitGrid.new 5 5) 0 0 (by decide) (by decide) (by decide)
      (by decide) .west⟩


namespace BitGrid

/-- `setu` preserves the dimensions. -/
theorem setu_width (g : BitGrid) (x y : Int) (v : Bool) :
    (g.setu x y v).width = g.width := rfl

theorem setu_height (g : BitGrid) (x y : Int) (v : Bool) :
    (g.setu x y v).height = g.height := rfl

theorem setu_locate (g : BitGrid) (x y : Int) (v : Bool) :
    (g.setu x y v).locate = g.locate := rfl

/-- Writing `true` never clears a bit. -/
theorem setu_true_mono (g : BitGrid) (x y : Int) (p : Int)
    (h : g.backing p = true) : (g.setu x y true).backing p = true := by
  unfold setu
  by_cases hp : p = (g.locate x y : Int) <;> simp [hp, h]

/-- Folding `true` writes never clears a bit. -/
theorem fold_setu_true_mono (l : List (Int × Int)) (g : BitGrid) (p : Int)
    (h : g.backing p = true) :
    (l.foldl (fun g c => g.setu c.1 c.2 true) g).backing p = true := by
  induction l generalizing g with
  | nil => exact h
  | cons c cs ih => exact ih _ (setu_true_mono g c.1 c.2 p h)

/-- After folding `true` writes, the bit of each written cell is set. -/
theorem fold_setu_true_mem (l : List (Int × Int)) (g : BitGrid) (c : Int × Int)
    (hc : c ∈ l) :
    (l.foldl (fun g c => g.setu c.1 c.2 true) g).backing (g.locate c.1 c.2) = true := by
  induction l generalizing g with
  | nil => cases hc
  | cons d ds ih =>
    rcases List.mem_cons.mp hc with rfl | hc
    · refine fold_setu_true_mono ds _ _ ?_
      unfold setu
      simp
    · have hl : (g.setu d.1 d.2 true).locate = g.locate := rfl
      simpa [hl] using ih (g.setu d.1 d.2 true) hc

/-- Folding `true` writes does not change the layout. -/
theorem fold_setu_true_locate (l : List (Int × Int)) (g : BitGrid) :
    (l.foldl (fun g c => g.setu c.1 c.2 true) g).locate = g.locate := by
  induction l generalizing g with
  | nil => rfl
  | cons c cs ih => exact ih _

/-- Every padding cell of a freshly constructed grid reads `true`: each ring
coordinate is either written directly by `BitGrid::new`, or shares its bit
with one that is (the bit after the right padding column of row `y` is the
bit of the left padding column of row `y + 1`). -/
theorem new_padding_true (W H : Int) (hW : 0 < W) (hH : 0 < H) (x y : Int)
    (hp : IsPaddingCell W H x y) : (BitGrid.new W H).get x y = true := by
  obtain ⟨⟨hx1, hx2, hy1, hy2⟩, hout⟩ := hp
  unfold BitGrid.new BitGrid.get BitGrid.getu
  set g0 : BitGrid :=
    { width := W, height := H,
      backing := initBacking (bytesLen ⟨W, H, fun _ => false⟩) } with hg0
  rw [fold_setu_true_locate]
  -- find a written coordinate sharing the target's bit
  have main : ∃ c ∈ paddingWrites W H, g0.locate c.1 c.2 = g0.locate x y := by
    have hmem1 : ∀ a, -1 ≤ a → a < W → (a, (-1 : Int)) ∈ paddingWrites W H := by
      intro a h1 h2
      unfold paddingWrites
      refine List.mem_append.mpr (.inl (List.mem_append.mpr (.inl ?_)))
      refine List.mem_flatMap.mpr ⟨a, mem_intRange.mpr ⟨h1, h2⟩, ?_⟩
      simp
    have hmem2 : ∀ a, -1 ≤ a → a < W → (a, H) ∈ paddingWrites W H := by
      intro a h1 h2
      unfold paddingWrites
      refine List.mem_append.mpr (.inl (List.mem_append.mpr (.inl ?_)))
      refine List.mem_flatMap.mpr ⟨a, mem_intRange.mpr ⟨h1, h2⟩, ?_⟩
      simp
    have hmem3 : ∀ b, 0 ≤ b → b < H → ((-1 : Int), b) ∈ paddingWrites W H := by
      intro b h1 h2
      unfold paddingWrites
      refine List.mem_append.mpr (.inl (List.mem_append.mpr (.inr ?_)))
      exact List.mem_map.mpr ⟨b, mem_intRange.mpr ⟨h1, h2⟩, rfl⟩
    have hmem4 : (W, H) ∈ paddingWrites W H := by
      unfold paddingWrites
      exact List.mem_append.mpr (.inr (by simp))
    have hloc : ∀ a b : Int, -1 ≤ a → -1 ≤ b →
        ((g0.locate a b : Nat) : Int) = (b + 1) * (W + 1) + (a + 1) := by
      intro a b h1 h2
      have hg : (0 : Int) ≤ g0.width := by
        rw [hg0]
        show (0 : Int) ≤ W
        omega
      have := locate_eq g0 a b h1 h2 hg
      rw [hg0] at this
      rw [hg0]
      exact this
    have halias : ∀ b : Int, -1 ≤ b → g0.locate W b = g0.locate (-1) (b + 1) := by
      intro b hb
      have h1 := hloc W b (by omega) hb
      have h2 := hloc (-1) (b + 1) (by omega) (by omega)
      have : ((g0.locate W b : Nat) : Int) = ((g0.locate (-1) (b + 1) : Nat) : Int) := by
        rw [h1, h2]
        ring
      exact_mod_cast this
    rcases (by omega : y = -1 ∨ y = H ∨ (0 ≤ y ∧ y < H)) with hy | hy | hy
    · rcases (by omega : x < W ∨ x = W) with hx | hx
      · exact ⟨(x, -1), hmem1 x hx1 hx, by rw [hy]⟩
      · refine ⟨(-1, 0), hmem3 0 le_rfl hH, ?_⟩
        rw [hy, hx, halias (-1) (by omega)]
        norm_num
    · rcases (by omega : x < W ∨ x = W) with hx | hx
      · exact ⟨(x, H), hmem2 x hx1 hx, by rw [hy]⟩
      · exact ⟨(W, H), hmem4, by rw [hy, hx]⟩
    · rcases (by omega : x = -1 ∨ x = W) with hx | hx
      · exact ⟨(-1, y), hmem3 y hy.1 hy.2, by rw [hx]⟩
      · rcases (by omega : y + 1 < H ∨ y + 1 = H) with hy3 | hy3
        · exact ⟨(-1, y + 1), hmem3 (y + 1) (by omega) hy3, by rw [hx, halias y (by omega)]⟩
        · exact ⟨(-1, H), hmem2 (-1) (by omega) (by omega), by
            rw [hx, halias y (by omega), hy3]⟩
  obtain ⟨c, hcmem, hcloc⟩ := main
  rw [← hcloc]
  exact fold_setu_true_mem _ _ _ hcmem

/-- An in-bounds write leaves every padding cell unchanged. -/
theorem setu_get_padding (g : BitGrid) (x1 y1 : Int) (v : Bool) (x y : Int)
    (hin : 0 ≤ x1 ∧ x1 < g.width ∧ 0 ≤ y1 ∧ y1 < g.height)
    (hp : IsPaddingCell g.width g.height x y) :
    (g.setu x1 y1 v).get x y = g.get x y := by
  have hne := locate_inbounds_ne_padding g ⟨hin.1, hin.2.1⟩ ⟨hin.2.2.1, hin.2.2.2⟩ hp
  have hne2 : ((g.locate x y : Nat) : Int) ≠ ((g.locate x1 y1 : Nat) : Int) := by
    exact_mod_cast fun h => hne (by exact_mod_cast h.symm)
  show (if ((g.locate x y : Nat) : Int) = ((g.locate x1 y1 : Nat) : Int) then v
      else g.backing (g.locate x y)) = g.get x y
  rw [if_neg hne2]
  rfl

/-- Apply a sequence of `set` calls, keeping the grid unchanged when a call
fails (the padding claim concerns sequences whose calls all succeed). -/
def applySets (g : BitGrid) (ops : List (Int × Int × Bool)) : BitGrid :=
  ops.foldl (fun g c => (g.set c.1 c.2.1 c.2.2).getD g) g

/-- `applySets` preserves the dimensions and every padding-cell read. -/
theorem applySets_padding (W H : Int) (ops : List (Int × Int × Bool)) (g : BitGrid)
    (hw : g.width = W) (hh : g.height = H)
    (hpad : ∀ x y, IsPaddingCell W H x y → g.get x y = true) :
    (applySets g ops).width = W ∧ (applySets g ops).height = H ∧
      ∀ x y, IsPaddingCell W H x y → (applySets g ops).get x y = true := by
  induction ops generalizing g with
  | nil => exact ⟨hw, hh, hpad⟩
  | cons c cs ih =>
    unfold applySets
    simp only [List.foldl_cons]
    by_cases hb : 0 ≤ c.1 ∧ c.1 < g.width ∧ 0 ≤ c.2.1 ∧ c.2.1 < g.height
    · have hstep : (g.set c.1 c.2.1 c.2.2).getD g = g.setu c.1 c.2.1 c.2.2 := by
        unfold set
        rw [if_pos hb]
        rfl
      rw [hstep]
      refine ih (g.setu c.1 c.2.1 c.2.2) hw hh ?_
      intro x y hp
      rw [setu_get_padding g c.1 c.2.1 c.2.2 x y hb (by rw [hw, hh]; exact hp)]
      exact hpad x y hp
    · have hstep : (g.set c.1 c.2.1 c.2.2).getD g = g := by
        unfold set
        rw [if_neg hb]
        rfl
      rw [hstep]
      exact ih g hw hh hpad

instance (W H x y : Int) : Decidable (IsPaddingCell W H x y) := by
  unfold IsPaddingCell
  exact inferInstance

/-- Folding `true` writes preserves the width. -/
theorem fold_setu_true_width (l : List (Int × Int)) (g : BitGrid) :
    (l.foldl (fun g c => g.setu c.1 c.2 true) g).width = g.width := by
  induction l generalizing g with
  | nil => rfl
  | cons c cs ih => exact ih _

/-- Folding `true` writes preserves the height. -/
theorem fold_setu_true_height (l : List (Int × Int)) (g : BitGrid) :
    (l.foldl (fun g c => g.setu c.1 c.2 true) g).height = g.height := by
  induction l generalizing g with
  | nil => rfl
  | cons c cs ih => exact ih _

end BitGrid

open BitGrid in
/-- C8.  For every `BitGrid` constructed with positive width and height and
every sequence of successful `set` calls (each on an in-bounds cell — `set`
fails, returning `none`, on any other cell, as the second conjunct states),
every padding-ring coordinate still reads `true` via `get`: the ring is true
after construction and never mutated. -/
theorem claim8_padding_ring (W H : Int) (hW : 0 < W) (hH : 0 < H)
    (ops : List (Int × Int × Bool))
    (hops : ∀ c ∈ ops, 0 ≤ c.1 ∧ c.1 < W ∧ 0 ≤ c.2.1 ∧ c.2.1 < H)
    (x y : Int) (hp : IsPaddingCell W H x y) :
    (applySets (BitGrid.new W H) ops).get x y = true ∧
    ∀ x1 y1 : Int, ∀ v : Bool, ¬(0 ≤ x1 ∧ x1 < W ∧ 0 ≤ y1 ∧ y1 < H) →
      (applySets (BitGrid.new W H) ops).set x1 y1 v = none := by
  have hnw : (BitGrid.new W H).width = W := by
    unfold BitGrid.new
    exact fold_setu_true_width _ _
  have hnh : (BitGrid.new W H).height = H := by
    unfold BitGrid.new
    exact fold_setu_true_height _ _
  obtain ⟨hw2, hh2, hpadded⟩ :=
    applySets_padding W H ops (BitGrid.new W H) hnw hnh
      (fun x y hp => new_padding_true W H hW hH x y hp)
  refine ⟨hpadded x y hp, ?_⟩
  intro x1 y1 v hnin
  have hcond : ¬(0 ≤ x1 ∧ x1 < (applySets (BitGrid.new W H) ops).width ∧
      0 ≤ y1 ∧ y1 < (applySets (BitGrid.new W H) ops).height) := by
    rw [hw2, hh2]
    exact hnin
  unfold BitGrid.set
  rw [if_neg hcond]

open BitGrid in
set_option maxRecDepth 100000 in
/-- C8, witness: a 3×2 grid, two successful writes, the padding cell
`(3, 1)`. -/
theorem claim8_padding_ring_witness :
    ((0 : Int) < 3 ∧ (0 : Int) < 2 ∧
      (∀ c ∈ ([(0, 0, true), (2, 1, false)] : List (Int × Int × Bool)),
        0 ≤ c.1 ∧ c.1 < 3 ∧ 0 ≤ c.2.1 ∧ c.2.1 < 2) ∧
      IsPaddingCell 3 2 3 1) ∧
    ((applySets (BitGrid.new 3 2) [(0, 0, true), (2, 1, false)]).get 3 1 = true ∧
      ∀ x1 y1 : Int, ∀ v : Bool, ¬(0 ≤ x1 ∧ x1 < 3 ∧ 0 ≤ y1 ∧ y1 < 2) →
        (applySets (BitGrid.new 3 2) [(0, 0, true), (2, 1, false)]).set x1 y1 v = none) :=
  ⟨⟨by decide, by decide, by decide, by decide⟩,
    claim8_padding_ring 3 2 (by decide) (by decide) _ (by decide) 3 1 (by decide)⟩

/-! ## NoCornerCutting expander
(src/expansion_policy/bitgrid/no_corner_cutting.rs) -/

/-- An edge produced during expansion (`Edge<VertexId>`); the `f64` cost is
idealised as a real number. -/
structure Edge (V : Type) where
  destination : V
  cost : ℝ

/-- `NoCornerCutting::expand_unchecked`.  The Rust function reads only
`node.id = (x, y)` from the search node and pushes onto the caller's edge
buffer; the model returns the list of pushed edges in push order.  The two
`f64` cost constants of the source, `1.0` and `std::f64::consts::SQRT_2`,
are taken as parameters (`cardCost`, `diagCost`) so the definition stays
executable; the claim instantiates them with `1` and `√2`. -/
def expandNCC (g : BitGrid) (x y : Int) (cardCost diagCost : ℝ) :
    List (Edge (Int × Int)) :=
  let nbs := g.get_neighbors x y
  (if ¬ dirMem .north nbs then [⟨(x, y - 1), cardCost⟩] else []) ++
  (if ¬ dirMem .south nbs then [⟨(x, y + 1), cardCost⟩] else []) ++
  (if ¬ dirMem .west nbs then [⟨(x - 1, y), cardCost⟩] else []) ++
  (if ¬ dirMem .east nbs then [⟨(x + 1, y), cardCost⟩] else []) ++
  (if ¬ (dirMem .north nbs ∨ dirMem .west nbs ∨ dirMem .northWest nbs) then
    [⟨(x - 1, y - 1), diagCost⟩] else []) ++
  (if ¬ (dirMem .north nbs ∨ dirMem .east nbs ∨ dirMem .northEast nbs) then
    [⟨(x + 1, y - 1), diagCost⟩] else []) ++
  (if ¬ (dirMem .south nbs ∨ dirMem .west nbs ∨ dirMem .southWest nbs) then
    [⟨(x - 1, y + 1), diagCost⟩] else []) ++
  (if ¬ (dirMem .south nbs ∨ dirMem .east nbs ∨ dirMem .southEast nbs) then
    [⟨(x + 1, y + 1), diagCost⟩] else [])

/-- Membership in a conditional singleton. -/
theorem mem_ite_singleton {α : Type} (e a : α) (p : Prop) [Decidable p] :
    e ∈ (if p then [a] else ([] : List α)) ↔ p ∧ e = a := by
  by_cases h : p <;> simp [h]

open BitGrid in
/-- Helper for C10: on a grid whose padding ring reads true, a neighbour of
an in-bounds cell whose `get` is false is strictly in bounds. -/
theorem free_neighbor_inbounds (g : BitGrid) (x y : Int)
    (hx : 0 ≤ x ∧ x < g.width) (hy : 0 ≤ y ∧ y < g.height)
    (hpad : ∀ a b, IsPaddingCell g.width g.height a b → g.get a b = true)
    (a b : Int) (hax : x - 1 ≤ a ∧ a ≤ x + 1) (hby : y - 1 ≤ b ∧ b ≤ y + 1)
    (hfree : g.get a b = false) :
    0 ≤ a ∧ a < g.width ∧ 0 ≤ b ∧ b < g.height := by
  by_contra hout
  have hp : IsPaddingCell g.width g.height a b := by
    refine ⟨⟨by omega, by omega, by omega, by omega⟩, ?_⟩
    intro hc
    exact hout ⟨hc.1, hc.2.1, hc.2.2.1, hc.2.2.2⟩
  rw [hpad a b hp] at hfree
  cases hfree

open BitGrid in
/-- C10 (implicit).  On a grid built by `new` plus successful `set` calls,
every edge the NoCornerCutting expander pushes for an in-bounds node has a
destination strictly inside `0..W × 0..H` whose cell is unobstructed, with
cost exactly 1 for the four cardinal moves and `√2` for the four diagonal
moves: the true padding ring makes off-grid neighbours appear obstructed. -/
theorem claim10_ncc_edges (W H : Int) (hW : 0 < W) (hH : 0 < H)
    (ops : List (Int × Int × Bool))
    (hops : ∀ c ∈ ops, 0 ≤ c.1 ∧ c.1 < W ∧ 0 ≤ c.2.1 ∧ c.2.1 < H)
    (x y : Int) (hx : 0 ≤ x ∧ x < W) (hy : 0 ≤ y ∧ y < H) :
    ∀ e ∈ expandNCC (applySets (BitGrid.new W H) ops) x y 1 (Real.sqrt 2),
      (0 ≤ e.destination.1 ∧ e.destination.1 < W ∧
        0 ≤ e.destination.2 ∧ e.destination.2 < H) ∧
      (applySets (BitGrid.new W H) ops).get e.destination.1 e.destination.2 = false ∧
      (((e.destination.1 - x) * (e.destination.2 - y) = 0 ∧ e.cost = 1) ∨
        ((e.destination.1 - x) * (e.destination.2 - y) ≠ 0 ∧ e.cost = Real.sqrt 2)) := by
  intro e he
  set g := applySets (BitGrid.new W H) ops with hg
  have hnw : (BitGrid.new W H).width = W := by
    unfold BitGrid.new
    exact fold_setu_true_width _ _
  have hnh : (BitGrid.new W H).height = H := by
    unfold BitGrid.new
    exact fold_setu_true_height _ _
  obtain ⟨hgw, hgh, hpad⟩ :=
    applySets_padding W H ops (BitGrid.new W H) hnw hnh
      (fun a b hp => new_padding_true W H hW hH a b hp)
  rw [← hg] at hgw hgh hpad
  have hxg : 0 ≤ x ∧ x < g.width := by rw [hgw]; exact hx
  have hyg : 0 ≤ y ∧ y < g.height := by rw [hgh]; exact hy
  have hpadg : ∀ a b, IsPaddingCell g.width g.height a b → g.get a b = true := by
    rw [hgw, hgh]
    exact hpad
  have hnb : ∀ d : Direction, ∀ a b : Int, x + d.dx = a → y + d.dy = b →
      ¬ (dirMem d (g.get_neighbors x y) = true) → g.get a b = false := by
    intro d a b hda hdb hcond
    rw [neighbors_bit g x y hxg.1 hxg.2 hyg.1 hyg.2 d, hda, hdb] at hcond
    simpa using hcond
  have finish : ∀ a b : Int, g.get a b = false →
      x - 1 ≤ a ∧ a ≤ x + 1 → y - 1 ≤ b ∧ b ≤ y + 1 →
      (0 ≤ a ∧ a < W ∧ 0 ≤ b ∧ b < H) ∧ g.get a b = false := by
    intro a b hfree hax hby
    have hin := free_neighbor_inbounds g x y hxg hyg hpadg a b hax hby hfree
    rw [hgw, hgh] at hin
    exact ⟨hin, hfree⟩
  unfold expandNCC at he
  simp only [List.mem_append, mem_ite_singleton] at he
  rcases he with (((((((⟨hc, rfl⟩ | ⟨hc, rfl⟩) | ⟨hc, rfl⟩) | ⟨hc, rfl⟩) | ⟨hc, rfl⟩) |
    ⟨hc, rfl⟩) | ⟨hc, rfl⟩) | ⟨hc, rfl⟩)
  · have hres := finish x (y - 1)
      (hnb .north x (y - 1) (by simp [Direction.dx]) (by simp [Direction.dy]; ring) hc)
      (by omega) (by omega)
    exact ⟨hres.1, hres.2, .inl ⟨by ring, rfl⟩⟩
  · have hres := finish x (y + 1)
      (hnb .south x (y + 1) (by simp [Direction.dx]) (by simp [Direction.dy]) hc)
      (by omega) (by omega)
    exact ⟨hres.1, hres.2, .inl ⟨by ring, rfl⟩⟩
  · have hres := finish (x - 1) y
      (hnb .west (x - 1) y (by simp [Direction.dx]; ring) (by simp [Direction.dy]) hc)
      (by omega) (by omega)
    exact ⟨hres.1, hres.2, .inl ⟨by ring, rfl⟩⟩
  · have hres := finish (x + 1) y
      (hnb .east (x + 1) y (by simp [Direction.dx]) (by simp [Direction.dy]) hc)
      (by omega) (by omega)
    exact ⟨hres.1, hres.2, .inl ⟨by ring, rfl⟩⟩
  · have hres := finish (x - 1) (y - 1)
      (hnb .northWest (x - 1) (y - 1) (by simp [Direction.dx]; ring)
        (by simp [Direction.dy]; ring) (fun h => hc (.inr (.inr h))))
      (by omega) (by omega)
    refine ⟨hres.1, hres.2, .inr ⟨?_, rfl⟩⟩
    intro hmul
    simp only [] at hmul
    rcases mul_eq_zero.mp hmul with h | h <;> omega
  · have hres := finish (x + 1) (y - 1)
      (hnb .northEast (x + 1) (y - 1) (by simp [Direction.dx])
        (by simp [Direction.dy]; ring) (fun h => hc (.inr (.inr h))))
      (by omega) (by omega)
    refine ⟨hres.1, hres.2, .inr ⟨?_, rfl⟩⟩
    intro hmul
    simp only [] at hmul
    rcases mul_eq_zero.mp hmul with h | h <;> omega
  · have hres := finish (x - 1) (y + 1)
      (hnb .southWest (x - 1) (y + 1) (by simp [Direction.dx]; ring)
        (by simp [Direction.dy]) (fun h => hc (.inr (.inr h))))
      (by omega) (by omega)
    refine ⟨hres.1, hres.2, .inr ⟨?_, rfl⟩⟩
    intro hmul
    simp only [] at hmul
    rcases mul_eq_zero.mp hmul with h | h <;> omega
  · have hres := finish (x + 1) (y + 1)
      (hnb .southEast (x + 1) (y + 1) (by simp [Direction.dx])
        (by simp [Direction.dy]) (fun h => hc (.inr (.inr h))))
      (by omega) (by omega)
    refine ⟨hres.1, hres.2, .inr ⟨?_, rfl⟩⟩
    intro hmul
    simp only [] at hmul
    rcases mul_eq_zero.mp hmul with h | h <;> omega

open BitGrid in
/-- C10, witness: the empty 3×3 grid at node `(1, 1)` (all eight edges are
pushed). -/
theorem claim10_ncc_edges_witness :
    ((0 : Int) < 3 ∧ (0 : Int) < 3 ∧
      (∀ c ∈ ([] : List (Int × Int × Bool)), 0 ≤ c.1 ∧ c.1 < 3 ∧ 0 ≤ c.2.1 ∧ c.2.1 < 3) ∧
      ((0 : Int) ≤ 1 ∧ (1 : Int) < 3) ∧ ((0 : Int) ≤ 1 ∧ (1 : Int) < 3)) ∧
    ∀ e ∈ expandNCC (applySets (BitGrid.new 3 3) []) 1 1 1 (Real.sqrt 2),
      (0 ≤ e.destination.1 ∧ e.destination.1 < 3 ∧
        0 ≤ e.destination.2 ∧ e.destination.2 < 3) ∧
      (applySets (BitGrid.new 3 3) []).get e.destination.1 e.destination.2 = false ∧
      (((e.destination.1 - 1) * (e.destination.2 - 1) = 0 ∧ e.cost = 1) ∨
        ((e.destination.1 - 1) * (e.destination.2 - 1) ≠ 0 ∧ e.cost = Real.sqrt 2)) :=
  ⟨⟨by decide, by decide, by decide, by decide, by decide⟩,
    claim10_ncc_edges 3 3 (by decide) (by decide) [] (by decide) 1 1 (by decide) (by decide)⟩

/-! ## Search nodes and node pools
(src/lib.rs `SearchNode`, src/node_pool/gridpool.rs, src/node_pool/indexpool.rs)

`search_num : usize` is modelled as a `Nat` together with the explicit
overflow threshold `usizeMax = 2^64 - 1` at which `checked_add` fails. -/

def usizeMax : Nat := 2 ^ 64 - 1

/-- `SearchNode<VertexId>`: per-vertex search state. -/
structure SearchNode (V : Type) where
  searchNum : Nat
  pqueueLocation : Nat
  expansions : Nat
  id : V
  parent : Option V
  g : WithTop ℚ
  lb : WithTop ℚ
deriving DecidableEq

instance : Inhabited (SearchNode (Int × Int)) :=
  ⟨{ searchNum := 0, pqueueLocation := 0, expansions := 0, id := (0, 0),
     parent := none, g := 0, lb := 0 }⟩

instance : Inhabited (SearchNode Nat) :=
  ⟨{ searchNum := 0, pqueueLocation := 0, expansions := 0, id := 0,
     parent := none, g := 0, lb := 0 }⟩

/-- The fields of a node other than the generation stamp (the observable,
"logical" state of a vertex). -/
structure NodeObs (V : Type) where
  pqueueLocation : Nat
  expansions : Nat
  id : V
  parent : Option V
  g : WithTop ℚ
  lb : WithTop ℚ
deriving DecidableEq

def SearchNode.obs {V : Type} (n : SearchNode V) : NodeObs V :=
  { pqueueLocation := n.pqueueLocation, expansions := n.expansions, id := n.id,
    parent := n.parent, g := n.g, lb := n.lb }

/-- `GridPool`: dense per-cell storage, row-major. -/
structure GridPool where
  searchNum : Nat
  width : Int
  height : Int
  grid : List (SearchNode (Int × Int))

namespace GridPool

/-- `GridPool::new` (asserts positive dimensions; nodes start with
`search_num = 0`, `g = lb = 0.0`). -/
def new (width height : Int) : GridPool :=
  { searchNum := 0, width := width, height := height,
    grid := (intRange 0 height).flatMap fun y => (intRange 0 width).map fun x =>
      { searchNum := 0, expansions := 0, pqueueLocation := 0, id := (x, y),
        parent := none, g := 0, lb := 0 } }

/-- `GridPool::locate`. -/
def locate (p : GridPool) (x y : Int) : Nat :=
  (x + y * p.width).toNat

/-- The stored node for a cell (the Rust code indexes the boxed slice). -/
def nodeAt (p : GridPool) (x y : Int) : SearchNode (Int × Int) :=
  p.grid.getD (p.locate x y) default

/-- `GridPool::get`: `Some` only for an in-bounds cell touched in the
current generation (the Rust function panics out of bounds; callers
bounds-check first, so the model returns `none` there). -/
def get (p : GridPool) (x y : Int) : Option (SearchNode (Int × Int)) :=
  if 0 ≤ x ∧ x < p.width ∧ 0 ≤ y ∧ y < p.height then
    if (p.nodeAt x y).searchNum = p.searchNum then some (p.nodeAt x y) else none
  else none

/-- `GridPool::generate_unchecked`: return the node untouched if its stamp
matches the pool's, otherwise re-initialise `lb`, `g`, `expansions`,
`search_num` and `parent` (and only those fields). -/
def generate (p : GridPool) (x y : Int) : GridPool × SearchNode (Int × Int) :=
  let n := p.nodeAt x y
  if n.searchNum = p.searchNum then (p, n)
  else
    let n1 := { n with
      lb := ⊤, g := ⊤, expansions := 0, searchNum := p.searchNum, parent := none }
    ({ p with grid := p.grid.set (p.locate x y) n1 }, n1)

/-- `generate(v).set_location(i)`: the queue mutates the heap index through
the handle `generate` returns. -/
def setLocation (p : GridPool) (x y : Int) (i : Nat) : GridPool :=
  let q := (p.generate x y).1
  { q with
    grid := q.grid.set (q.locate x y) { q.nodeAt x y with pqueueLocation := i } }

/-- `GridPool::reset`: bump the generation; on `checked_add` overflow walk
the nodes, zero their stamps, and restart at 1. -/
def reset (p : GridPool) : GridPool :=
  if p.searchNum = usizeMax then
    { p with searchNum := 1, grid := p.grid.map fun n => { n with searchNum := 0 } }
  else { p with searchNum := p.searchNum + 1 }

/-- Whether slot `i` was touched in the current generation. -/
def touchedAt (p : GridPool) (i : Nat) : Bool :=
  decide ((p.grid.getD i default).searchNum = p.searchNum)

/-- Observational equality of pools: same dimensions, same touched slots and
same per-slot logical node state (everything except the internal generation
stamps). -/
def logicalEq (p q : GridPool) : Prop :=
  p.width = q.width ∧ p.height = q.height ∧ p.grid.length = q.grid.length ∧
  ∀ i, i < p.grid.length →
    p.touchedAt i = q.touchedAt i ∧
    (p.grid.getD i default).obs = (q.grid.getD i default).obs

end GridPool

/-- `IndexPool`: dense storage keyed by `0..N`. -/
structure IndexPool where
  searchNum : Nat
  pool : List (SearchNode Nat)

namespace IndexPool

/-- `IndexPool::new`. -/
def new (size : Nat) : IndexPool :=
  { searchNum := 0,
    pool := (List.range size).map fun id =>
      { searchNum := 0, id := id, expansions := 0, g := 0, lb := 0,
        parent := none, pqueueLocation := 0 } }

def nodeAt (p : IndexPool) (id : Nat) : SearchNode Nat :=
  p.pool.getD id default

/-- `IndexPool::generate_unchecked`. -/
def generate (p : IndexPool) (id : Nat) : IndexPool × SearchNode Nat :=
  let n := p.nodeAt id
  if n.searchNum = p.searchNum then (p, n)
  else
    let n1 := { n with
      lb := ⊤, g := ⊤, expansions := 0, searchNum := p.searchNum, parent := none }
    ({ p with pool := p.pool.set id n1 }, n1)

/-- `IndexPool::reset`. -/
def reset (p : IndexPool) : IndexPool :=
  if p.searchNum = usizeMax then
    { p with searchNum := 1, pool := p.pool.map fun n => { n with searchNum := 0 } }
  else { p with searchNum := p.searchNum + 1 }

end IndexPool

/-- C2, counterexample.  The claim says an untouched vertex is freshly
initialised with heap position index 0.  Reachable refutation on a 1×1
`GridPool`: reset, generate `(0, 0)`, let the queue store heap index 3
through the handle, reset again — the vertex is untouched, yet `generate`
returns the node with `pqueue_location = 3`, because `generate_unchecked`
re-initialises `g`, `lb`, `expansions`, `parent` and the stamp but not the
heap position. -/
theorem claim2_generate_counterexample :
    (((((GridPool.new 1 1).reset.generate 0 0).1.setLocation 0 0 3).reset.nodeAt 0 0).searchNum ≠
        ((((GridPool.new 1 1).reset.generate 0 0).1.setLocation 0 0 3).reset).searchNum) ∧
    (((((GridPool.new 1 1).reset.generate 0 0).1.setLocation 0 0 3).reset.generate 0 0).2.pqueueLocation
        = 3) := by
  decide

/-- C2, amended.  `generate` on an untouched in-bounds vertex returns the
node re-initialised with `g = lb = +∞`, no parent, zero expansions and the
current generation stamp, leaving the stored id and the heap position index
unchanged (the heap index is 0 only if the queue never stored one); on a
touched vertex it returns the pool and node unchanged.  Stated for both
`GridPool` and `IndexPool`. -/
theorem claim2_generate_amended (p : GridPool) (x y : Int)
    (hx : 0 ≤ x ∧ x < p.width) (hy : 0 ≤ y ∧ y < p.height)
    (q : IndexPool) (i : Nat) (hi : i < q.pool.length) :
    ((p.nodeAt x y).searchNum ≠ p.searchNum →
      (p.generate x y).2 =
        { p.nodeAt x y with
          g := ⊤, lb := ⊤, parent := none, expansions := 0, searchNum := p.searchNum }) ∧
    ((p.nodeAt x y).searchNum = p.searchNum → p.generate x y = (p, p.nodeAt x y)) ∧
    ((q.nodeAt i).searchNum ≠ q.searchNum →
      (q.generate i).2 =
        { q.nodeAt i with
          g := ⊤, lb := ⊤, parent := none, expansions := 0, searchNum := q.searchNum }) ∧
    ((q.nodeAt i).searchNum = q.searchNum → q.generate i = (q, q.nodeAt i)) := by
  refine ⟨?_, ?_, ?_, ?_⟩
  · intro h
    unfold GridPool.generate
    rw [if_neg h]
  · intro h
    unfold GridPool.generate
    rw [if_pos h]
  · intro h
    unfold IndexPool.generate
    rw [if_neg h]
  · intro h
    unfold IndexPool.generate
    rw [if_pos h]

/-- C2, amended, witness: a freshly reset 1×1 grid pool (vertex untouched)
and a size-1 index pool left at generation 0 (vertex touched). -/
theorem claim2_generate_amended_witness :
    (((0 : Int) ≤ 0 ∧ (0 : Int) < (GridPool.new 1 1).reset.width) ∧
      ((0 : Int) ≤ 0 ∧ (0 : Int) < (GridPool.new 1 1).reset.height) ∧
      0 < (IndexPool.new 1).pool.length) ∧
    ((((GridPool.new 1 1).reset.nodeAt 0 0).searchNum ≠ (GridPool.new 1 1).reset.searchNum →
      ((GridPool.new 1 1).reset.generate 0 0).2 =
        { (GridPool.new 1 1).reset.nodeAt 0 0 with
          g := ⊤, lb := ⊤, parent := none, expansions := 0,
          searchNum := (GridPool.new 1 1).reset.searchNum }) ∧
    (((GridPool.new 1 1).reset.nodeAt 0 0).searchNum = (GridPool.new 1 1).reset.searchNum →
      (GridPool.new 1 1).reset.generate 0 0 =
        ((GridPool.new 1 1).reset, (GridPool.new 1 1).reset.nodeAt 0 0)) ∧
    (((IndexPool.new 1).nodeAt 0).searchNum ≠ (IndexPool.new 1).searchNum →
      ((IndexPool.new 1).generate 0).2 =
        { (IndexPool.new 1).nodeAt 0 with
          g := ⊤, lb := ⊤, parent := none, expansions := 0,
          searchNum := (IndexPool.new 1).searchNum }) ∧
    (((IndexPool.new 1).nodeAt 0).searchNum = (IndexPool.new 1).searchNum →
      (IndexPool.new 1).generate 0 = (IndexPool.new 1, (IndexPool.new 1).nodeAt 0))) :=
  ⟨⟨⟨by decide, by decide⟩, ⟨by decide, by decide⟩, by decide⟩,
    claim2_generate_amended (GridPool.new 1 1).reset 0 0 ⟨by decide, by decide⟩
      ⟨by decide, by decide⟩ (IndexPool.new 1) 0 (by decide)⟩

namespace GridPool

/-- `getD` through `map` on a valid index. -/
theorem getD_map_stamp (l : List (SearchNode (Int × Int))) (i : Nat)
    (hi : i < l.length) :
    (l.map fun n => { n with searchNum := 0 }).getD i default =
      { l.getD i default with searchNum := 0 } := by
  have h1 : l[i]? = some l[i] := List.getElem?_eq_getElem hi
  simp [List.getD_eq_getElem?_getD, List.getElem?_map, h1]

/-- A stored stamp bounded by the old generation never matches a strictly
larger one. -/
theorem touchedAt_false (p : GridPool) (s : Nat) (i : Nat)
    (hlt : ∀ n ∈ p.grid, n.searchNum < s) (hi : i < p.grid.length)
    (hs : p.searchNum = s) : p.touchedAt i = false := by
  unfold touchedAt
  have hmem : p.grid.getD i default ∈ p.grid := by
    rw [List.getD_eq_getElem p.grid default hi]
    exact List.getElem_mem hi
  have := hlt _ hmem
  simp only [decide_eq_false_iff_not]
  omega

end GridPool

open GridPool in
/-- C9.  Reset is idempotent: on any pool state whose stored stamps are
bounded by the pool's generation (true of every reachable state, including
just after the overflow walk), two resets in a row give the same logical
state as one — same dimensions, same (empty) touched set, same stored
logical node fields — and after either, every slot is untouched. -/
theorem claim9_reset_idempotent (p : GridPool)
    (hmax : p.searchNum ≤ usizeMax)
    (hnodes : ∀ n ∈ p.grid, n.searchNum ≤ p.searchNum) :
    logicalEq p.reset.reset p.reset ∧
    (∀ i, i < p.reset.grid.length → p.reset.touchedAt i = false) ∧
    (∀ i, i < p.reset.reset.grid.length → p.reset.reset.touchedAt i = false) := by
  have hmk : ∀ (s : Nat) (w h : Int) (l : List (SearchNode (Int × Int))) (i : Nat),
      (∀ n ∈ l, n.searchNum < s) → i < l.length →
      touchedAt ⟨s, w, h, l⟩ i = false := by
    intro s w h l i hlt hi
    unfold touchedAt
    have hmem : l.getD i default ∈ l := by
      rw [List.getD_eq_getElem l default hi]
      exact List.getElem_mem hi
    have := hlt _ hmem
    simp only [decide_eq_false_iff_not]
    omega
  have hzlt : ∀ (s : Nat) (l : List (SearchNode (Int × Int))),
      0 < s → ∀ n ∈ l.map fun n => { n with searchNum := 0 }, n.searchNum < s := by
    intro s l hs n hn
    simp only [List.mem_map] at hn
    obtain ⟨m, hm, rfl⟩ := hn
    exact hs
  by_cases hov : p.searchNum = usizeMax
  · -- first reset overflows: stamps zeroed, generation restarts at 1
    have hr1 : p.reset = ⟨1, p.width, p.height,
        p.grid.map fun n => { n with searchNum := 0 }⟩ := by
      simp [reset, hov]
    have hr2 : p.reset.reset = ⟨2, p.width, p.height,
        p.grid.map fun n => { n with searchNum := 0 }⟩ := by
      rw [hr1]
      have h1 : (1 : Nat) ≠ usizeMax := by decide
      simp [reset, h1]
    rw [hr2, hr1]
    refine ⟨⟨rfl, rfl, rfl, ?_⟩, ?_, ?_⟩
    · intro i hi
      simp only [List.length_map] at hi
      refine ⟨?_, rfl⟩
      rw [hmk 2 p.width p.height _ i (hzlt 2 p.grid (by omega)) (by simpa using hi),
        hmk 1 p.width p.height _ i (hzlt 1 p.grid (by omega)) (by simpa using hi)]
    · intro i hi
      simp only [List.length_map] at hi
      exact hmk 1 p.width p.height _ i (hzlt 1 p.grid (by omega)) (by simpa using hi)
    · intro i hi
      simp only [List.length_map] at hi
      exact hmk 2 p.width p.height _ i (hzlt 2 p.grid (by omega)) (by simpa using hi)
  · -- first reset just bumps the generation
    have hlt1 : ∀ n ∈ p.grid, n.searchNum < p.searchNum + 1 := by
      intro n hn
      have := hnodes n hn
      omega
    have hr1 : p.reset = ⟨p.searchNum + 1, p.width, p.height, p.grid⟩ := by
      simp [reset, hov]
    by_cases hov2 : p.searchNum + 1 = usizeMax
    · -- second reset overflows
      have hr2 : p.reset.reset = ⟨1, p.width, p.height,
          p.grid.map fun n => { n with searchNum := 0 }⟩ := by
        rw [hr1]
        simp [reset, hov2]
      rw [hr2, hr1]
      refine ⟨⟨rfl, rfl, by simp, ?_⟩, ?_, ?_⟩
      · intro i hi
        simp only [List.length_map] at hi
        refine ⟨?_, ?_⟩
        · rw [hmk 1 p.width p.height _ i (hzlt 1 p.grid (by omega)) (by simpa using hi),
            hmk (p.searchNum + 1) p.width p.height p.grid i hlt1 (by simpa using hi)]
        · show ((p.grid.map fun n : SearchNode (Int × Int) =>
              { n with searchNum := 0 }).getD i default).obs = _
          rw [getD_map_stamp p.grid i (by simpa using hi)]
          rfl
      · intro i hi
        exact hmk (p.searchNum + 1) p.width p.height p.grid i hlt1 hi
      · intro i hi
        simp only [List.length_map] at hi
        exact hmk 1 p.width p.height _ i (hzlt 1 p.grid (by omega)) (by simpa using hi)
    · -- second reset also just bumps
      have hlt2 : ∀ n ∈ p.grid, n.searchNum < p.searchNum + 2 := by
        intro n hn
        have := hnodes n hn
        omega
      have hr2 : p.reset.reset = ⟨p.searchNum + 2, p.width, p.height, p.grid⟩ := by
        rw [hr1]
        simp [reset, hov2]
      rw [hr2, hr1]
      refine ⟨⟨rfl, rfl, rfl, ?_⟩, ?_, ?_⟩
      · intro i hi
        refine ⟨?_, rfl⟩
        rw [hmk (p.searchNum + 2) p.width p.height p.grid i hlt2 hi,
          hmk (p.searchNum + 1) p.width p.height p.grid i hlt1 hi]
      · intro i hi
        exact hmk (p.searchNum + 1) p.width p.height p.grid i hlt1 hi
      · intro i hi
        exact hmk (p.searchNum + 2) p.width p.height p.grid i hlt2 hi

open GridPool in
/-- C9, witness: a 1×1 pool with one touched vertex. -/
theorem claim9_reset_idempotent_witness :
    ((((GridPool.new 1 1).reset.generate 0 0).1.searchNum ≤ usizeMax) ∧
      (∀ n ∈ ((GridPool.new 1 1).reset.generate 0 0).1.grid,
        n.searchNum ≤ ((GridPool.new 1 1).reset.generate 0 0).1.searchNum)) ∧
    (logicalEq ((GridPool.new 1 1).reset.generate 0 0).1.reset.reset
        ((GridPool.new 1 1).reset.generate 0 0).1.reset ∧
      (∀ i, i < ((GridPool.new 1 1).reset.generate 0 0).1.reset.grid.length →
        ((GridPool.new 1 1).reset.generate 0 0).1.reset.touchedAt i = false) ∧
      (∀ i, i < ((GridPool.new 1 1).reset.generate 0 0).1.reset.reset.grid.length →
        ((GridPool.new 1 1).reset.generate 0 0).1.reset.reset.touchedAt i = false)) :=
  ⟨⟨by decide, by decide⟩,
    claim9_reset_idempotent ((GridPool.new 1 1).reset.generate 0 0).1 (by decide) (by decide)⟩

/-! ## JPS cardinal jump scan (src/expansion_policy/bitgrid/jps.rs)

`jump_plus_unchecked` is a `loop`; it is embedded with explicit fuel
(`none` = fuel exhausted before the scan stopped).  On a real grid the
padding and guard bits stop every scan, so any sufficiently large fuel gives
`some`. -/

/-- `u64::trailing_zeros`, by fueled halving (64 steps suffice for `u64`
values; the scan only queries nonzero words). -/
def ctzGo : Nat → Nat → Nat
  | 0, _ => 0
  | f + 1, n => if n % 2 = 1 ∨ n = 0 then 0 else ctzGo f (n / 2) + 1

def ctz64 (n : Nat) : Nat := ctzGo 64 n

theorem ctzGo_spec (f : Nat) (n : Nat) (hn : 0 < n) (hf : n < 2 ^ f) :
    n.testBit (ctzGo f n) = true ∧ ∀ j, j < ctzGo f n → n.testBit j = false := by
  induction f generalizing n with
  | zero => omega
  | succ f ih =>
    unfold ctzGo
    by_cases h : n % 2 = 1 ∨ n = 0
    · rw [if_pos h]
      constructor
      · simp
        omega
      · omega
    · rw [if_neg h]
      have hev : n % 2 = 0 := by omega
      have hn2 : 0 < n / 2 := by omega
      have hf2 : n / 2 < 2 ^ f := by
        rw [pow_succ] at hf
        omega
      obtain ⟨h1, h2⟩ := ih (n / 2) hn2 hf2
      refine ⟨by rw [Nat.testBit_add_one]; exact h1, ?_⟩
      intro j hj
      cases j with
      | zero =>
        simp
        omega
      | succ j =>
        rw [Nat.testBit_add_one]
        exact h2 j (by omega)

theorem ctz64_spec (n : Nat) (hn : 0 < n) (hf : n < 2 ^ 64) :
    n.testBit (ctz64 n) = true ∧ ∀ j, j < ctz64 n → n.testBit j = false :=
  ctzGo_spec 64 n hn hf

/-- One loop of `jump_plus_unchecked` (east scan), with fuel and the running
`distance` accumulator. -/
def jumpPlusGo (map : BitGrid) (x y gx gy : Int) : Nat → Int → Option (Except Bool Int)
  | 0, _ => none
  | fuel + 1, dist =>
    let above := map.get_row (x + dist) (y - 1)
    let bits := map.get_row (x + dist) y
    let below := map.get_row (x + dist) (y + 1)
    let fa := (above <<< 1) &&& ((2 ^ 64 - 1) ^^^ above)
    let fb := (below <<< 1) &&& ((2 ^ 64 - 1) ^^^ below)
    let stop := (fa ||| fb ||| bits) &&& (2 ^ 57 - 1)
    if stop ≠ 0 then
      let s := ctz64 stop
      let dist1 := dist + s
      if y = gy ∧ x ≤ gx ∧ gx ≤ x + dist1 then some (Except.ok (gx - x))
      else if bits.testBit s then some (Except.error (decide (dist1 ≤ 1)))
      else some (Except.ok dist1)
    else jumpPlusGo map x y gx gy fuel (dist + 56)

/-- `jump_plus_unchecked` from distance 0. -/
def jumpPlus (map : BitGrid) (fuel : Nat) (x y gx gy : Int) : Option (Except Bool Int) :=
  jumpPlusGo map x y gx gy fuel 0

/-- The goal-free part of the same scan: the cumulative distance `D` at the
first non-zero stop mask, and whether the lowest stop bit lies on the `at`
row (the scan-fails case). -/
def jumpStopGo (map : BitGrid) (x y : Int) : Nat → Int → Option (Int × Bool)
  | 0, _ => none
  | fuel + 1, dist =>
    let above := map.get_row (x + dist) (y - 1)
    let bits := map.get_row (x + dist) y
    let below := map.get_row (x + dist) (y + 1)
    let fa := (above <<< 1) &&& ((2 ^ 64 - 1) ^^^ above)
    let fb := (below <<< 1) &&& ((2 ^ 64 - 1) ^^^ below)
    let stop := (fa ||| fb ||| bits) &&& (2 ^ 57 - 1)
    if stop ≠ 0 then
      let s := ctz64 stop
      some (dist + s, bits.testBit s)
    else jumpStopGo map x y fuel (dist + 56)

def jumpStop (map : BitGrid) (fuel : Nat) (x y : Int) : Option (Int × Bool) :=
  jumpStopGo map x y fuel 0

theorem jumpPlusGo_eq_stop (map : BitGrid) (x y gx gy : Int) (fuel : Nat) (dist : Int) :
    jumpPlusGo map x y gx gy fuel dist =
      (jumpStopGo map x y fuel dist).map fun r =>
        if y = gy ∧ x ≤ gx ∧ gx ≤ x + r.1 then Except.ok (gx - x)
        else if r.2 then Except.error (decide (r.1 ≤ 1)) else Except.ok r.1 := by
  induction fuel generalizing dist with
  | zero => rfl
  | succ fuel ih =>
    unfold jumpPlusGo jumpStopGo
    by_cases h : (((map.get_row (x + dist) (y - 1) <<< 1) &&&
          ((2 ^ 64 - 1) ^^^ map.get_row (x + dist) (y - 1)) |||
          (map.get_row (x + dist) (y + 1) <<< 1) &&&
          ((2 ^ 64 - 1) ^^^ map.get_row (x + dist) (y + 1)) |||
          map.get_row (x + dist) y) &&& (2 ^ 57 - 1)) ≠ 0
    · rw [if_pos h, if_pos h]
      simp only [Option.map_some, Option.map_some', apply_ite some]
    · rw [if_neg h, if_neg h]
      exact ih (dist + 56)

/-- The index of the highest set bit (64 halving steps suffice for `u64`
words). -/
def msbGo : Nat → Nat → Nat
  | 0, _ => 0
  | f + 1, n => if n < 2 then 0 else msbGo f (n / 2) + 1

/-- `u64::leading_zeros`: 64 on zero, else 63 minus the highest set bit. -/
def clz64 (n : Nat) : Nat := if n = 0 then 64 else 63 - msbGo 64 n

/-- One loop of `jump_minus_unchecked` (west scan), with fuel and the
running `distance` accumulator: `get_row_upper` reads, down-shifted forced
masks, `!0 << 7` stop mask, `leading_zeros`, and the mirrored goal test
`x - distance <= goal_x && goal_x <= x`; the on-row stop bit is
`bits & (1 << 63) >> stop`, i.e. bit `63 - stop`. -/
def jumpMinusGo (map : BitGrid) (x y gx gy : Int) :
    Nat → Int → Option (Except Bool Int)
  | 0, _ => none
  | fuel + 1, dist =>
    let above := map.get_row_upper (x - dist) (y - 1)
    let bits := map.get_row_upper (x - dist) y
    let below := map.get_row_upper (x - dist) (y + 1)
    let fa := (above >>> 1) &&& ((2 ^ 64 - 1) ^^^ above)
    let fb := (below >>> 1) &&& ((2 ^ 64 - 1) ^^^ below)
    let stop := (fa ||| fb ||| bits) &&& (2 ^ 64 - 2 ^ 7)
    if stop ≠ 0 then
      let s := clz64 stop
      let dist1 := dist + s
      if y = gy ∧ x - dist1 ≤ gx ∧ gx ≤ x then some (Except.ok (x - gx))
      else if bits.testBit (63 - s) then some (Except.error (decide (dist1 ≤ 1)))
      else some (Except.ok dist1)
    else jumpMinusGo map x y gx gy fuel (dist + 56)

/-- `jump_minus_unchecked` from distance 0. -/
def jumpMinus (map : BitGrid) (fuel : Nat) (x y gx gy : Int) :
    Option (Except Bool Int) :=
  jumpMinusGo map x y gx gy fuel 0

/-- The goal-free part of the west scan: the cumulative distance `D` at the
first non-zero stop mask, and whether the leading stop bit lies on the
scanned row. -/
def jumpMinusStopGo (map : BitGrid) (x y : Int) : Nat → Int → Option (Int × Bool)
  | 0, _ => none
  | fuel + 1, dist =>
    let above := map.get_row_upper (x - dist) (y - 1)
    let bits := map.get_row_upper (x - dist) y
    let below := map.get_row_upper (x - dist) (y + 1)
    let fa := (above >>> 1) &&& ((2 ^ 64 - 1) ^^^ above)
    let fb := (below >>> 1) &&& ((2 ^ 64 - 1) ^^^ below)
    let stop := (fa ||| fb ||| bits) &&& (2 ^ 64 - 2 ^ 7)
    if stop ≠ 0 then
      let s := clz64 stop
      some (dist + s, bits.testBit (63 - s))
    else jumpMinusStopGo map x y fuel (dist + 56)

def jumpMinusStop (map : BitGrid) (fuel : Nat) (x y : Int) :
    Option (Int × Bool) :=
  jumpMinusStopGo map x y fuel 0

theorem jumpMinusGo_eq_stop (map : BitGrid) (x y gx gy : Int) (fuel : Nat)
    (dist : Int) :
    jumpMinusGo map x y gx gy fuel dist =
      (jumpMinusStopGo map x y fuel dist).map fun r =>
        if y = gy ∧ x - r.1 ≤ gx ∧ gx ≤ x then Except.ok (x - gx)
        else if r.2 then Except.error (decide (r.1 ≤ 1))
        else Except.ok r.1 := by
  induction fuel generalizing dist with
  | zero => rfl
  | succ fuel ih =>
    unfold jumpMinusGo jumpMinusStopGo
    by_cases h : (((map.get_row_upper (x - dist) (y - 1) >>> 1) &&&
          ((2 ^ 64 - 1) ^^^ map.get_row_upper (x - dist) (y - 1)) |||
          (map.get_row_upper (x - dist) (y + 1) >>> 1) &&&
          ((2 ^ 64 - 1) ^^^ map.get_row_upper (x - dist) (y + 1)) |||
          map.get_row_upper (x - dist) y) &&& (2 ^ 64 - 2 ^ 7)) ≠ 0
    · rw [if_pos h, if_pos h]
      simp only [Option.map_some, Option.map_some', apply_ite some]
    · rw [if_neg h, if_neg h]
      exact ih (dist + 56)

deriving instance DecidableEq for Except

open BitGrid in
set_option maxRecDepth 400000 in
/-- C5, counterexample.  The claim says the scan succeeds at the goal
exactly when `goal_x` lies in the half-open interval `(x, x + D]`,
exclusive at `x`.  On the empty 5×5 grid, scanning east from `(1, 1)`
toward the goal `(1, 1)` itself, the first non-zero stop mask gives
`D = 4`, and `goal_x = x = 1` is outside `(1, 5]` — yet the code, whose
goal test is `x <= goal_x` (inclusive), returns `Ok(goal_x - x) = Ok 0`,
succeeding at the goal directly. -/
theorem claim5_jump_goal_counterexample :
    jumpStop (BitGrid.new 5 5) 10 1 1 = some (4, true) ∧
    jumpPlus (BitGrid.new 5 5) 10 1 1 1 1 = some (Except.ok 0) ∧
    ¬((1 : Int) < 1 ∧ (1 : Int) ≤ 1 + 4) := by
  refine ⟨by decide, by decide, by decide⟩

/-- C5, amended.  The east cardinal jump scan (`jump_plus_unchecked`)
succeeds at the goal directly, returning `goal_x - x`, exactly when
`y = goal_y` and `goal_x` lies in the closed interval `[x, x + D]`
(inclusive at both ends), where `D` is the cumulative distance at the
scan's first non-zero stop mask; otherwise it fails (`Err (D ≤ 1)`) when
the lowest stop bit lies on the scanned row itself, and succeeds at
distance `D` (`Ok D`) when the stop is a forced neighbour.  Symmetrically,
the west scan (`jump_minus_unchecked`) succeeds at the goal, returning
`x - goal_x`, exactly when `y = goal_y` and `goal_x` lies in the closed
interval `[x - D, x]`, fails (`Err (D ≤ 1)`) when the leading stop bit
lies on the scanned row, and returns `Ok D` otherwise.  Stated as: each
scan equals its goal-free stop scan with exactly this decision rule on
top, for every fuel. -/
theorem claim5_jump_goal_amended (map : BitGrid) (fuel : Nat) (x y gx gy : Int) :
    (jumpPlus map fuel x y gx gy =
      (jumpStop map fuel x y).map fun r =>
        if y = gy ∧ x ≤ gx ∧ gx ≤ x + r.1 then Except.ok (gx - x)
        else if r.2 then Except.error (decide (r.1 ≤ 1)) else Except.ok r.1) ∧
    (jumpMinus map fuel x y gx gy =
      (jumpMinusStop map fuel x y).map fun r =>
        if y = gy ∧ x - r.1 ≤ gx ∧ gx ≤ x then Except.ok (x - gx)
        else if r.2 then Except.error (decide (r.1 ≤ 1)) else Except.ok r.1) :=
  ⟨jumpPlusGo_eq_stop map x y gx gy fuel 0,
    jumpMinusGo_eq_stop map x y gx gy fuel 0⟩

/-! ## Abstract node pool and the indexed priority queue (src/pqueue.rs)

The queue and the engine are generic over `impl NodePool`; the pool is
embedded through the `NodePool` contract (`reset` / `generate` / `get`)
that `GridPool`, `IndexPool` and `HashPool` implement: a total store of
nodes plus the set of vertices touched since the last reset.  `generate` on
an untouched vertex performs exactly the re-initialisation
`generate_unchecked` performs (leaving the heap index and the stored id
alone, as proved for the concrete pools above). -/

structure PState (V : Type) where
  nodes : V → SearchNode V
  touched : V → Bool

namespace PState

variable {V : Type} [DecidableEq V]

/-- `NodePool::get`: the node only if touched. -/
def get (p : PState V) (v : V) : Option (SearchNode V) :=
  if p.touched v then some (p.nodes v) else none

/-- `NodePool::generate` (unchecked flavour; the callers below are all
in-bounds by construction). -/
def generate (p : PState V) (v : V) : PState V :=
  if p.touched v then p
  else
    { nodes := fun w =>
        if w = v then
          { p.nodes v with lb := ⊤, g := ⊤, expansions := 0, parent := none }
        else p.nodes w,
      touched := fun w => w = v || p.touched w }

/-- Overwrite the heap index through the handle (`.set_location(i)`). -/
def setLoc (p : PState V) (v : V) (i : Nat) : PState V :=
  { p with nodes := fun w =>
      if w = v then { p.nodes v with pqueueLocation := i } else p.nodes w }

/-- `generate(v).set_location(i)`, the queue's way of writing a heap
index. -/
def genSetLoc (p : PState V) (v : V) (i : Nat) : PState V :=
  (p.generate v).setLoc v i

end PState

/-- The A* comparator (src/algs/astar.rs `astar_ordering`): smaller `lb`
first, ties broken in favour of larger `g`. -/
def astarOrd {V : Type} (a b : SearchNode V) : Bool :=
  if a.lb < b.lb then true
  else if b.lb < a.lb then false
  else decide (b.g ≤ a.g)

/-- Queue state: the pool plus the heap array of vertices
(`PriorityQueue { heap: Vec<V> }`). -/
structure QState (V : Type) where
  pool : PState V
  heap : List V

namespace QState

variable {V : Type} [DecidableEq V] [Inhabited V]

/-- The node at heap slot `i` (`data.get(self.heap[i]).unwrap()`; all
queue reads are of touched in-range slots, so the unwrap is total). -/
def heapVal (s : QState V) (i : Nat) : SearchNode V :=
  s.pool.nodes (s.heap.getD i default)

/-- `PriorityQueue::le`. -/
def leIdx (le : SearchNode V → SearchNode V → Bool) (s : QState V) (i j : Nat) : Bool :=
  le (s.heapVal i) (s.heapVal j)

/-- `heap.swap(i, j)` followed by the two `generate(..).set_location(..)`
calls that re-point the moved nodes at their new slots. -/
def hswap (s : QState V) (i j : Nat) : QState V :=
  let vi := s.heap.getD i default
  let vj := s.heap.getD j default
  let heap1 := (s.heap.set i vj).set j vi
  ⟨(s.pool.genSetLoc vj i).genSetLoc vi j, heap1⟩

/-- The `while i != 0` loop of `heapify_up`, fueled (`i + 1` suffices
because `i` strictly decreases). -/
def heapifyUpGo (le : SearchNode V → SearchNode V → Bool) :
    Nat → QState V → Nat → QState V
  | 0, s, _ => s
  | f + 1, s, i =>
    if i = 0 then s
    else
      let parent := (i - 1) / 2
      if leIdx le s parent i then s
      else heapifyUpGo le f (s.hswap i parent) parent

def heapifyUp (le : SearchNode V → SearchNode V → Bool) (s : QState V) (i : Nat) :
    QState V :=
  heapifyUpGo le (i + 1) s i

/-- The loop of `heapify_down`, fueled (the heap length suffices because
`i` strictly increases below it). -/
def heapifyDownGo (le : SearchNode V → SearchNode V → Bool) :
    Nat → QState V → Nat → QState V
  | 0, s, _ => s
  | f + 1, s, i =>
    let c1 := 2 * i + 1
    if c1 ≥ s.heap.length then s
    else
      let c2 := c1 + 1
      let smaller := if c2 ≥ s.heap.length || leIdx le s c1 c2 then c1 else c2
      if leIdx le s i smaller then s
      else heapifyDownGo le f (s.hswap i smaller) smaller

def heapifyDown (le : SearchNode V → SearchNode V → Bool) (s : QState V) (i : Nat) :
    QState V :=
  heapifyDownGo le s.heap.length s i

/-- `PriorityQueue::contains`. -/
def contains (s : QState V) (v : V) : Bool :=
  match s.pool.get v with
  | none => false
  | some n => decide (s.heap.get? n.pqueueLocation = some v)

/-- `PriorityQueue::push` — the decrease-key / insert operation. -/
def qpush (le : SearchNode V → SearchNode V → Bool) (s : QState V) (v : V) :
    QState V :=
  if ¬ s.contains v then
    let index := s.heap.length
    let s1 : QState V := ⟨s.pool.genSetLoc v index, s.heap ++ [v]⟩
    heapifyUp le s1 index
  else
    let n := s.pool.nodes v
    let index := n.pqueueLocation
    if index = 0 then heapifyDown le s 0
    else
      let parent := s.pool.nodes (s.heap.getD ((index - 1) / 2) default)
      if le parent n then heapifyDown le s index
      else heapifyUp le s index

/-- `PriorityQueue::pop`. -/
def qpop (le : SearchNode V → SearchNode V → Bool) (s : QState V) :
    Option (V × QState V) :=
  if s.heap.length = 0 then none
  else if s.heap.length = 1 then some (s.heap.getD 0 default, ⟨s.pool, []⟩)
  else
    let k := s.heap.getD 0 default
    let last := s.heap.getD (s.heap.length - 1) default
    let heap1 := (s.heap.set 0 last).dropLast
    let pool1 := s.pool.genSetLoc (heap1.getD 0 default) 0
    some (k, heapifyDown le ⟨pool1, heap1⟩ 0)

/-! ### Queue invariants -/

/-- The binary-heap property under a comparator. -/
def HeapProp (le : SearchNode V → SearchNode V → Bool) (s : QState V) : Prop :=
  ∀ i, 0 < i → i < s.heap.length → le (s.heapVal ((i - 1) / 2)) (s.heapVal i) = true

/-- Location coherence: the heap has no duplicates and every slot's node
stores its own index. -/
def LocInv (s : QState V) : Prop :=
  s.heap.Nodup ∧
  ∀ i, i < s.heap.length → (s.pool.nodes (s.heap.getD i default)).pqueueLocation = i

/-- Every heap member is touched. -/
def HeapTouched (s : QState V) : Prop :=
  ∀ v ∈ s.heap, s.pool.touched v = true

def QInv (le : SearchNode V → SearchNode V → Bool) (s : QState V) : Prop :=
  HeapProp le s ∧ LocInv s ∧ HeapTouched s

end QState

end Pathfinding

namespace Pathfinding

namespace PState

variable {V : Type} [DecidableEq V]

theorem generate_of_touched (p : PState V) (v : V) (h : p.touched v = true) :
    p.generate v = p := by
  unfold generate
  rw [if_pos h]

theorem setLoc_nodes_self (p : PState V) (v : V) (i : Nat) :
    (p.setLoc v i).nodes v = { p.nodes v with pqueueLocation := i } := by
  unfold setLoc
  simp

theorem setLoc_nodes_ne (p : PState V) (v w : V) (i : Nat) (h : w ≠ v) :
    (p.setLoc v i).nodes w = p.nodes w := by
  unfold setLoc
  simp [h]

theorem setLoc_touched (p : PState V) (v : V) (i : Nat) :
    (p.setLoc v i).touched = p.touched := rfl

theorem genSetLoc_of_touched (p : PState V) (v : V) (i : Nat)
    (h : p.touched v = true) :
    p.genSetLoc v i = p.setLoc v i := by
  unfold genSetLoc
  rw [generate_of_touched p v h]

/-- Pools equal in everything an observer other than the queue reads:
touched sets and all node fields except the heap index. -/
def EqExceptLoc (p q : PState V) : Prop :=
  p.touched = q.touched ∧
  ∀ w, (p.nodes w).g = (q.nodes w).g ∧ (p.nodes w).lb = (q.nodes w).lb ∧
    (p.nodes w).parent = (q.nodes w).parent ∧
    (p.nodes w).expansions = (q.nodes w).expansions ∧
    (p.nodes w).id = (q.nodes w).id

theorem EqExceptLoc.refl (p : PState V) : EqExceptLoc p p :=
  ⟨rfl, fun _ => ⟨rfl, rfl, rfl, rfl, rfl⟩⟩

theorem EqExceptLoc.trans {p q r : PState V} (h1 : EqExceptLoc p q)
    (h2 : EqExceptLoc q r) : EqExceptLoc p r := by
  refine ⟨h1.1.trans h2.1, fun w => ?_⟩
  obtain ⟨a1, a2, a3, a4, a5⟩ := h1.2 w
  obtain ⟨b1, b2, b3, b4, b5⟩ := h2.2 w
  exact ⟨a1.trans b1, a2.trans b2, a3.trans b3, a4.trans b4, a5.trans b5⟩

theorem setLoc_eqExceptLoc (p : PState V) (v : V) (i : Nat) :
    EqExceptLoc (p.setLoc v i) p := by
  refine ⟨rfl, fun w => ?_⟩
  by_cases h : w = v
  · subst h
    rw [setLoc_nodes_self]
    exact ⟨rfl, rfl, rfl, rfl, rfl⟩
  · rw [setLoc_nodes_ne p v w i h]
    exact ⟨rfl, rfl, rfl, rfl, rfl⟩

theorem genSetLoc_eqExceptLoc (p : PState V) (v : V) (i : Nat)
    (h : p.touched v = true) :
    EqExceptLoc (p.genSetLoc v i) p := by
  rw [genSetLoc_of_touched p v i h]
  exact setLoc_eqExceptLoc p v i

theorem genSetLoc_nodes_ne (p : PState V) (v w : V) (i : Nat)
    (ht : p.touched v = true) (h : w ≠ v) :
    (p.genSetLoc v i).nodes w = p.nodes w := by
  rw [genSetLoc_of_touched p v i ht]
  exact setLoc_nodes_ne p v w i h

theorem genSetLoc_nodes_self (p : PState V) (v : V) (i : Nat)
    (ht : p.touched v = true) :
    (p.genSetLoc v i).nodes v = { p.nodes v with pqueueLocation := i } := by
  rw [genSetLoc_of_touched p v i ht]
  exact setLoc_nodes_self p v i

theorem genSetLoc_touched (p : PState V) (v : V) (i : Nat)
    (ht : p.touched v = true) :
    (p.genSetLoc v i).touched = p.touched := by
  rw [genSetLoc_of_touched p v i ht]
  rfl

end PState

/-- `astarOrd` reads only `g` and `lb`. -/
theorem astarOrd_congr {V : Type} {a b a1 b1 : SearchNode V}
    (hag : a.g = a1.g) (hal : a.lb = a1.lb) (hbg : b.g = b1.g)
    (hbl : b.lb = b1.lb) : astarOrd a b = astarOrd a1 b1 := by
  unfold astarOrd
  rw [hag, hal, hbg, hbl]

/-- `astarOrd` holds whenever the left `lb` is strictly smaller. -/
theorem astarOrd_of_lt {V : Type} {a b : SearchNode V} (h : a.lb < b.lb) :
    astarOrd a b = true := by
  unfold astarOrd
  rw [if_pos h]

/-- `astarOrd` on equal `lb` is the reversed comparison of `g`. -/
theorem astarOrd_of_eq {V : Type} {a b : SearchNode V} (heq : a.lb = b.lb)
    (hg : b.g ≤ a.g) : astarOrd a b = true := by
  unfold astarOrd
  rw [if_neg (by rw [heq]; exact lt_irrefl _), if_neg (by rw [heq]; exact lt_irrefl _)]
  simpa using hg

theorem astarOrd_le_lb {V : Type} {a b : SearchNode V} (h : astarOrd a b = true) :
    a.lb ≤ b.lb := by
  unfold astarOrd at h
  by_cases h1 : a.lb < b.lb
  · exact le_of_lt h1
  · exact not_lt.mp (by
      intro h2
      rw [if_neg h1, if_pos h2] at h
      cases h)

theorem astarOrd_g_of_eq {V : Type} {a b : SearchNode V} (h : astarOrd a b = true)
    (heq : a.lb = b.lb) : b.g ≤ a.g := by
  unfold astarOrd at h
  rw [if_neg (by rw [heq]; exact lt_irrefl _),
    if_neg (by rw [heq]; exact lt_irrefl _)] at h
  simpa using h

/-- `astarOrd` is total. -/
theorem astarOrd_total {V : Type} (a b : SearchNode V) :
    astarOrd a b = true ∨ astarOrd b a = true := by
  rcases lt_trichotomy a.lb b.lb with h | h | h
  · exact .inl (astarOrd_of_lt h)
  · rcases le_total a.g b.g with h2 | h2
    · exact .inr (astarOrd_of_eq h.symm h2)
    · exact .inl (astarOrd_of_eq h h2)
  · exact .inr (astarOrd_of_lt h)

/-- `astarOrd` is transitive. -/
theorem astarOrd_trans {V : Type} {a b c : SearchNode V}
    (h1 : astarOrd a b = true) (h2 : astarOrd b c = true) :
    astarOrd a c = true := by
  have l1 := astarOrd_le_lb h1
  have l2 := astarOrd_le_lb h2
  rcases lt_or_eq_of_le (le_trans l1 l2) with h | h
  · exact astarOrd_of_lt h
  · have e1 : a.lb = b.lb := le_antisymm l1 (h ▸ l2)
    have e2 : b.lb = c.lb := e1 ▸ h
    exact astarOrd_of_eq h
      (le_trans (astarOrd_g_of_eq h2 e2) (astarOrd_g_of_eq h1 e1))

end Pathfinding
namespace Pathfinding

/-- Distinct positions of a duplicate-free list hold distinct values. -/
theorem nodup_getD_ne {V : Type} [Inhabited V] {l : List V} (h : l.Nodup)
    {i j : Nat} (hi : i < l.length) (hj : j < l.length) (hij : i ≠ j) :
    l.getD i default ≠ l.getD j default := by
  rw [List.getD_eq_getElem l default hi, List.getD_eq_getElem l default hj]
  intro he
  exact hij (h.getElem_inj_iff.mp he)

namespace QState

variable {V : Type} [DecidableEq V] [Inhabited V]

theorem hswap_length (s : QState V) (i j : Nat) :
    (s.hswap i j).heap.length = s.heap.length := by
  unfold hswap
  simp

/-- The swapped heap, position-wise. -/
theorem hswap_heap_getD (s : QState V) (i j k : Nat) (hi : i < s.heap.length)
    (hj : j < s.heap.length) (hk : k < s.heap.length) :
    (s.hswap i j).heap.getD k default =
      s.heap.getD (if k = i then j else if k = j then i else k) default := by
  unfold hswap
  simp only []
  have hlen1 : (s.heap.set i (s.heap.getD j default)).length = s.heap.length := by simp
  rw [List.getD_eq_getElem _ _ (by simp [hk]), List.getElem_set, List.getElem_set]
  by_cases hjk : j = k
  · rw [if_pos hjk]
    by_cases hki : k = i
    · rw [if_pos hki]
      congr 1
      omega
    · rw [if_neg hki, if_pos (by omega : k = j)]
  · rw [if_neg hjk]
    by_cases hki : i = k
    · rw [if_pos hki, if_pos (by omega : k = i)]
    · rw [if_neg hki, if_neg (by omega : ¬ k = i), if_neg (by omega : ¬ k = j),
        List.getD_eq_getElem s.heap default hk]

/-- Swapping touched slots changes no pool field except the two heap
indices. -/
theorem hswap_eqExceptLoc (s : QState V) (i j : Nat)
    (ht : HeapTouched s) (hi : i < s.heap.length) (hj : j < s.heap.length) :
    PState.EqExceptLoc (s.hswap i j).pool s.pool := by
  have hti : s.pool.touched (s.heap.getD i default) = true := by
    refine ht _ ?_
    rw [List.getD_eq_getElem s.heap default hi]
    exact List.getElem_mem hi
  have htj : s.pool.touched (s.heap.getD j default) = true := by
    refine ht _ ?_
    rw [List.getD_eq_getElem s.heap default hj]
    exact List.getElem_mem hj
  unfold hswap
  simp only []
  refine PState.EqExceptLoc.trans
    (PState.genSetLoc_eqExceptLoc _ _ _ ?_) (PState.genSetLoc_eqExceptLoc _ _ _ htj)
  rw [PState.genSetLoc_touched _ _ _ htj]
  exact hti

/-- Membership is preserved by a swap of in-range slots. -/
theorem hswap_mem (s : QState V) (i j : Nat) (hi : i < s.heap.length)
    (hj : j < s.heap.length) (v : V) :
    (v ∈ (s.hswap i j).heap ↔ v ∈ s.heap) := by
  unfold hswap
  simp only []
  constructor
  · intro h
    rcases List.mem_iff_getElem.mp h with ⟨k, hk, he⟩
    simp only [List.length_set] at hk
    rw [List.getElem_set, List.getElem_set] at he
    by_cases h1 : j = k
    · rw [if_pos h1] at he
      rw [← he, List.getD_eq_getElem s.heap default hi]
      exact List.getElem_mem hi
    · rw [if_neg h1] at he
      by_cases h2 : i = k
      · rw [if_pos h2] at he
        rw [← he, List.getD_eq_getElem s.heap default hj]
        exact List.getElem_mem hj
      · rw [if_neg h2] at he
        rw [← he]
        exact List.getElem_mem _
  · intro h
    rcases List.mem_iff_getElem.mp h with ⟨k, hk, he⟩
    by_cases h1 : k = i
    · subst h1
      refine List.mem_iff_getElem.mpr ⟨j, by simpa using hj, ?_⟩
      rw [List.getElem_set, if_pos rfl, List.getD_eq_getElem s.heap default hk]
      exact he
    · by_cases h2 : k = j
      · subst h2
        refine List.mem_iff_getElem.mpr ⟨i, by simpa using hi, ?_⟩
        rw [List.getElem_set, if_neg h1, List.getElem_set, if_pos rfl,
          List.getD_eq_getElem s.heap default hk]
        exact he
      · refine List.mem_iff_getElem.mpr ⟨k, by simpa using hk, ?_⟩
        rw [List.getElem_set_ne (by omega), List.getElem_set_ne (by omega)]
        exact he

/-- Exactly which nodes a swap rewrites, and how. -/
theorem hswap_pool_nodes (s : QState V) (i j : Nat)
    (hi : i < s.heap.length) (hj : j < s.heap.length)
    (hnd : s.heap.Nodup) (hij : i ≠ j) (ht : HeapTouched s) :
    ((s.hswap i j).pool.nodes (s.heap.getD j default) =
      { s.pool.nodes (s.heap.getD j default) with pqueueLocation := i }) ∧
    ((s.hswap i j).pool.nodes (s.heap.getD i default) =
      { s.pool.nodes (s.heap.getD i default) with pqueueLocation := j }) ∧
    (∀ w, w ≠ s.heap.getD i default → w ≠ s.heap.getD j default →
      (s.hswap i j).pool.nodes w = s.pool.nodes w) := by
  have hmi : s.heap.getD i default ∈ s.heap := by
    rw [List.getD_eq_getElem s.heap default hi]
    exact List.getElem_mem hi
  have hmj : s.heap.getD j default ∈ s.heap := by
    rw [List.getD_eq_getElem s.heap default hj]
    exact List.getElem_mem hj
  have hti := ht _ hmi
  have htj := ht _ hmj
  have hvij : s.heap.getD i default ≠ s.heap.getD j default :=
    nodup_getD_ne hnd hi hj hij
  have ht1 : (s.pool.genSetLoc (s.heap.getD j default) i).touched
      (s.heap.getD i default) = true := by
    rw [PState.genSetLoc_touched _ _ _ htj]
    exact hti
  refine ⟨?_, ?_, ?_⟩
  · show ((s.pool.genSetLoc (s.heap.getD j default) i).genSetLoc
      (s.heap.getD i default) j).nodes (s.heap.getD j default) = _
    rw [PState.genSetLoc_nodes_ne _ _ _ _ ht1 (fun hh => hvij hh.symm),
      PState.genSetLoc_nodes_self _ _ _ htj]
  · show ((s.pool.genSetLoc (s.heap.getD j default) i).genSetLoc
      (s.heap.getD i default) j).nodes (s.heap.getD i default) = _
    rw [PState.genSetLoc_nodes_self _ _ _ ht1,
      PState.genSetLoc_nodes_ne _ _ _ _ htj hvij]
  · intro w hwi hwj
    show ((s.pool.genSetLoc (s.heap.getD j default) i).genSetLoc
      (s.heap.getD i default) j).nodes w = _
    rw [PState.genSetLoc_nodes_ne _ _ _ _ ht1 hwi,
      PState.genSetLoc_nodes_ne _ _ _ _ htj hwj]

theorem hswap_nodup (s : QState V) (i j : Nat)
    (hi : i < s.heap.length) (hj : j < s.heap.length)
    (hnd : s.heap.Nodup) : (s.hswap i j).heap.Nodup := by
  have key : ∀ k, k < s.heap.length →
      (s.hswap i j).heap.getD k default =
        s.heap.getD (if k = i then j else if k = j then i else k) default :=
    fun k hk => hswap_heap_getD s i j k hi hj hk
  rw [List.nodup_iff_injective_getElem] at hnd ⊢
  intro a b hab
  simp only [] at hab
  have ha : (a : Nat) < s.heap.length := by
    rw [← hswap_length s i j]
    exact a.2
  have hb : (b : Nat) < s.heap.length := by
    rw [← hswap_length s i j]
    exact b.2
  rw [← List.getD_eq_getElem _ default, ← List.getD_eq_getElem _ default]
    at hab
  rw [key a ha, key b hb] at hab
  have hsa : (if (a : Nat) = i then j else if (a : Nat) = j then i else (a : Nat))
      < s.heap.length := by split_ifs <;> omega
  have hsb : (if (b : Nat) = i then j else if (b : Nat) = j then i else (b : Nat))
      < s.heap.length := by split_ifs <;> omega
  rw [List.getD_eq_getElem s.heap default hsa,
    List.getD_eq_getElem s.heap default hsb] at hab
  have hinj : (⟨_, hsa⟩ : Fin s.heap.length) = ⟨_, hsb⟩ := hnd hab
  have hval := congrArg Fin.val hinj
  simp only [] at hval
  apply Fin.ext
  split_ifs at hval <;> omega

theorem hswap_heapTouched (s : QState V) (i j : Nat)
    (hi : i < s.heap.length) (hj : j < s.heap.length)
    (ht : HeapTouched s) : HeapTouched (s.hswap i j) := by
  intro v hv
  have hmem := (hswap_mem s i j hi hj v).mp hv
  have heq := (hswap_eqExceptLoc s i j ht hi hj).1
  rw [heq]
  exact ht v hmem

theorem hswap_locInv (s : QState V) (i j : Nat) (hij : i ≠ j)
    (hi : i < s.heap.length) (hj : j < s.heap.length)
    (hloc : LocInv s) (ht : HeapTouched s) : LocInv (s.hswap i j) := by
  obtain ⟨hnd, hlocs⟩ := hloc
  refine ⟨hswap_nodup s i j hi hj hnd, ?_⟩
  intro k hk
  rw [hswap_length] at hk
  obtain ⟨hn1, hn2, hn3⟩ := hswap_pool_nodes s i j hi hj hnd hij ht
  have hheap := hswap_heap_getD s i j k hi hj hk
  by_cases hki : k = i
  · rw [hheap, if_pos hki, hn1, hki]
  · by_cases hkj : k = j
    · rw [hheap, if_neg hki, if_pos hkj, hn2, hkj]
    · rw [hheap, if_neg hki, if_neg hkj,
        hn3 _ (nodup_getD_ne hnd hk hi hki) (nodup_getD_ne hnd hk hj hkj)]
      exact hlocs k hk

end QState

end Pathfinding

namespace Pathfinding

namespace PState

variable {V : Type} [DecidableEq V]

theorem generate_nodes_ne (p : PState V) (v w : V) (h : w ≠ v) :
    (p.generate v).nodes w = p.nodes w := by
  unfold generate
  split
  · rfl
  · simp [h]

theorem generate_touched_eq (p : PState V) (v w : V) :
    (p.generate v).touched w = (decide (w = v) || p.touched w) := by
  unfold generate
  split
  · by_cases h : w = v
    · subst h
      simp [*]
    · simp [h]
  · simp

theorem generate_nodes_self_untouched (p : PState V) (v : V)
    (h : p.touched v = false) :
    (p.generate v).nodes v =
      { p.nodes v with lb := ⊤, g := ⊤, expansions := 0, parent := none } := by
  unfold generate
  rw [if_neg (by simp [h])]
  simp

theorem genSetLoc_nodes_ne2 (p : PState V) (v w : V) (i : Nat) (h : w ≠ v) :
    (p.genSetLoc v i).nodes w = p.nodes w := by
  unfold genSetLoc
  rw [setLoc_nodes_ne _ _ _ _ h, generate_nodes_ne _ _ _ h]

theorem genSetLoc_loc_self (p : PState V) (v : V) (i : Nat) :
    ((p.genSetLoc v i).nodes v).pqueueLocation = i := by
  unfold genSetLoc
  rw [setLoc_nodes_self]

theorem genSetLoc_touched2 (p : PState V) (v : V) (i : Nat) (w : V) :
    (p.genSetLoc v i).touched w = (decide (w = v) || p.touched w) := by
  unfold genSetLoc
  rw [setLoc_touched, generate_touched_eq]

/-- `n.expansions += 1` through the pool handle. -/
def bumpExp (p : PState V) (v : V) : PState V :=
  { p with nodes := fun w =>
      if w = v then { p.nodes v with expansions := (p.nodes v).expansions + 1 }
      else p.nodes w }

theorem bumpExp_touched (p : PState V) (v : V) :
    (p.bumpExp v).touched = p.touched := rfl

theorem bumpExp_nodes_ne (p : PState V) (v w : V) (h : w ≠ v) :
    (p.bumpExp v).nodes w = p.nodes w := by
  unfold bumpExp
  simp [h]

theorem bumpExp_nodes_self (p : PState V) (v : V) :
    (p.bumpExp v).nodes v =
      { p.nodes v with expansions := (p.nodes v).expansions + 1 } := by
  unfold bumpExp
  simp

theorem bumpExp_eqExceptGL (p : PState V) (v w : V) :
    ((p.bumpExp v).nodes w).g = (p.nodes w).g ∧
    ((p.bumpExp v).nodes w).lb = (p.nodes w).lb ∧
    ((p.bumpExp v).nodes w).pqueueLocation = (p.nodes w).pqueueLocation ∧
    ((p.bumpExp v).nodes w).id = (p.nodes w).id ∧
    ((p.bumpExp v).nodes w).parent = (p.nodes w).parent := by
  by_cases h : w = v
  · subst h
    rw [bumpExp_nodes_self]
    exact ⟨rfl, rfl, rfl, rfl, rfl⟩
  · rw [bumpExp_nodes_ne _ _ _ h]
    exact ⟨rfl, rfl, rfl, rfl, rfl⟩

end PState

namespace QState

variable {V : Type} [DecidableEq V] [Inhabited V]

/-- A comparator that reads only the `g` and `lb` fields (true of the A*
ordering; the queue moves nodes around without changing those fields). -/
def LeStable (le : SearchNode V → SearchNode V → Bool) : Prop :=
  ∀ a b a1 b1 : SearchNode V, a.g = a1.g → a.lb = a1.lb → b.g = b1.g →
    b.lb = b1.lb → le a b = le a1 b1

def LeTotal (le : SearchNode V → SearchNode V → Bool) : Prop :=
  ∀ a b : SearchNode V, le a b = true ∨ le b a = true

def LeTrans (le : SearchNode V → SearchNode V → Bool) : Prop :=
  ∀ a b c : SearchNode V, le a b = true → le b c = true → le a c = true

theorem astarOrd_leStable {V1 : Type} [DecidableEq V1] [Inhabited V1] :
    LeStable (@astarOrd V1) :=
  fun _ _ _ _ h1 h2 h3 h4 => astarOrd_congr h1 h2 h3 h4

theorem astarOrd_leTotal {V1 : Type} [DecidableEq V1] [Inhabited V1] :
    LeTotal (@astarOrd V1) :=
  fun a b => astarOrd_total a b

theorem astarOrd_leTrans {V1 : Type} [DecidableEq V1] [Inhabited V1] :
    LeTrans (@astarOrd V1) :=
  fun _ _ _ h1 h2 => astarOrd_trans h1 h2

/-- A swap does not disturb the `g`/`lb` observations of any slot; it only
permutes them. -/
theorem hswap_heapVal_gl (s : QState V) (i j k : Nat) (hi : i < s.heap.length)
    (hj : j < s.heap.length) (hk : k < s.heap.length) (ht : HeapTouched s) :
    (((s.hswap i j).heapVal k).g =
      (s.heapVal (if k = i then j else if k = j then i else k)).g) ∧
    (((s.hswap i j).heapVal k).lb =
      (s.heapVal (if k = i then j else if k = j then i else k)).lb) := by
  have h1 := hswap_heap_getD s i j k hi hj hk
  obtain ⟨hg, hlb, -, -, -⟩ := (hswap_eqExceptLoc s i j ht hi hj).2
    (s.heap.getD (if k = i then j else if k = j then i else k) default)
  unfold heapVal
  rw [h1]
  exact ⟨hg, hlb⟩

/-- Index comparisons on a swapped heap are comparisons on the original heap
through the transposition, for any stable comparator. -/
theorem hswap_leIdx (le : SearchNode V → SearchNode V → Bool)
    (hst : LeStable le) (s : QState V) (i j a b : Nat)
    (hi : i < s.heap.length) (hj : j < s.heap.length)
    (ha : a < s.heap.length) (hb : b < s.heap.length) (ht : HeapTouched s) :
    leIdx le (s.hswap i j) a b =
      leIdx le s (if a = i then j else if a = j then i else a)
        (if b = i then j else if b = j then i else b) := by
  obtain ⟨hg1, hl1⟩ := hswap_heapVal_gl s i j a hi hj ha ht
  obtain ⟨hg2, hl2⟩ := hswap_heapVal_gl s i j b hi hj hb ht
  exact hst _ _ _ _ hg1 hl1 hg2 hl2

end QState

end Pathfinding

namespace Pathfinding

namespace QState

variable {V : Type} [DecidableEq V] [Inhabited V]

/-- Almost-heap shape on entry to `heapify_up` at hole `t`: every non-root
edge away from `t` satisfies the comparator, and `t`'s parent already
dominates `t`'s children (vacuous at the root). -/
def UpInv (le : SearchNode V → SearchNode V → Bool) (s : QState V) (t : Nat) :
    Prop :=
  (∀ k, 0 < k → k < s.heap.length → k ≠ t →
    leIdx le s ((k - 1) / 2) k = true) ∧
  (0 < t → ∀ k, k < s.heap.length → (k - 1) / 2 = t →
    leIdx le s ((t - 1) / 2) k = true)

/-- Almost-heap shape on entry to `heapify_down` at hole `t`: every edge
not leaving `t` satisfies the comparator, and `t`'s parent dominates `t`'s
children. -/
def DownInv (le : SearchNode V → SearchNode V → Bool) (s : QState V) (t : Nat) :
    Prop :=
  (∀ k, 0 < k → k < s.heap.length → (k - 1) / 2 ≠ t →
    leIdx le s ((k - 1) / 2) k = true) ∧
  (0 < t → ∀ k, k < s.heap.length → (k - 1) / 2 = t →
    leIdx le s ((t - 1) / 2) k = true)

theorem heapifyUpGo_succ (le : SearchNode V → SearchNode V → Bool) (f : Nat)
    (s : QState V) (i : Nat) :
    heapifyUpGo le (f + 1) s i =
      if i = 0 then s
      else if leIdx le s ((i - 1) / 2) i then s
      else heapifyUpGo le f (s.hswap i ((i - 1) / 2)) ((i - 1) / 2) := rfl

/-- The `heapify_up` loop restores the heap property and preserves the
location and touched invariants, heap membership, heap length, and every
pool field except the two heap indices it rewires. -/
theorem heapifyUpGo_spec (le : SearchNode V → SearchNode V → Bool)
    (hst : LeStable le) (htot : LeTotal le) (htr : LeTrans le) :
    ∀ (f : Nat) (s : QState V) (i : Nat), i < f → i < s.heap.length →
      UpInv le s i → LocInv s → HeapTouched s →
      HeapProp le (heapifyUpGo le f s i) ∧ LocInv (heapifyUpGo le f s i) ∧
      HeapTouched (heapifyUpGo le f s i) ∧
      (heapifyUpGo le f s i).heap.length = s.heap.length ∧
      (∀ v, v ∈ (heapifyUpGo le f s i).heap ↔ v ∈ s.heap) ∧
      PState.EqExceptLoc (heapifyUpGo le f s i).pool s.pool := by
  intro f
  induction f with
  | zero => intro s i hif; exact absurd hif (Nat.not_lt_zero i)
  | succ f ih =>
    intro s i hif hilen hup hloc ht
    by_cases hi0 : i = 0
    · subst hi0
      rw [heapifyUpGo_succ, if_pos rfl]
      refine ⟨?_, hloc, ht, rfl, fun v => Iff.rfl, PState.EqExceptLoc.refl s.pool⟩
      intro k hk0 hklen
      exact hup.1 k hk0 hklen (by omega)
    · by_cases hle : leIdx le s ((i - 1) / 2) i = true
      · rw [heapifyUpGo_succ, if_neg hi0, if_pos hle]
        refine ⟨?_, hloc, ht, rfl, fun v => Iff.rfl, PState.EqExceptLoc.refl s.pool⟩
        intro k hk0 hklen
        by_cases hki : k = i
        · subst hki
          exact hle
        · exact hup.1 k hk0 hklen hki
      · rw [heapifyUpGo_succ, if_neg hi0, if_neg hle]
        have hpi : (i - 1) / 2 < i := by omega
        have hplen : (i - 1) / 2 < s.heap.length := lt_trans hpi hilen
        have hip : i ≠ (i - 1) / 2 := by omega
        have hL : ∀ a b, a < s.heap.length → b < s.heap.length →
            leIdx le (s.hswap i ((i - 1) / 2)) a b =
              leIdx le s
                (if a = i then (i - 1) / 2 else if a = (i - 1) / 2 then i else a)
                (if b = i then (i - 1) / 2 else if b = (i - 1) / 2 then i else b) :=
          fun a b ha hb => hswap_leIdx le hst s i ((i - 1) / 2) a b hilen hplen ha hb ht
        have hpi_le : leIdx le s i ((i - 1) / 2) = true := by
          rcases htot (s.heapVal i) (s.heapVal ((i - 1) / 2)) with h | h
          · exact h
          · exact absurd h hle
        have hupinv : UpInv le (s.hswap i ((i - 1) / 2)) ((i - 1) / 2) := by
          constructor
          · intro k hk0 hklen hkp
            rw [hswap_length] at hklen
            have hq2 : (k - 1) / 2 < s.heap.length := by omega
            rw [hL ((k - 1) / 2) k hq2 hklen]
            by_cases hki : k = i
            · rw [if_neg (by omega : ¬ (k - 1) / 2 = i),
                if_pos (by omega : (k - 1) / 2 = (i - 1) / 2), if_pos hki]
              exact hpi_le
            · by_cases hqi : (k - 1) / 2 = i
              · rw [if_pos hqi, if_neg hki,
                  if_neg (by omega : ¬ k = (i - 1) / 2)]
                exact hup.2 (by omega) k hklen hqi
              · by_cases hqp : (k - 1) / 2 = (i - 1) / 2
                · rw [if_neg hqi, if_pos hqp, if_neg hki, if_neg hkp]
                  refine htr _ _ _ hpi_le ?_
                  have h2 := hup.1 k hk0 hklen hki
                  rw [hqp] at h2
                  exact h2
                · rw [if_neg hqi, if_neg hqp, if_neg hki, if_neg hkp]
                  exact hup.1 k hk0 hklen hki
          · intro hp0 k hklen hkq
            rw [hswap_length] at hklen
            have hgp2 : ((i - 1) / 2 - 1) / 2 < s.heap.length := by omega
            rw [hL (((i - 1) / 2 - 1) / 2) k hgp2 hklen]
            rw [if_neg (by omega : ¬ ((i - 1) / 2 - 1) / 2 = i),
              if_neg (by omega : ¬ ((i - 1) / 2 - 1) / 2 = (i - 1) / 2)]
            have hple := hup.1 ((i - 1) / 2) hp0 hplen (by omega)
            by_cases hki : k = i
            · rw [if_pos hki]
              exact hple
            · rw [if_neg hki, if_neg (by omega : ¬ k = (i - 1) / 2)]
              refine htr _ _ _ hple ?_
              have h2 := hup.1 k (by omega) hklen hki
              rw [hkq] at h2
              exact h2
        obtain ⟨hHP, hLoc2, hHT2, hlen2, hmem2, heq2⟩ :=
          ih (s.hswap i ((i - 1) / 2)) ((i - 1) / 2) (by omega)
            (by rw [hswap_length]; exact hplen) hupinv
            (hswap_locInv s i ((i - 1) / 2) hip hilen hplen hloc ht)
            (hswap_heapTouched s i ((i - 1) / 2) hilen hplen ht)
        exact ⟨hHP, hLoc2, hHT2, hlen2.trans (hswap_length s i ((i - 1) / 2)),
          fun v => (hmem2 v).trans (hswap_mem s i ((i - 1) / 2) hilen hplen v),
          heq2.trans (hswap_eqExceptLoc s i ((i - 1) / 2) ht hilen hplen)⟩

end QState

end Pathfinding

namespace Pathfinding

namespace QState

variable {V : Type} [DecidableEq V] [Inhabited V]

theorem heapifyDownGo_zero (le : SearchNode V → SearchNode V → Bool)
    (s : QState V) (i : Nat) : heapifyDownGo le 0 s i = s := rfl

theorem heapifyDownGo_succ (le : SearchNode V → SearchNode V → Bool) (f : Nat)
    (s : QState V) (i : Nat) :
    heapifyDownGo le (f + 1) s i =
      if 2 * i + 1 ≥ s.heap.length then s
      else
        if leIdx le s i
            (if 2 * i + 1 + 1 ≥ s.heap.length ||
                leIdx le s (2 * i + 1) (2 * i + 1 + 1)
              then 2 * i + 1 else 2 * i + 1 + 1) then s
        else
          heapifyDownGo le f
            (s.hswap i
              (if 2 * i + 1 + 1 ≥ s.heap.length ||
                  leIdx le s (2 * i + 1) (2 * i + 1 + 1)
                then 2 * i + 1 else 2 * i + 1 + 1))
            (if 2 * i + 1 + 1 ≥ s.heap.length ||
                leIdx le s (2 * i + 1) (2 * i + 1 + 1)
              then 2 * i + 1 else 2 * i + 1 + 1) := rfl

/-- The `heapify_down` loop restores the heap property and preserves the
location and touched invariants, heap membership, heap length, and every
pool field except the heap indices it rewires. -/
theorem heapifyDownGo_spec (le : SearchNode V → SearchNode V → Bool)
    (hst : LeStable le) (htot : LeTotal le) (htr : LeTrans le) :
    ∀ (f : Nat) (s : QState V) (i : Nat), s.heap.length ≤ f + i →
      DownInv le s i → LocInv s → HeapTouched s →
      HeapProp le (heapifyDownGo le f s i) ∧ LocInv (heapifyDownGo le f s i) ∧
      HeapTouched (heapifyDownGo le f s i) ∧
      (heapifyDownGo le f s i).heap.length = s.heap.length ∧
      (∀ v, v ∈ (heapifyDownGo le f s i).heap ↔ v ∈ s.heap) ∧
      PState.EqExceptLoc (heapifyDownGo le f s i).pool s.pool := by
  intro f
  induction f with
  | zero =>
    intro s i hfuel hdown hloc ht
    rw [heapifyDownGo_zero]
    refine ⟨?_, hloc, ht, rfl, fun v => Iff.rfl, PState.EqExceptLoc.refl s.pool⟩
    intro k hk0 hklen
    exact hdown.1 k hk0 hklen (by omega)
  | succ f ih =>
    intro s i hfuel hdown hloc ht
    by_cases hc1 : 2 * i + 1 ≥ s.heap.length
    · rw [heapifyDownGo_succ, if_pos hc1]
      refine ⟨?_, hloc, ht, rfl, fun v => Iff.rfl, PState.EqExceptLoc.refl s.pool⟩
      intro k hk0 hklen
      exact hdown.1 k hk0 hklen (by omega)
    · have hc1len : 2 * i + 1 < s.heap.length := by omega
      have hilen : i < s.heap.length := by omega
      by_cases hsel : (2 * i + 1 + 1 ≥ s.heap.length ||
          leIdx le s (2 * i + 1) (2 * i + 1 + 1)) = true
      · -- the smaller child is the left child
        have hc1c2 : 2 * i + 1 + 1 < s.heap.length →
            leIdx le s (2 * i + 1) (2 * i + 1 + 1) = true := by
          intro h2
          rcases Bool.or_eq_true_iff.mp hsel with h | h
          · exact absurd (of_decide_eq_true h) (by omega)
          · exact h
        by_cases hle : leIdx le s i (2 * i + 1) = true
        · rw [heapifyDownGo_succ, if_neg hc1, if_pos hsel, if_pos hle]
          refine ⟨?_, hloc, ht, rfl, fun v => Iff.rfl, PState.EqExceptLoc.refl s.pool⟩
          intro k hk0 hklen
          by_cases hq : (k - 1) / 2 = i
          · rcases (by omega : k = 2 * i + 1 ∨ k = 2 * i + 1 + 1) with hk | hk
            · subst hk
              rw [show (2 * i + 1 - 1) / 2 = i by omega]
              exact hle
            · subst hk
              rw [show (2 * i + 1 + 1 - 1) / 2 = i by omega]
              exact htr _ _ _ hle (hc1c2 hklen)
          · exact hdown.1 k hk0 hklen hq
        · -- swap with the left child
          rw [heapifyDownGo_succ, if_neg hc1, if_pos hsel, if_neg hle]
          have hiM : i ≠ 2 * i + 1 := by omega
          have hL : ∀ a b, a < s.heap.length → b < s.heap.length →
              leIdx le (s.hswap i (2 * i + 1)) a b =
                leIdx le s
                  (if a = i then 2 * i + 1 else if a = 2 * i + 1 then i else a)
                  (if b = i then 2 * i + 1 else if b = 2 * i + 1 then i else b) :=
            fun a b ha hb =>
              hswap_leIdx le hst s i (2 * i + 1) a b hilen hc1len ha hb ht
          have hMi_le : leIdx le s (2 * i + 1) i = true := by
            rcases htot (s.heapVal (2 * i + 1)) (s.heapVal i) with h | h
            · exact h
            · exact absurd h hle
          have hdi : DownInv le (s.hswap i (2 * i + 1)) (2 * i + 1) := by
            constructor
            · intro k hk0 hklen hqM
              rw [hswap_length] at hklen
              have hq2 : (k - 1) / 2 < s.heap.length := by omega
              rw [hL ((k - 1) / 2) k hq2 hklen]
              by_cases hkM : k = 2 * i + 1
              · rw [if_pos (show (k - 1) / 2 = i by omega),
                  if_neg (show ¬ k = i by omega), if_pos hkM]
                exact hMi_le
              · by_cases hki : k = i
                · rw [if_neg (show ¬ (k - 1) / 2 = i by omega),
                    if_neg (show ¬ (k - 1) / 2 = 2 * i + 1 by omega), if_pos hki]
                  have h2 := hdown.2 (by omega) (2 * i + 1) hc1len (by omega)
                  rw [show (k - 1) / 2 = (i - 1) / 2 by omega]
                  exact h2
                · by_cases hqi : (k - 1) / 2 = i
                  · rw [if_pos hqi, if_neg hki, if_neg hkM]
                    have hk2 : k = 2 * i + 1 + 1 := by omega
                    subst hk2
                    exact hc1c2 hklen
                  · rw [if_neg hqi, if_neg hqM, if_neg hki, if_neg hkM]
                    exact hdown.1 k hk0 hklen hqi
            · intro hM0 k hklen hq
              rw [hswap_length] at hklen
              rw [show (2 * i + 1 - 1) / 2 = i by omega]
              rw [hL i k hilen hklen, if_pos rfl,
                if_neg (show ¬ k = i by omega),
                if_neg (show ¬ k = 2 * i + 1 by omega)]
              have h2 := hdown.1 k (by omega) hklen (by omega)
              rw [hq] at h2
              exact h2
          obtain ⟨hHP, hLoc2, hHT2, hlen2, hmem2, heq2⟩ :=
            ih (s.hswap i (2 * i + 1)) (2 * i + 1)
              (by rw [hswap_length]; omega) hdi
              (hswap_locInv s i (2 * i + 1) hiM hilen hc1len hloc ht)
              (hswap_heapTouched s i (2 * i + 1) hilen hc1len ht)
          exact ⟨hHP, hLoc2, hHT2, hlen2.trans (hswap_length s i (2 * i + 1)),
            fun v => (hmem2 v).trans (hswap_mem s i (2 * i + 1) hilen hc1len v),
            heq2.trans (hswap_eqExceptLoc s i (2 * i + 1) ht hilen hc1len)⟩
      · -- the smaller child is the right child
        have hself : (2 * i + 1 + 1 ≥ s.heap.length ||
            leIdx le s (2 * i + 1) (2 * i + 1 + 1)) = false := by
          cases h : (2 * i + 1 + 1 ≥ s.heap.length ||
              leIdx le s (2 * i + 1) (2 * i + 1 + 1))
          · rfl
          · exact absurd h hsel
        have hc2len : 2 * i + 1 + 1 < s.heap.length := by
          have h1 := (Bool.or_eq_false_iff.mp hself).1
          have h2 := of_decide_eq_false h1
          omega
        have hc12F : leIdx le s (2 * i + 1) (2 * i + 1 + 1) = false :=
          (Bool.or_eq_false_iff.mp hself).2
        have hc21 : leIdx le s (2 * i + 1 + 1) (2 * i + 1) = true := by
          rcases htot (s.heapVal (2 * i + 1 + 1)) (s.heapVal (2 * i + 1)) with h | h
          · exact h
          · rw [show le (s.heapVal (2 * i + 1)) (s.heapVal (2 * i + 1 + 1)) =
              leIdx le s (2 * i + 1) (2 * i + 1 + 1) from rfl, hc12F] at h
            cases h
        by_cases hle : leIdx le s i (2 * i + 1 + 1) = true
        · rw [heapifyDownGo_succ, if_neg hc1, if_neg hsel, if_pos hle]
          refine ⟨?_, hloc, ht, rfl, fun v => Iff.rfl, PState.EqExceptLoc.refl s.pool⟩
          intro k hk0 hklen
          by_cases hq : (k - 1) / 2 = i
          · rcases (by omega : k = 2 * i + 1 ∨ k = 2 * i + 1 + 1) with hk | hk
            · subst hk
              rw [show (2 * i + 1 - 1) / 2 = i by omega]
              exact htr _ _ _ hle hc21
            · subst hk
              rw [show (2 * i + 1 + 1 - 1) / 2 = i by omega]
              exact hle
          · exact hdown.1 k hk0 hklen hq
        · -- swap with the right child
          rw [heapifyDownGo_succ, if_neg hc1, if_neg hsel, if_neg hle]
          have hiM : i ≠ 2 * i + 1 + 1 := by omega
          have hL : ∀ a b, a < s.heap.length → b < s.heap.length →
              leIdx le (s.hswap i (2 * i + 1 + 1)) a b =
                leIdx le s
                  (if a = i then 2 * i + 1 + 1
                    else if a = 2 * i + 1 + 1 then i else a)
                  (if b = i then 2 * i + 1 + 1
                    else if b = 2 * i + 1 + 1 then i else b) :=
            fun a b ha hb =>
              hswap_leIdx le hst s i (2 * i + 1 + 1) a b hilen hc2len ha hb ht
          have hMi_le : leIdx le s (2 * i + 1 + 1) i = true := by
            rcases htot (s.heapVal (2 * i + 1 + 1)) (s.heapVal i) with h | h
            · exact h
            · exact absurd h hle
          have hdi : DownInv le (s.hswap i (2 * i + 1 + 1)) (2 * i + 1 + 1) := by
            constructor
            · intro k hk0 hklen hqM
              rw [hswap_length] at hklen
              have hq2 : (k - 1) / 2 < s.heap.length := by omega
              rw [hL ((k - 1) / 2) k hq2 hklen]
              by_cases hkM : k = 2 * i + 1 + 1
              · rw [if_pos (show (k - 1) / 2 = i by omega),
                  if_neg (show ¬ k = i by omega), if_pos hkM]
                exact hMi_le
              · by_cases hki : k = i
                · rw [if_neg (show ¬ (k - 1) / 2 = i by omega),
                    if_neg (show ¬ (k - 1) / 2 = 2 * i + 1 + 1 by omega),
                    if_pos hki]
                  have h2 := hdown.2 (by omega) (2 * i + 1 + 1) hc2len (by omega)
                  rw [show (k - 1) / 2 = (i - 1) / 2 by omega]
                  exact h2
                · by_cases hqi : (k - 1) / 2 = i
                  · rw [if_pos hqi, if_neg hki, if_neg hkM]
                    have hk2 : k = 2 * i + 1 := by omega
                    subst hk2
                    exact hc21
                  · rw [if_neg hqi, if_neg hqM, if_neg hki, if_neg hkM]
                    exact hdown.1 k hk0 hklen hqi
            · intro hM0 k hklen hq
              rw [hswap_length] at hklen
              rw [show (2 * i + 1 + 1 - 1) / 2 = i by omega]
              rw [hL i k hilen hklen, if_pos rfl,
                if_neg (show ¬ k = i by omega),
                if_neg (show ¬ k = 2 * i + 1 + 1 by omega)]
              have h2 := hdown.1 k (by omega) hklen (by omega)
              rw [hq] at h2
              exact h2
          obtain ⟨hHP, hLoc2, hHT2, hlen2, hmem2, heq2⟩ :=
            ih (s.hswap i (2 * i + 1 + 1)) (2 * i + 1 + 1)
              (by rw [hswap_length]; omega) hdi
              (hswap_locInv s i (2 * i + 1 + 1) hiM hilen hc2len hloc ht)
              (hswap_heapTouched s i (2 * i + 1 + 1) hilen hc2len ht)
          exact ⟨hHP, hLoc2, hHT2,
            hlen2.trans (hswap_length s i (2 * i + 1 + 1)),
            fun v => (hmem2 v).trans
              (hswap_mem s i (2 * i + 1 + 1) hilen hc2len v),
            heq2.trans (hswap_eqExceptLoc s i (2 * i + 1 + 1) ht hilen hc2len)⟩

end QState

end Pathfinding

namespace Pathfinding

namespace QState

variable {V : Type} [DecidableEq V] [Inhabited V]

/-- In a heap the root is below every slot (telescoping the parent chain). -/
theorem heapProp_root_le (le : SearchNode V → SearchNode V → Bool)
    (htot : LeTotal le) (htr : LeTrans le) (s : QState V)
    (hp : HeapProp le s) : ∀ k, k < s.heap.length → leIdx le s 0 k = true := by
  intro k
  induction k using Nat.strong_induction_on with
  | _ k ih =>
    intro hklen
    by_cases hk0 : k = 0
    · subst hk0
      rcases htot (s.heapVal 0) (s.heapVal 0) with h | h
      · exact h
      · exact h
    · have h1 := hp k (by omega) hklen
      have h2 := ih ((k - 1) / 2) (by omega) (by omega)
      exact htr _ _ _ h2 h1

/-- The location invariant delivers the spec's phrasing: the heap entry at
a member's stored index is that member. -/
theorem locInv_get (s : QState V) (hloc : LocInv s) :
    ∀ u ∈ s.heap, s.heap.get? ((s.pool.nodes u).pqueueLocation) = some u := by
  intro u hu
  rcases List.mem_iff_getElem.mp hu with ⟨k, hk, he⟩
  have h2 := hloc.2 k hk
  rw [List.getD_eq_getElem s.heap default hk, he] at h2
  rw [h2, List.get?_eq_getElem?, List.getElem?_eq_getElem hk, he]

/-- Whenever `contains` answers true, the vertex's stored index is a real
heap slot holding that vertex (and the vertex is touched). -/
theorem contains_elim (s : QState V) (v : V) (hc : s.contains v = true) :
    s.pool.touched v = true ∧
    (s.pool.nodes v).pqueueLocation < s.heap.length ∧
    s.heap.getD ((s.pool.nodes v).pqueueLocation) default = v := by
  unfold contains at hc
  by_cases htv : s.pool.touched v = true
  · refine ⟨htv, ?_⟩
    rw [show s.pool.get v = some (s.pool.nodes v) from by
      unfold PState.get
      rw [if_pos htv]] at hc
    have hc2 : s.heap.get? (s.pool.nodes v).pqueueLocation = some v :=
      of_decide_eq_true hc
    rw [List.get?_eq_getElem?] at hc2
    rcases List.getElem?_eq_some_iff.mp hc2 with ⟨hlt, he⟩
    exact ⟨hlt, by rw [List.getD_eq_getElem _ _ hlt]; exact he⟩
  · rw [show s.pool.get v = none from by
      unfold PState.get
      rw [if_neg htv]] at hc
    exact absurd (show false = true from hc) (by simp)

theorem qpush_not_contains (le : SearchNode V → SearchNode V → Bool)
    (s : QState V) (v : V) (hc : ¬ s.contains v = true) :
    qpush le s v =
      heapifyUp le ⟨s.pool.genSetLoc v s.heap.length, s.heap ++ [v]⟩
        s.heap.length := by
  unfold qpush
  rw [if_pos hc]

theorem qpush_contains_zero (le : SearchNode V → SearchNode V → Bool)
    (s : QState V) (v : V) (hc : s.contains v = true)
    (h0 : (s.pool.nodes v).pqueueLocation = 0) :
    qpush le s v = heapifyDown le s 0 := by
  unfold qpush
  rw [if_neg (not_not_intro hc)]
  show (if (s.pool.nodes v).pqueueLocation = 0 then heapifyDown le s 0
    else _) = _
  rw [if_pos h0]

theorem qpush_contains_down (le : SearchNode V → SearchNode V → Bool)
    (s : QState V) (v : V) (hc : s.contains v = true)
    (h0 : ¬ (s.pool.nodes v).pqueueLocation = 0)
    (hp : le (s.pool.nodes
        (s.heap.getD (((s.pool.nodes v).pqueueLocation - 1) / 2) default))
      (s.pool.nodes v) = true) :
    qpush le s v = heapifyDown le s ((s.pool.nodes v).pqueueLocation) := by
  unfold qpush
  rw [if_neg (not_not_intro hc)]
  show (if (s.pool.nodes v).pqueueLocation = 0 then heapifyDown le s 0
    else _) = _
  rw [if_neg h0]
  show (if le (s.pool.nodes
      (s.heap.getD (((s.pool.nodes v).pqueueLocation - 1) / 2) default))
      (s.pool.nodes v) = true then _ else _) = _
  rw [if_pos hp]

theorem qpush_contains_up (le : SearchNode V → SearchNode V → Bool)
    (s : QState V) (v : V) (hc : s.contains v = true)
    (h0 : ¬ (s.pool.nodes v).pqueueLocation = 0)
    (hp : ¬ le (s.pool.nodes
        (s.heap.getD (((s.pool.nodes v).pqueueLocation - 1) / 2) default))
      (s.pool.nodes v) = true) :
    qpush le s v = heapifyUp le s ((s.pool.nodes v).pqueueLocation) := by
  unfold qpush
  rw [if_neg (not_not_intro hc)]
  show (if (s.pool.nodes v).pqueueLocation = 0 then heapifyDown le s 0
    else _) = _
  rw [if_neg h0]
  show (if le (s.pool.nodes
      (s.heap.getD (((s.pool.nodes v).pqueueLocation - 1) / 2) default))
      (s.pool.nodes v) = true then _ else _) = _
  rw [if_neg hp]

end QState

end Pathfinding

namespace Pathfinding

namespace QState

variable {V : Type} [DecidableEq V] [Inhabited V]

/-- `PriorityQueue::push` (the decrease-key / insert operation): starting
from a queue `s₀` satisfying the invariant whose pool has since been
modified only in vertex `v`'s node (and not in `v`'s stored heap index),
pushing `v` restores the full queue invariant; the heap's members become
the old members plus `v`, and the pool changes in heap indices only. -/
theorem qpush_spec (le : SearchNode V → SearchNode V → Bool)
    (hst : LeStable le) (htot : LeTotal le) (htr : LeTrans le)
    (s₀ s : QState V) (v : V)
    (hheap : s.heap = s₀.heap)
    (htch : s.pool.touched = s₀.pool.touched)
    (hnodes : ∀ w, w ≠ v → s.pool.nodes w = s₀.pool.nodes w)
    (hlocv : (s.pool.nodes v).pqueueLocation =
      (s₀.pool.nodes v).pqueueLocation)
    (htv : s.pool.touched v = true)
    (hinv : QInv le s₀) :
    QInv le (qpush le s v) ∧
    (∀ w, w ∈ (qpush le s v).heap ↔ w ∈ s.heap ∨ w = v) ∧
    PState.EqExceptLoc (qpush le s v).pool s.pool := by
  obtain ⟨hHP₀, hLoc₀, hHT₀⟩ := hinv
  have hlen0 : s.heap.length = s₀.heap.length := by rw [hheap]
  have hnd : s.heap.Nodup := by rw [hheap]; exact hLoc₀.1
  by_cases hc : s.contains v = true
  · -- decrease-key branch: v already has a heap slot
    obtain ⟨-, hlt, hgetv⟩ := contains_elim s v hc
    have hvmem : v ∈ s.heap := by
      rw [← hgetv, List.getD_eq_getElem _ _ hlt]
      exact List.getElem_mem hlt
    have hgetne : ∀ m, m < s.heap.length →
        m ≠ (s.pool.nodes v).pqueueLocation →
        s.heap.getD m default ≠ v := by
      intro m hm hmt
      have h2 := nodup_getD_ne hnd hm hlt hmt
      rw [hgetv] at h2
      exact h2
    have hval : ∀ m, m < s.heap.length →
        m ≠ (s.pool.nodes v).pqueueLocation →
        s.heapVal m = s₀.heapVal m := by
      intro m hm hmt
      unfold heapVal
      rw [hnodes _ (hgetne m hm hmt), hheap]
    have hvalt : s.heapVal ((s.pool.nodes v).pqueueLocation) =
        s.pool.nodes v := by
      unfold heapVal
      rw [hgetv]
    have hE1 : ∀ k, 0 < k → k < s.heap.length →
        k ≠ (s.pool.nodes v).pqueueLocation →
        (k - 1) / 2 ≠ (s.pool.nodes v).pqueueLocation →
        leIdx le s ((k - 1) / 2) k = true := by
      intro k hk0 hk hkt hkq
      unfold leIdx
      rw [hval _ (by omega) hkq, hval _ hk hkt]
      exact hHP₀ k hk0 (by omega)
    have hE2 : 0 < (s.pool.nodes v).pqueueLocation →
        ∀ k, k < s.heap.length →
        (k - 1) / 2 = (s.pool.nodes v).pqueueLocation →
        leIdx le s (((s.pool.nodes v).pqueueLocation - 1) / 2) k = true := by
      intro ht0 k hk hkq
      unfold leIdx
      rw [hval _ (by omega) (by omega), hval _ hk (by omega)]
      have h1 := hHP₀ ((s.pool.nodes v).pqueueLocation) ht0 (by omega)
      have h2 := hHP₀ k (by omega) (by omega)
      rw [hkq] at h2
      exact htr _ _ _ h1 h2
    have hlocS : LocInv s := by
      refine ⟨hnd, ?_⟩
      intro k hk
      by_cases hkt : k = (s.pool.nodes v).pqueueLocation
      · subst hkt
        rw [hgetv]
      · rw [hnodes _ (hgetne k hk hkt), hheap]
        exact hLoc₀.2 k (by omega)
    have hhtS : HeapTouched s := by
      intro w hw
      rw [htch]
      exact hHT₀ w (by rw [← hheap]; exact hw)
    have hmem_res : ∀ (r : QState V),
        (∀ w, w ∈ r.heap ↔ w ∈ s.heap) →
        ∀ w, w ∈ r.heap ↔ w ∈ s.heap ∨ w = v := by
      intro r hr w
      refine (hr w).trans ⟨Or.inl, fun h => ?_⟩
      rcases h with h | h
      · exact h
      · subst h
        exact hvmem
    by_cases h0 : (s.pool.nodes v).pqueueLocation = 0
    · rw [qpush_contains_zero le s v hc h0]
      have hdinv : DownInv le s 0 := by
        constructor
        · intro k hk0 hk hkq
          exact hE1 k hk0 hk (by omega) (by omega)
        · intro h
          exact absurd h (lt_irrefl 0)
      obtain ⟨hHP, hLoc2, hHT2, hlen2, hmem2, heq2⟩ :=
        heapifyDownGo_spec le hst htot htr s.heap.length s 0 (by omega)
          hdinv hlocS hhtS
      exact ⟨⟨hHP, hLoc2, hHT2⟩, hmem_res _ hmem2, heq2⟩
    · by_cases hp : le (s.pool.nodes
          (s.heap.getD (((s.pool.nodes v).pqueueLocation - 1) / 2) default))
          (s.pool.nodes v) = true
      · rw [qpush_contains_down le s v hc h0 hp]
        have hpt : leIdx le s (((s.pool.nodes v).pqueueLocation - 1) / 2)
            ((s.pool.nodes v).pqueueLocation) = true := by
          unfold leIdx
          rw [hvalt]
          exact hp
        have hdinv : DownInv le s ((s.pool.nodes v).pqueueLocation) := by
          constructor
          · intro k hk0 hk hkq
            by_cases hkt : k = (s.pool.nodes v).pqueueLocation
            · subst hkt
              exact hpt
            · exact hE1 k hk0 hk hkt hkq
          · exact hE2
        obtain ⟨hHP, hLoc2, hHT2, hlen2, hmem2, heq2⟩ :=
          heapifyDownGo_spec le hst htot htr s.heap.length s
            ((s.pool.nodes v).pqueueLocation) (by omega) hdinv hlocS hhtS
        exact ⟨⟨hHP, hLoc2, hHT2⟩, hmem_res _ hmem2, heq2⟩
      · rw [qpush_contains_up le s v hc h0 hp]
        have htp : leIdx le s ((s.pool.nodes v).pqueueLocation)
            (((s.pool.nodes v).pqueueLocation - 1) / 2) = true := by
          rcases htot (s.heapVal ((s.pool.nodes v).pqueueLocation))
            (s.heapVal (((s.pool.nodes v).pqueueLocation - 1) / 2)) with h | h
          · exact h
          · exfalso
            apply hp
            have h2 : leIdx le s (((s.pool.nodes v).pqueueLocation - 1) / 2)
                ((s.pool.nodes v).pqueueLocation) = true := h
            rw [show leIdx le s (((s.pool.nodes v).pqueueLocation - 1) / 2)
                ((s.pool.nodes v).pqueueLocation) =
              le (s.heapVal (((s.pool.nodes v).pqueueLocation - 1) / 2))
                (s.heapVal ((s.pool.nodes v).pqueueLocation)) from rfl,
              hvalt] at h2
            exact h2
        have hupinv : UpInv le s ((s.pool.nodes v).pqueueLocation) := by
          constructor
          · intro k hk0 hk hkt
            by_cases hkq : (k - 1) / 2 = (s.pool.nodes v).pqueueLocation
            · have h2 := hE2 (by omega) k hk hkq
              rw [hkq]
              exact htr _ _ _ htp h2
            · exact hE1 k hk0 hk hkt hkq
          · exact hE2
        obtain ⟨hHP, hLoc2, hHT2, hlen2, hmem2, heq2⟩ :=
          heapifyUpGo_spec le hst htot htr
            ((s.pool.nodes v).pqueueLocation + 1) s
            ((s.pool.nodes v).pqueueLocation) (by omega) hlt hupinv hlocS hhtS
        exact ⟨⟨hHP, hLoc2, hHT2⟩, hmem_res _ hmem2, heq2⟩
  · -- insert branch: v gets the slot past the end
    have hvnot : v ∉ s.heap := by
      intro hmem
      apply hc
      unfold contains
      rw [show s.pool.get v = some (s.pool.nodes v) from by
        unfold PState.get
        rw [if_pos htv]]
      show decide (s.heap.get? (s.pool.nodes v).pqueueLocation = some v) = true
      refine decide_eq_true ?_
      rw [hheap] at hmem
      rcases List.mem_iff_getElem.mp hmem with ⟨k, hk, he⟩
      have h2 := hLoc₀.2 k hk
      rw [List.getD_eq_getElem _ default hk, he] at h2
      rw [hlocv, h2, hheap, List.get?_eq_getElem?, List.getElem?_eq_getElem hk,
        he]
    rw [qpush_not_contains le s v hc]
    have hgetne : ∀ m, m < s.heap.length → s.heap.getD m default ≠ v := by
      intro m hm he
      apply hvnot
      rw [← he, List.getD_eq_getElem _ _ hm]
      exact List.getElem_mem hm
    have hval : ∀ m, m < s.heap.length →
        heapVal ⟨s.pool.genSetLoc v s.heap.length, s.heap ++ [v]⟩ m =
          s₀.heapVal m := by
      intro m hm
      show (s.pool.genSetLoc v s.heap.length).nodes
        ((s.heap ++ [v]).getD m default) = _
      rw [List.getD_append _ _ _ _ hm,
        PState.genSetLoc_nodes_ne2 _ _ _ _ (hgetne m hm),
        hnodes _ (hgetne m hm), hheap]
      rfl
    have hupinv : UpInv le ⟨s.pool.genSetLoc v s.heap.length, s.heap ++ [v]⟩
        s.heap.length := by
      constructor
      · intro k hk0 hklen hki
        have hlen1 : (s.heap ++ [v]).length = s.heap.length + 1 := by simp
        have hk : k < s.heap.length := by
          simp only [hlen1] at hklen
          omega
        show leIdx le _ ((k - 1) / 2) k = true
        unfold leIdx
        rw [hval _ (by omega), hval _ hk]
        exact hHP₀ k hk0 (by omega)
      · intro h0 k hklen hkq
        exfalso
        have hlen1 : (s.heap ++ [v]).length = s.heap.length + 1 := by simp
        simp only [hlen1] at hklen
        omega
    have hloc1 : LocInv ⟨s.pool.genSetLoc v s.heap.length, s.heap ++ [v]⟩ := by
      constructor
      · rw [List.nodup_append]
        exact ⟨hnd, List.nodup_singleton v, fun a ha hav =>
          hvnot (by rw [List.mem_singleton] at hav; rw [← hav]; exact ha)⟩
      · intro k hk
        have hlen1 : (s.heap ++ [v]).length = s.heap.length + 1 := by simp
        simp only [hlen1] at hk
        by_cases hkl : k < s.heap.length
        · show ((s.pool.genSetLoc v s.heap.length).nodes
            ((s.heap ++ [v]).getD k default)).pqueueLocation = k
          rw [List.getD_append _ _ _ _ hkl,
            PState.genSetLoc_nodes_ne2 _ _ _ _ (hgetne k hkl),
            hnodes _ (hgetne k hkl), hheap]
          exact hLoc₀.2 k (by omega)
        · have hkeq : k = s.heap.length := by omega
          subst hkeq
          show ((s.pool.genSetLoc v s.heap.length).nodes
            ((s.heap ++ [v]).getD s.heap.length default)).pqueueLocation =
            s.heap.length
          rw [show (s.heap ++ [v]).getD s.heap.length default = v from by
            rw [List.getD_append_right _ _ _ _ (le_refl _)]
            simp]
          exact PState.genSetLoc_loc_self s.pool v s.heap.length
    have hht1 : HeapTouched ⟨s.pool.genSetLoc v s.heap.length,
        s.heap ++ [v]⟩ := by
      intro w hw
      rw [List.mem_append] at hw
      show (s.pool.genSetLoc v s.heap.length).touched w = true
      rw [PState.genSetLoc_touched2]
      rcases hw with hw | hw
      · have h2 : s.pool.touched w = true := by
          rw [htch]
          exact hHT₀ w (by rw [← hheap]; exact hw)
        rw [h2, Bool.or_true]
      · rw [List.mem_singleton] at hw
        subst hw
        rw [decide_eq_true rfl]
        rfl
    obtain ⟨hHP, hLoc2, hHT2, hlen2, hmem2, heq2⟩ :=
      heapifyUpGo_spec le hst htot htr (s.heap.length + 1)
        ⟨s.pool.genSetLoc v s.heap.length, s.heap ++ [v]⟩ s.heap.length
        (by omega) (by simp) hupinv hloc1 hht1
    refine ⟨⟨hHP, hLoc2, hHT2⟩, ?_, ?_⟩
    · intro w
      refine (hmem2 w).trans ?_
      show w ∈ s.heap ++ [v] ↔ _
      rw [List.mem_append, List.mem_singleton]
    · exact heq2.trans (PState.genSetLoc_eqExceptLoc s.pool v s.heap.length htv)

end QState

end Pathfinding

namespace Pathfinding

namespace QState

variable {V : Type} [DecidableEq V] [Inhabited V]

theorem qpop_zero (le : SearchNode V → SearchNode V → Bool) (s : QState V)
    (h0 : s.heap.length = 0) : qpop le s = none := by
  unfold qpop
  rw [if_pos h0]

theorem qpop_one (le : SearchNode V → SearchNode V → Bool) (s : QState V)
    (h1 : s.heap.length = 1) :
    qpop le s = some (s.heap.getD 0 default, ⟨s.pool, []⟩) := by
  unfold qpop
  rw [if_neg (by omega), if_pos h1]

theorem qpop_big (le : SearchNode V → SearchNode V → Bool) (s : QState V)
    (h2 : 2 ≤ s.heap.length) :
    qpop le s = some (s.heap.getD 0 default,
      heapifyDown le
        ⟨s.pool.genSetLoc
          (((s.heap.set 0 (s.heap.getD (s.heap.length - 1) default)).dropLast).getD
            0 default) 0,
         (s.heap.set 0 (s.heap.getD (s.heap.length - 1) default)).dropLast⟩
        0) := by
  unfold qpop
  rw [if_neg (by omega), if_neg (by omega)]

/-- `PriorityQueue::pop`: it fails exactly on the empty heap, and otherwise
removes and returns the root, restores the queue invariant, and changes the
pool in heap indices only. -/
theorem qpop_spec (le : SearchNode V → SearchNode V → Bool)
    (hst : LeStable le) (htot : LeTotal le) (htr : LeTrans le)
    (s : QState V) (hinv : QInv le s) :
    (qpop le s = none ↔ s.heap = []) ∧
    (∀ w s', qpop le s = some (w, s') →
      w = s.heap.getD 0 default ∧ w ∈ s.heap ∧
      (∀ u, u ∈ s'.heap ↔ u ∈ s.heap ∧ u ≠ w) ∧
      QInv le s' ∧ PState.EqExceptLoc s'.pool s.pool) := by
  obtain ⟨hHP, hLoc, hHT⟩ := hinv
  have hnd := hLoc.1
  by_cases h0 : s.heap.length = 0
  · refine ⟨?_, ?_⟩
    · rw [qpop_zero le s h0]
      simp [List.length_eq_zero.mp h0]
    · intro w s' hq
      rw [qpop_zero le s h0] at hq
      cases hq
  · by_cases h1 : s.heap.length = 1
    · obtain ⟨a, ha⟩ := List.length_eq_one.mp h1
      have hmem0 : s.heap.getD 0 default ∈ s.heap := by
        rw [List.getD_eq_getElem s.heap default (by omega)]
        exact List.getElem_mem (by omega)
      refine ⟨?_, ?_⟩
      · rw [qpop_one le s h1]
        simp [ha]
      · intro w s' hq
        rw [qpop_one le s h1] at hq
        injection hq with hq1
        injection hq1 with hw hs'
        subst hw
        subst hs'
        refine ⟨rfl, hmem0, ?_, ⟨?_, ⟨List.nodup_nil, ?_⟩, ?_⟩,
          PState.EqExceptLoc.refl s.pool⟩
        · intro u
          show u ∈ ([] : List V) ↔ _
          rw [ha]
          constructor
          · intro h
            cases h
          · rintro ⟨hu1, hu2⟩
            rw [List.mem_singleton] at hu1
            subst hu1
            exact absurd rfl hu2
        · intro k hk0 hklen
          exact absurd hklen (by simp)
        · intro k hk
          exact absurd hk (by simp)
        · intro u hu
          cases hu
    · -- at least two elements
      have h2 : 2 ≤ s.heap.length := by omega
      have hL1 : s.heap.length - 1 < s.heap.length := by omega
      have h0lt : 0 < s.heap.length := by omega
      have hmem0 : s.heap.getD 0 default ∈ s.heap := by
        rw [List.getD_eq_getElem s.heap default h0lt]
        exact List.getElem_mem h0lt
      have hlastmem : s.heap.getD (s.heap.length - 1) default ∈ s.heap := by
        rw [List.getD_eq_getElem s.heap default hL1]
        exact List.getElem_mem hL1
      have htlast : s.pool.touched (s.heap.getD (s.heap.length - 1) default) =
          true := hHT _ hlastmem
      have hlen1 : ((s.heap.set 0
          (s.heap.getD (s.heap.length - 1) default)).dropLast).length =
          s.heap.length - 1 := by
        simp
      have hget1 : ∀ k, k < s.heap.length - 1 →
          ((s.heap.set 0
            (s.heap.getD (s.heap.length - 1) default)).dropLast).getD k
            default =
          s.heap.getD (if k = 0 then s.heap.length - 1 else k) default := by
        intro k hk
        rw [List.getD_eq_getElem _ default (by rw [hlen1]; exact hk),
          List.getElem_dropLast, List.getElem_set]
        by_cases hk0 : k = 0
        · rw [if_pos (by omega), if_pos hk0,
            List.getD_eq_getElem s.heap default hL1]
        · rw [if_neg (by omega), if_neg hk0]
          exact (List.getD_eq_getElem s.heap default (by omega)).symm
      have hget1_0 : ((s.heap.set 0
          (s.heap.getD (s.heap.length - 1) default)).dropLast).getD 0 default =
          s.heap.getD (s.heap.length - 1) default := by
        rw [hget1 0 (by omega), if_pos rfl]
      refine ⟨?_, ?_⟩
      · rw [qpop_big le s h2]
        constructor
        · intro h
          cases h
        · intro h
          rw [h] at h2
          exact absurd h2 (by simp)
      · intro w s' hq
        rw [qpop_big le s h2, hget1_0] at hq
        injection hq with hq1
        injection hq1 with hw hs'
        subst hw
        subst hs'
        -- the intermediate state before sifting down
        have hvalb : ∀ m, 0 < m → m < s.heap.length - 1 →
            heapVal ⟨s.pool.genSetLoc
                (s.heap.getD (s.heap.length - 1) default) 0,
              (s.heap.set 0
                (s.heap.getD (s.heap.length - 1) default)).dropLast⟩ m =
            s.heapVal m := by
          intro m hm0 hm
          show (s.pool.genSetLoc
            (s.heap.getD (s.heap.length - 1) default) 0).nodes
            (((s.heap.set 0
              (s.heap.getD (s.heap.length - 1) default)).dropLast).getD m
              default) = _
          rw [hget1 m hm, if_neg (by omega),
            PState.genSetLoc_nodes_ne2 _ _ _ _
              (nodup_getD_ne hnd (by omega) hL1 (by omega))]
          rfl
        have hdinv : DownInv le ⟨s.pool.genSetLoc
            (s.heap.getD (s.heap.length - 1) default) 0,
            (s.heap.set 0
              (s.heap.getD (s.heap.length - 1) default)).dropLast⟩ 0 := by
          constructor
          · intro k hk0 hklen hkq
            rw [show ((⟨s.pool.genSetLoc
                (s.heap.getD (s.heap.length - 1) default) 0,
                (s.heap.set 0
                  (s.heap.getD (s.heap.length - 1) default)).dropLast⟩ :
                QState V)).heap.length = s.heap.length - 1 from hlen1] at hklen
            unfold leIdx
            rw [hvalb ((k - 1) / 2) (by omega) (by omega),
              hvalb k (by omega) (by omega)]
            exact hHP k hk0 (by omega)
          · intro h
            exact absurd h (lt_irrefl 0)
        have hloc1 : LocInv ⟨s.pool.genSetLoc
            (s.heap.getD (s.heap.length - 1) default) 0,
            (s.heap.set 0
              (s.heap.getD (s.heap.length - 1) default)).dropLast⟩ := by
          constructor
          · rw [List.nodup_iff_injective_getElem]
            intro a b hab
            simp only [] at hab
            have haL : (a : Nat) < s.heap.length - 1 := by
              have h2 : (a : Nat) < ((s.heap.set 0
                  (s.heap.getD (s.heap.length - 1) default)).dropLast).length :=
                a.2
              omega
            have hbL : (b : Nat) < s.heap.length - 1 := by
              have h2 : (b : Nat) < ((s.heap.set 0
                  (s.heap.getD (s.heap.length - 1) default)).dropLast).length :=
                b.2
              omega
            rw [← List.getD_eq_getElem _ default, ← List.getD_eq_getElem _
              default, hget1 a haL, hget1 b hbL] at hab
            have hsa : (if (a : Nat) = 0 then s.heap.length - 1 else (a : Nat))
                < s.heap.length := by split_ifs <;> omega
            have hsb : (if (b : Nat) = 0 then s.heap.length - 1 else (b : Nat))
                < s.heap.length := by split_ifs <;> omega
            rw [List.getD_eq_getElem s.heap default hsa,
              List.getD_eq_getElem s.heap default hsb] at hab
            have hnd2 := hnd
            rw [List.nodup_iff_injective_getElem] at hnd2
            have hinj : (⟨_, hsa⟩ : Fin s.heap.length) = ⟨_, hsb⟩ := hnd2 hab
            have hval := congrArg Fin.val hinj
            simp only [] at hval
            apply Fin.ext
            split_ifs at hval <;> omega
          · intro k hk
            rw [hlen1] at hk
            by_cases hk0 : k = 0
            · subst hk0
              show ((s.pool.genSetLoc
                (s.heap.getD (s.heap.length - 1) default) 0).nodes
                (((s.heap.set 0
                  (s.heap.getD (s.heap.length - 1) default)).dropLast).getD 0
                  default)).pqueueLocation = 0
              rw [hget1_0]
              exact PState.genSetLoc_loc_self _ _ _
            · show ((s.pool.genSetLoc
                (s.heap.getD (s.heap.length - 1) default) 0).nodes
                (((s.heap.set 0
                  (s.heap.getD (s.heap.length - 1) default)).dropLast).getD k
                  default)).pqueueLocation = k
              rw [hget1 k hk, if_neg hk0,
                PState.genSetLoc_nodes_ne2 _ _ _ _
                  (nodup_getD_ne hnd (by omega) hL1 (by omega))]
              exact hLoc.2 k (by omega)
        have hmemb : ∀ u, u ∈ (s.heap.set 0
            (s.heap.getD (s.heap.length - 1) default)).dropLast ↔
            u ∈ s.heap ∧ u ≠ s.heap.getD 0 default := by
          intro u
          constructor
          · intro hu
            rcases List.mem_iff_getElem.mp hu with ⟨k, hk, he⟩
            rw [hlen1] at hk
            rw [← List.getD_eq_getElem _ default, hget1 k hk] at he
            have hσ : (if k = 0 then s.heap.length - 1 else k) <
                s.heap.length := by split_ifs <;> omega
            constructor
            · rw [← he, List.getD_eq_getElem s.heap default hσ]
              exact List.getElem_mem hσ
            · rw [← he]
              exact nodup_getD_ne hnd hσ h0lt (by split_ifs <;> omega)
          · rintro ⟨hu1, hu2⟩
            rcases List.mem_iff_getElem.mp hu1 with ⟨k, hk, he⟩
            have hk0 : k ≠ 0 := by
              intro h
              subst h
              exact hu2 (by rw [← he, List.getD_eq_getElem s.heap default hk])
            by_cases hkL : k = s.heap.length - 1
            · subst hkL
              refine List.mem_iff_getElem.mpr ⟨0, by rw [hlen1]; omega, ?_⟩
              rw [← List.getD_eq_getElem _ default, hget1_0,
                List.getD_eq_getElem s.heap default hL1]
              exact he
            · refine List.mem_iff_getElem.mpr ⟨k, by rw [hlen1]; omega, ?_⟩
              rw [← List.getD_eq_getElem _ default, hget1 k (by omega),
                if_neg hk0, List.getD_eq_getElem s.heap default hk, he]
        have hht1 : HeapTouched ⟨s.pool.genSetLoc
            (s.heap.getD (s.heap.length - 1) default) 0,
            (s.heap.set 0
              (s.heap.getD (s.heap.length - 1) default)).dropLast⟩ := by
          intro u hu
          show (s.pool.genSetLoc
            (s.heap.getD (s.heap.length - 1) default) 0).touched u = true
          rw [PState.genSetLoc_touched2]
          have h3 := hHT u ((hmemb u).mp hu).1
          rw [h3, Bool.or_true]
        obtain ⟨hHP2, hLoc2, hHT2, hlen2, hmem2, heq2⟩ :=
          heapifyDownGo_spec le hst htot htr
            ((s.heap.set 0
              (s.heap.getD (s.heap.length - 1) default)).dropLast).length
            ⟨s.pool.genSetLoc (s.heap.getD (s.heap.length - 1) default) 0,
              (s.heap.set 0
                (s.heap.getD (s.heap.length - 1) default)).dropLast⟩ 0
            (le_of_eq rfl) hdinv hloc1 hht1
        refine ⟨rfl, hmem0, ?_, ⟨hHP2, hLoc2, hHT2⟩, ?_⟩
        · intro u
          exact (hmem2 u).trans (hmemb u)
        · exact heq2.trans (PState.genSetLoc_eqExceptLoc s.pool _ 0 htlast)

end QState

end Pathfinding

namespace Pathfinding

open QState in
/-- C4: for the indexed priority queue under the A* ordering (`lb`
ascending, ties to larger `g`), after every push — performed from a valid
queue state whose pool has since been rewritten only at the pushed
vertex's node, its stored heap index untouched — and after every pop, the
binary-heap property `cmp(heap[(i-1)/2], heap[i])` holds at every non-root
index, and every heap member's stored queue location indexes that member
in the heap array. -/
theorem claim4_heap_invariants {V : Type} [DecidableEq V] [Inhabited V]
    (s₀ s : QState V) (v : V)
    (hheap : s.heap = s₀.heap)
    (htch : s.pool.touched = s₀.pool.touched)
    (hnodes : ∀ w, w ≠ v → s.pool.nodes w = s₀.pool.nodes w)
    (hlocv : (s.pool.nodes v).pqueueLocation =
      (s₀.pool.nodes v).pqueueLocation)
    (htv : s.pool.touched v = true)
    (hinv : QInv astarOrd s₀) :
    (HeapProp astarOrd (qpush astarOrd s v) ∧
      ∀ u ∈ (qpush astarOrd s v).heap,
        (qpush astarOrd s v).heap.get?
          (((qpush astarOrd s v).pool.nodes u).pqueueLocation) = some u) ∧
    (∀ w s', qpop astarOrd s₀ = some (w, s') →
      HeapProp astarOrd s' ∧
      ∀ u ∈ s'.heap,
        s'.heap.get? ((s'.pool.nodes u).pqueueLocation) = some u) := by
  constructor
  · obtain ⟨hq, hmem, heq⟩ := qpush_spec astarOrd astarOrd_leStable
      astarOrd_leTotal astarOrd_leTrans s₀ s v hheap htch hnodes hlocv htv hinv
    exact ⟨hq.1, locInv_get _ hq.2.1⟩
  · intro w s' hpop
    obtain ⟨-, hsome⟩ := qpop_spec astarOrd astarOrd_leStable
      astarOrd_leTotal astarOrd_leTrans s₀ hinv
    obtain ⟨-, -, -, hq, -⟩ := hsome w s' hpop
    exact ⟨hq.1, locInv_get _ hq.2.1⟩

/-- A concrete queue state over `Nat` vertices: empty heap, every node
fresh. -/
def wq4 : QState Nat :=
  ⟨⟨fun _ => ⟨0, 0, 0, 0, none, 0, 0⟩, fun _ => true⟩, []⟩

theorem claim4_heap_invariants_witness :
    (QState.HeapProp astarOrd (QState.qpush astarOrd wq4 0) ∧
      ∀ u ∈ (QState.qpush astarOrd wq4 0).heap,
        (QState.qpush astarOrd wq4 0).heap.get?
          (((QState.qpush astarOrd wq4 0).pool.nodes u).pqueueLocation) =
          some u) ∧
    (∀ w s', QState.qpop astarOrd wq4 = some (w, s') →
      QState.HeapProp astarOrd s' ∧
      ∀ u ∈ s'.heap,
        s'.heap.get? ((s'.pool.nodes u).pqueueLocation) = some u) :=
  claim4_heap_invariants wq4 wq4 0 rfl rfl (fun _ _ => rfl) rfl rfl
    ⟨fun i _ h2 => absurd h2 (Nat.not_lt_zero i),
     ⟨List.nodup_nil, fun i h => absurd h (Nat.not_lt_zero i)⟩,
     fun u hu => absurd hu (List.not_mem_nil u)⟩

end Pathfinding

namespace Pathfinding

section Engine

variable {V : Type} [DecidableEq V] [Inhabited V]

/-- Paths under the expansion policy's edge relation, grown by appending
edges: `PathTo e src v c` is a path from `src` to `v` of total cost `c`. -/
inductive PathTo (e : V → List (V × ℚ)) (src : V) : V → ℚ → Prop
  | nil : PathTo e src src 0
  | snoc {u v : V} {c d : ℚ} : PathTo e src u c → (v, d) ∈ e u →
      PathTo e src v (c + d)

/-- With non-negative edge costs every path cost is non-negative. -/
theorem PathTo.nonneg {e : V → List (V × ℚ)} {src : V}
    (hcost : ∀ u v c, (v, c) ∈ e u → 0 ≤ c) :
    ∀ {z : V} {cz : ℚ}, PathTo e src z cz → 0 ≤ cz := by
  intro z cz hp
  induction hp with
  | nil => exact le_refl 0
  | snoc hp hm ih => exact add_nonneg ih (hcost _ _ _ hm)

/-- The `for edge in edges.drain(..)` relaxation loop of
`astar_unchecked`: for each edge, `generate` the destination and, if the
tentative `g` improves on the stored one, rewrite `g`, `lb` and `parent`
and push the destination. -/
def relaxAll (h : V → ℚ) (pg : WithTop ℚ) (pid : V) :
    List (V × ℚ) → QState V → QState V
  | [], s => s
  | (d, c) :: rest, s =>
    let pool1 := s.pool.generate d
    if pg + ((c : ℚ) : WithTop ℚ) < (pool1.nodes d).g then
      relaxAll h pg pid rest
        (QState.qpush astarOrd
          ⟨{ pool1 with nodes := fun w =>
              if w = d then
                { pool1.nodes d with
                  g := pg + ((c : ℚ) : WithTop ℚ),
                  lb := pg + ((c : ℚ) : WithTop ℚ) +
                    ((h ((pool1.nodes d).id) : ℚ) : WithTop ℚ),
                  parent := some pid }
              else pool1.nodes w },
            s.heap⟩ d)
    else relaxAll h pg pid rest ⟨pool1, s.heap⟩

/-- The `while let Some(node) = queue.pop()` loop of `astar_unchecked`
(fueled), recording each popped vertex with its `g` at pop time; the loop
ends on an empty queue, on popping the goal, or on fuel exhaustion. -/
def astarLoopGo (e : V → List (V × ℚ)) (h : V → ℚ) (goal : V) :
    Nat → QState V → List (V × WithTop ℚ)
  | 0, _ => []
  | fuel + 1, s =>
    match QState.qpop astarOrd s with
    | none => []
    | some (v, s1) =>
      let pool2 := s1.pool.bumpExp v
      if (pool2.nodes v).id = goal then [(v, (pool2.nodes v).g)]
      else (v, (pool2.nodes v).g) ::
        astarLoopGo e h goal fuel
          (relaxAll h (pool2.nodes v).g ((pool2.nodes v).id)
            (e ((pool2.nodes v).id)) ⟨pool2, s1.heap⟩)

/-- `astar_unchecked` before the loop: reset the pool, generate the
source, zero its `g` and `lb`, push it on the fresh queue. -/
def astarInit (nodes0 : V → SearchNode V) (src : V) : QState V :=
  QState.qpush astarOrd
    ⟨{ (PState.mk nodes0 fun _ => false).generate src with nodes := fun w =>
        if w = src then
          { ((PState.mk nodes0 fun _ => false).generate src).nodes src with
            g := 0, lb := 0 }
        else ((PState.mk nodes0 fun _ => false).generate src).nodes w },
      []⟩ src

/-- A whole run: the trace of pops `astar_unchecked` performs. -/
def astarRun (nodes0 : V → SearchNode V) (e : V → List (V × ℚ)) (h : V → ℚ)
    (src goal : V) (fuel : Nat) : List (V × WithTop ℚ) :=
  astarLoopGo e h goal fuel (astarInit nodes0 src)

theorem relaxAll_cons (h : V → ℚ) (pg : WithTop ℚ) (pid : V) (d : V) (c : ℚ)
    (rest : List (V × ℚ)) (s : QState V) :
    relaxAll h pg pid ((d, c) :: rest) s =
      if pg + ((c : ℚ) : WithTop ℚ) < ((s.pool.generate d).nodes d).g then
        relaxAll h pg pid rest
          (QState.qpush astarOrd
            ⟨{ s.pool.generate d with nodes := fun w =>
                if w = d then
                  { (s.pool.generate d).nodes d with
                    g := pg + ((c : ℚ) : WithTop ℚ),
                    lb := pg + ((c : ℚ) : WithTop ℚ) +
                      ((h (((s.pool.generate d).nodes d).id) : ℚ) : WithTop ℚ),
                    parent := some pid }
                else (s.pool.generate d).nodes w },
              s.heap⟩ d)
      else relaxAll h pg pid rest ⟨s.pool.generate d, s.heap⟩ := rfl

theorem astarLoopGo_succ (e : V → List (V × ℚ)) (h : V → ℚ) (goal : V)
    (fuel : Nat) (s : QState V) :
    astarLoopGo e h goal (fuel + 1) s =
      match QState.qpop astarOrd s with
      | none => []
      | some (v, s1) =>
        if ((s1.pool.bumpExp v).nodes v).id = goal then
          [(v, ((s1.pool.bumpExp v).nodes v).g)]
        else (v, ((s1.pool.bumpExp v).nodes v).g) ::
          astarLoopGo e h goal fuel
            (relaxAll h ((s1.pool.bumpExp v).nodes v).g
              (((s1.pool.bumpExp v).nodes v).id)
              (e (((s1.pool.bumpExp v).nodes v).id))
              ⟨s1.pool.bumpExp v, s1.heap⟩) := rfl

end Engine

end Pathfinding

namespace Pathfinding

section Engine

variable {V : Type} [DecidableEq V] [Inhabited V]

/-- The search invariant: `P` is the (ghost) set of settled vertices. -/
structure AInv (e : V → List (V × ℚ)) (h : V → ℚ) (src : V) (P : V → Prop)
    (s : QState V) : Prop where
  hid : ∀ v, (s.pool.nodes v).id = v
  qinv : QState.QInv astarOrd s
  realized : ∀ v, s.pool.touched v = true →
    ∃ c : ℚ, (s.pool.nodes v).g = ((c : ℚ) : WithTop ℚ) ∧ PathTo e src v c
  settledTouched : ∀ v, P v → s.pool.touched v = true
  settledOpt : ∀ v, P v → ∃ c : ℚ,
    (s.pool.nodes v).g = ((c : ℚ) : WithTop ℚ) ∧ PathTo e src v c ∧
    ∀ c', PathTo e src v c' → c ≤ c'
  settledEdges : ∀ u v c, P u → (v, c) ∈ e u →
    s.pool.touched v = true ∧
    (s.pool.nodes v).g ≤ (s.pool.nodes u).g + ((c : ℚ) : WithTop ℚ)
  heapLb : ∀ v ∈ s.heap, v ≠ src →
    (s.pool.nodes v).lb = (s.pool.nodes v).g + ((h v : ℚ) : WithTop ℚ)
  srcTouched : s.pool.touched src = true
  srcG : (s.pool.nodes src).g = (0 : WithTop ℚ)
  cover : ∀ v, s.pool.touched v = true → P v ∨ v ∈ s.heap
  phase : ((∀ v, ¬ P v) ∧ ∀ w ∈ s.heap, w = src) ∨ P src

/-- The invariant inside the relaxation loop: like `AInv` with the
settled-edge inequality still pending for the popped vertex `r`'s
unprocessed edges `rest`, and the source already settled. -/
structure RInv (e : V → List (V × ℚ)) (h : V → ℚ) (src : V) (P : V → Prop)
    (r : V) (rest : List (V × ℚ)) (s : QState V) : Prop where
  hid : ∀ v, (s.pool.nodes v).id = v
  qinv : QState.QInv astarOrd s
  realized : ∀ v, s.pool.touched v = true →
    ∃ c : ℚ, (s.pool.nodes v).g = ((c : ℚ) : WithTop ℚ) ∧ PathTo e src v c
  settledTouched : ∀ v, P v → s.pool.touched v = true
  settledOpt : ∀ v, P v → ∃ c : ℚ,
    (s.pool.nodes v).g = ((c : ℚ) : WithTop ℚ) ∧ PathTo e src v c ∧
    ∀ c', PathTo e src v c' → c ≤ c'
  settledEdges : ∀ u v c, P u → (v, c) ∈ e u →
    (u = r ∧ (v, c) ∈ rest) ∨
    (s.pool.touched v = true ∧
      (s.pool.nodes v).g ≤ (s.pool.nodes u).g + ((c : ℚ) : WithTop ℚ))
  heapLb : ∀ v ∈ s.heap, v ≠ src →
    (s.pool.nodes v).lb = (s.pool.nodes v).g + ((h v : ℚ) : WithTop ℚ)
  srcTouched : s.pool.touched src = true
  srcG : (s.pool.nodes src).g = (0 : WithTop ℚ)
  cover : ∀ v, s.pool.touched v = true → P v ∨ v ∈ s.heap
  psrc : P src

/-- The frontier lemma: any path cost to any vertex is matched either by
the stored `g` of its endpoint, or by the `f`-value of some open non-source
vertex (telescoping consistency along the path). -/
theorem keyLemma {e : V → List (V × ℚ)} {h : V → ℚ} {src : V} {P : V → Prop}
    {s : QState V}
    (hcons : ∀ u v c, (v, c) ∈ e u → h u ≤ c + h v)
    (hI : AInv e h src P s) (hPsrc : P src) :
    ∀ z cz, PathTo e src z cz →
      (s.pool.touched z = true ∧
        (s.pool.nodes z).g ≤ ((cz : ℚ) : WithTop ℚ)) ∨
      (∃ w, w ∈ s.heap ∧ w ≠ src ∧
        (s.pool.nodes w).g + ((h w : ℚ) : WithTop ℚ) ≤
          ((cz : ℚ) : WithTop ℚ) + ((h z : ℚ) : WithTop ℚ)) := by
  intro z cz hp
  induction hp with
  | nil =>
    left
    refine ⟨hI.srcTouched, ?_⟩
    rw [hI.srcG]
    exact le_of_eq (by norm_num)
  | snoc hp hm ih =>
    rename_i u v c d
    rcases ih with ⟨htu, hgu⟩ | ⟨w, hw, hwsrc, hle⟩
    · by_cases hPu : P u
      · left
        obtain ⟨htv, hse⟩ := hI.settledEdges u v d hPu hm
        refine ⟨htv, ?_⟩
        calc (s.pool.nodes v).g
            ≤ (s.pool.nodes u).g + ((d : ℚ) : WithTop ℚ) := hse
          _ ≤ ((c : ℚ) : WithTop ℚ) + ((d : ℚ) : WithTop ℚ) :=
            add_le_add_right hgu _
          _ = (((c + d : ℚ)) : WithTop ℚ) := (WithTop.coe_add c d).symm
      · right
        have hwu : u ∈ s.heap := (hI.cover u htu).resolve_left hPu
        have husrc : u ≠ src := fun he => hPu (he ▸ hPsrc)
        refine ⟨u, hwu, husrc, ?_⟩
        have h2 : (c : ℚ) + h u ≤ (c + d) + h v := by
          have h3 := hcons u v d hm
          linarith
        calc (s.pool.nodes u).g + ((h u : ℚ) : WithTop ℚ)
            ≤ ((c : ℚ) : WithTop ℚ) + ((h u : ℚ) : WithTop ℚ) :=
            add_le_add_right hgu _
          _ = (((c + h u : ℚ)) : WithTop ℚ) := (WithTop.coe_add _ _).symm
          _ ≤ ((((c + d) + h v : ℚ)) : WithTop ℚ) := WithTop.coe_le_coe.mpr h2
          _ = (((c + d : ℚ)) : WithTop ℚ) + ((h v : ℚ) : WithTop ℚ) :=
            WithTop.coe_add _ _
    · right
      refine ⟨w, hw, hwsrc, ?_⟩
      have h2 : (c : ℚ) + h u ≤ (c + d) + h v := by
        have h3 := hcons u v d hm
        linarith
      calc (s.pool.nodes w).g + ((h w : ℚ) : WithTop ℚ)
          ≤ ((c : ℚ) : WithTop ℚ) + ((h u : ℚ) : WithTop ℚ) := hle
        _ = (((c + h u : ℚ)) : WithTop ℚ) := (WithTop.coe_add _ _).symm
        _ ≤ ((((c + d) + h v : ℚ)) : WithTop ℚ) := WithTop.coe_le_coe.mpr h2
        _ = (((c + d : ℚ)) : WithTop ℚ) + ((h v : ℚ) : WithTop ℚ) :=
          WithTop.coe_add _ _

/-- Popped vertices carry an optimal `g`: the popped root's stored `g` is
a realized path cost no greater than any path cost to that vertex. -/
theorem pop_opt {e : V → List (V × ℚ)} {h : V → ℚ} {src : V} {P : V → Prop}
    {s : QState V} {r : V} {s1 : QState V}
    (hcost : ∀ u v c, (v, c) ∈ e u → 0 ≤ c)
    (hcons : ∀ u v c, (v, c) ∈ e u → h u ≤ c + h v)
    (hI : AInv e h src P s)
    (hpop : QState.qpop astarOrd s = some (r, s1)) :
    ∃ cr : ℚ, (s.pool.nodes r).g = ((cr : ℚ) : WithTop ℚ) ∧
      PathTo e src r cr ∧ ∀ c', PathTo e src r c' → cr ≤ c' := by
  obtain ⟨-, hsome⟩ := QState.qpop_spec astarOrd QState.astarOrd_leStable
    QState.astarOrd_leTotal QState.astarOrd_leTrans s hI.qinv
  obtain ⟨hr0, hrmem, hmem1, hq1, heq1⟩ := hsome r s1 hpop
  have htr : s.pool.touched r = true := hI.qinv.2.2 r hrmem
  obtain ⟨cr, hcr, hreach⟩ := hI.realized r htr
  refine ⟨cr, hcr, hreach, ?_⟩
  intro c' hp'
  by_cases hrs : r = src
  · subst hrs
    have h0 : ((cr : ℚ) : WithTop ℚ) = ((0 : ℚ) : WithTop ℚ) := by
      rw [← hcr, hI.srcG]
      norm_num
    have hcr0 : cr = 0 := by exact_mod_cast h0
    rw [hcr0]
    exact PathTo.nonneg hcost hp'
  · have hPsrc : P src := by
      rcases hI.phase with ⟨hnone, hall⟩ | hPs
      · exact absurd (hall r hrmem) hrs
      · exact hPs
    rcases keyLemma hcons hI hPsrc r c' hp' with ⟨-, hg⟩ | ⟨w, hw, hwsrc, hle⟩
    · rw [hcr] at hg
      exact_mod_cast hg
    · have hroot := QState.heapProp_root_le astarOrd QState.astarOrd_leTotal
        QState.astarOrd_leTrans s hI.qinv.1
      rcases List.mem_iff_getElem.mp hw with ⟨kw, hkw, hew⟩
      have hcmp := hroot kw hkw
      have hlbr : (s.pool.nodes r).lb ≤ (s.pool.nodes w).lb := by
        have h2 := astarOrd_le_lb hcmp
        unfold QState.heapVal at h2
        rw [← hr0, List.getD_eq_getElem s.heap default hkw, hew] at h2
        exact h2
      have hlbw := hI.heapLb w hw hwsrc
      have hlbr_eq := hI.heapLb r hrmem hrs
      have hchain : ((cr : ℚ) : WithTop ℚ) + ((h r : ℚ) : WithTop ℚ) ≤
          ((c' : ℚ) : WithTop ℚ) + ((h r : ℚ) : WithTop ℚ) := by
        calc ((cr : ℚ) : WithTop ℚ) + ((h r : ℚ) : WithTop ℚ)
            = (s.pool.nodes r).g + ((h r : ℚ) : WithTop ℚ) := by rw [hcr]
          _ = (s.pool.nodes r).lb := hlbr_eq.symm
          _ ≤ (s.pool.nodes w).lb := hlbr
          _ = (s.pool.nodes w).g + ((h w : ℚ) : WithTop ℚ) := hlbw
          _ ≤ ((c' : ℚ) : WithTop ℚ) + ((h r : ℚ) : WithTop ℚ) := hle
      have h3 := (WithTop.add_le_add_iff_right
        (show ((h r : ℚ) : WithTop ℚ) ≠ ⊤ from WithTop.coe_ne_top)).mp hchain
      exact_mod_cast h3

/-- One relaxation that fires: rewriting the destination's `g`, `lb` and
`parent` through the handle and pushing it preserves the loop invariant
(the destination's edge obligation moves from pending to satisfied). -/
theorem relax_qpush_rinv {e : V → List (V × ℚ)} {h : V → ℚ} {src : V}
    (hcost : ∀ u v c, (v, c) ∈ e u → 0 ≤ c)
    {P : V → Prop} {r : V} {pg : ℚ} {rest : List (V × ℚ)} {d : V} {c : ℚ}
    {s : QState V} (s2p : PState V)
    (hR : RInv e h src P r ((d, c) :: rest) s)
    (hrest : ∀ x ∈ (d, c) :: rest, x ∈ e r)
    (hgr : (s.pool.nodes r).g = ((pg : ℚ) : WithTop ℚ))
    (hPr : P r)
    (hrel : ((pg : ℚ) : WithTop ℚ) + ((c : ℚ) : WithTop ℚ) <
      ((s.pool.generate d).nodes d).g)
    (h2touch : s2p.touched = (s.pool.generate d).touched)
    (h2ne : ∀ w, w ≠ d → s2p.nodes w = (s.pool.generate d).nodes w)
    (h2g : (s2p.nodes d).g =
      ((pg : ℚ) : WithTop ℚ) + ((c : ℚ) : WithTop ℚ))
    (h2lb : (s2p.nodes d).lb =
      ((pg : ℚ) : WithTop ℚ) + ((c : ℚ) : WithTop ℚ) +
        ((h d : ℚ) : WithTop ℚ))
    (h2id : (s2p.nodes d).id = d)
    (h2loc : (s2p.nodes d).pqueueLocation =
      ((s.pool.generate d).nodes d).pqueueLocation) :
    RInv e h src P r rest (QState.qpush astarOrd ⟨s2p, s.heap⟩ d) ∧
    ((QState.qpush astarOrd ⟨s2p, s.heap⟩ d).pool.nodes r).g =
      ((pg : ℚ) : WithTop ℚ) := by
  have hdm : (d, c) ∈ e r := hrest _ (List.mem_cons_self _ _)
  have hc0 : 0 ≤ c := hcost r d c hdm
  obtain ⟨cr, hcrg, hrpath0, hrmin0⟩ := hR.settledOpt r hPr
  have hceq : cr = pg := by
    have h2 := hcrg.symm.trans hgr
    exact_mod_cast h2
  have hrpath : PathTo e src r pg := hceq ▸ hrpath0
  have hrmin : ∀ c', PathTo e src r c' → pg ≤ c' := hceq ▸ hrmin0
  have hpg0 : 0 ≤ pg := PathTo.nonneg hcost hrpath
  have hdP : ¬ P d := by
    intro hPd
    obtain ⟨cd, hgd, hpd, hmind⟩ := hR.settledOpt d hPd
    have hled : cd ≤ pg + c := hmind _ (PathTo.snoc hrpath hdm)
    have htd := hR.settledTouched d hPd
    rw [PState.generate_of_touched _ _ htd, hgd] at hrel
    have h2 : (((pg + c : ℚ)) : WithTop ℚ) < ((cd : ℚ) : WithTop ℚ) := by
      rw [WithTop.coe_add]
      exact hrel
    have h3 : pg + c < cd := by exact_mod_cast h2
    linarith
  have hrd : r ≠ d := fun he => hdP (he ▸ hPr)
  have hdsrc : d ≠ src := by
    intro he
    subst he
    rw [PState.generate_of_touched _ _ hR.srcTouched, hR.srcG] at hrel
    have h2 : (((pg + c : ℚ)) : WithTop ℚ) < ((0 : ℚ) : WithTop ℚ) := by
      rw [WithTop.coe_add, show ((0 : ℚ) : WithTop ℚ) = (0 : WithTop ℚ) from
        by norm_num]
      exact hrel
    have h3 : pg + c < 0 := by exact_mod_cast h2
    linarith
  have htch2 : ∀ w, s2p.touched w = (decide (w = d) || s.pool.touched w) := by
    intro w
    rw [h2touch, PState.generate_touched_eq]
  have hvne : ∀ w, w ≠ d → s2p.nodes w = s.pool.nodes w :=
    fun w hw => (h2ne w hw).trans (PState.generate_nodes_ne s.pool d w hw)
  have hq0 : QState.QInv astarOrd ⟨s.pool.generate d, s.heap⟩ := by
    by_cases htd : s.pool.touched d = true
    · rw [PState.generate_of_touched _ _ htd]
      exact hR.qinv
    · have htdf : s.pool.touched d = false := by
        cases h2 : s.pool.touched d
        · rfl
        · exact absurd h2 htd
      have hdnotin : d ∉ s.heap := by
        intro hmem
        have h2 := hR.qinv.2.2 d hmem
        rw [h2] at htdf
        cases htdf
      have hvp : ∀ k, k < s.heap.length →
          QState.heapVal ⟨s.pool.generate d, s.heap⟩ k = s.heapVal k := by
        intro k hk
        show (s.pool.generate d).nodes (s.heap.getD k default) = _
        refine PState.generate_nodes_ne s.pool d _ (fun he => hdnotin ?_)
        rw [← he, List.getD_eq_getElem s.heap default hk]
        exact List.getElem_mem hk
      refine ⟨?_, ⟨hR.qinv.2.1.1, ?_⟩, ?_⟩
      · intro k hk0 hklen
        have hklen' : k < s.heap.length := hklen
        show QState.leIdx astarOrd _ ((k - 1) / 2) k = true
        unfold QState.leIdx
        rw [hvp _ (by omega), hvp _ hklen']
        exact hR.qinv.1 k hk0 hklen'
      · intro k hk
        have hk' : k < s.heap.length := hk
        show ((s.pool.generate d).nodes (s.heap.getD k default)).pqueueLocation
          = k
        rw [PState.generate_nodes_ne s.pool d _ (fun he => hdnotin (by
          rw [← he, List.getD_eq_getElem s.heap default hk']
          exact List.getElem_mem hk'))]
        exact hR.qinv.2.1.2 k hk'
      · intro w hw
        have hw' : w ∈ s.heap := hw
        show (s.pool.generate d).touched w = true
        rw [PState.generate_touched_eq, hR.qinv.2.2 w hw', Bool.or_true]
  obtain ⟨hqN, hmemN, heqN⟩ := QState.qpush_spec astarOrd
    QState.astarOrd_leStable QState.astarOrd_leTotal QState.astarOrd_leTrans
    ⟨s.pool.generate d, s.heap⟩ ⟨s2p, s.heap⟩ d rfl h2touch h2ne h2loc
    (by
      show s2p.touched d = true
      rw [htch2 d]
      simp)
    hq0
  have hNg : ∀ w, ((QState.qpush astarOrd ⟨s2p, s.heap⟩ d).pool.nodes w).g =
      (s2p.nodes w).g := fun w => (heqN.2 w).1
  have hNlb : ∀ w, ((QState.qpush astarOrd ⟨s2p, s.heap⟩ d).pool.nodes w).lb =
      (s2p.nodes w).lb := fun w => (heqN.2 w).2.1
  have hNid : ∀ w, ((QState.qpush astarOrd ⟨s2p, s.heap⟩ d).pool.nodes w).id =
      (s2p.nodes w).id := fun w => (heqN.2 w).2.2.2.2
  have hNt : (QState.qpush astarOrd ⟨s2p, s.heap⟩ d).pool.touched =
      s2p.touched := heqN.1
  have hgrN : ((QState.qpush astarOrd ⟨s2p, s.heap⟩ d).pool.nodes r).g =
      ((pg : ℚ) : WithTop ℚ) := by
    rw [hNg r, hvne r hrd]
    exact hgr
  refine ⟨⟨?_, hqN, ?_, ?_, ?_, ?_, ?_, ?_, ?_, ?_, hR.psrc⟩, hgrN⟩
  · -- hid
    intro v
    rw [hNid v]
    by_cases hvd : v = d
    · subst hvd
      exact h2id
    · rw [hvne v hvd]
      exact hR.hid v
  · -- realized
    intro v htv'
    by_cases hvd : v = d
    · subst hvd
      exact ⟨pg + c, by rw [hNg v, h2g, WithTop.coe_add],
        PathTo.snoc hrpath hdm⟩
    · have h2 : s.pool.touched v = true := by
        rw [hNt, htch2 v] at htv'
        rcases Bool.or_eq_true_iff.mp htv' with h3 | h3
        · exact absurd (of_decide_eq_true h3) hvd
        · exact h3
      obtain ⟨cv, hgv, hpv⟩ := hR.realized v h2
      exact ⟨cv, by rw [hNg v, hvne v hvd]; exact hgv, hpv⟩
  · -- settledTouched
    intro v hPv
    rw [hNt, htch2 v, hR.settledTouched v hPv, Bool.or_true]
  · -- settledOpt
    intro v hPv
    obtain ⟨cv, hgv, hpv, hmv⟩ := hR.settledOpt v hPv
    have hvd : v ≠ d := fun he => hdP (he ▸ hPv)
    exact ⟨cv, by rw [hNg v, hvne v hvd]; exact hgv, hpv, hmv⟩
  · -- settledEdges
    intro u v' c' hPu hm'
    have hud : u ≠ d := fun he => hdP (he ▸ hPu)
    rcases hR.settledEdges u v' c' hPu hm' with ⟨hur, hmem'⟩ | ⟨htv', hle'⟩
    · rcases List.mem_cons.mp hmem' with he | hmem''
      · right
        injection he with he1 he2
        subst he1
        subst he2
        constructor
        · rw [hNt, htch2 v']
          simp
        · subst hur
          rw [hNg v', h2g, hNg u, hvne u hud, hgr]
      · exact Or.inl ⟨hur, hmem''⟩
    · right
      refine ⟨by rw [hNt, htch2 v', htv', Bool.or_true], ?_⟩
      by_cases hvd : v' = d
      · subst hvd
        have hgd : ((s.pool.generate v').nodes v').g = (s.pool.nodes v').g := by
          rw [PState.generate_of_touched _ _ htv']
        rw [hNg v', h2g, hNg u, hvne u hud]
        calc ((pg : ℚ) : WithTop ℚ) + ((c : ℚ) : WithTop ℚ)
            ≤ (s.pool.nodes v').g := le_of_lt (by rw [← hgd]; exact hrel)
          _ ≤ (s.pool.nodes u).g + ((c' : ℚ) : WithTop ℚ) := hle'
      · rw [hNg v', hvne v' hvd, hNg u, hvne u hud]
        exact hle'
  · -- heapLb
    intro w hw hwsrc
    rcases (hmemN w).mp hw with hw2 | hw2
    · by_cases hwd : w = d
      · subst hwd
        rw [hNlb w, hNg w, h2lb, h2g]
      · have hwmem : w ∈ s.heap := hw2
        rw [hNlb w, hNg w, hvne w hwd]
        exact hR.heapLb w hwmem hwsrc
    · subst hw2
      rw [hNlb w, hNg w, h2lb, h2g]
  · -- srcTouched
    rw [hNt, htch2 src, hR.srcTouched, Bool.or_true]
  · -- srcG
    rw [hNg src, hvne src (fun he => hdsrc he.symm)]
    exact hR.srcG
  · -- cover
    intro v htv'
    by_cases hvd : v = d
    · subst hvd
      exact Or.inr ((hmemN v).mpr (Or.inr rfl))
    · have h2 : s.pool.touched v = true := by
        rw [hNt, htch2 v] at htv'
        rcases Bool.or_eq_true_iff.mp htv' with h3 | h3
        · exact absurd (of_decide_eq_true h3) hvd
        · exact h3
      rcases hR.cover v h2 with hP | hmem2
      · exact Or.inl hP
      · exact Or.inr ((hmemN v).mpr (Or.inl hmem2))

/-- The whole relaxation loop turns the loop invariant into the full
search invariant. -/
theorem relaxAll_spec (e : V → List (V × ℚ)) (h : V → ℚ) (src : V)
    (hcost : ∀ u v c, (v, c) ∈ e u → 0 ≤ c)
    (P : V → Prop) (r : V) (pg : ℚ) :
    ∀ (rest : List (V × ℚ)) (s : QState V),
      (∀ x ∈ rest, x ∈ e r) →
      (s.pool.nodes r).g = ((pg : ℚ) : WithTop ℚ) →
      P r →
      RInv e h src P r rest s →
      AInv e h src P (relaxAll h ((pg : ℚ) : WithTop ℚ) r rest s) := by
  intro rest
  induction rest with
  | nil =>
    intro s hrest hgr hPr hR
    show AInv e h src P s
    refine ⟨hR.hid, hR.qinv, hR.realized, hR.settledTouched, hR.settledOpt,
      ?_, hR.heapLb, hR.srcTouched, hR.srcG, hR.cover, Or.inr hR.psrc⟩
    intro u v c hPu hm
    rcases hR.settledEdges u v c hPu hm with ⟨-, hmem⟩ | hdone
    · exact absurd hmem (List.not_mem_nil _)
    · exact hdone
  | cons dc rest ih =>
    obtain ⟨d, c⟩ := dc
    intro s hrest hgr hPr hR
    rw [relaxAll_cons]
    have hp1id : ((s.pool.generate d).nodes d).id = d := by
      by_cases htd : s.pool.touched d = true
      · rw [PState.generate_of_touched _ _ htd]
        exact hR.hid d
      · rw [PState.generate_nodes_self_untouched s.pool d (by
          cases h2 : s.pool.touched d
          · rfl
          · exact absurd h2 htd)]
        exact hR.hid d
    by_cases hrel : ((pg : ℚ) : WithTop ℚ) + ((c : ℚ) : WithTop ℚ) <
        ((s.pool.generate d).nodes d).g
    · rw [if_pos hrel]
      obtain ⟨hRN, hgrN⟩ := relax_qpush_rinv hcost
        { s.pool.generate d with nodes := fun w =>
            if w = d then
              { (s.pool.generate d).nodes d with
                g := ((pg : ℚ) : WithTop ℚ) + ((c : ℚ) : WithTop ℚ),
                lb := ((pg : ℚ) : WithTop ℚ) + ((c : ℚ) : WithTop ℚ) +
                  ((h (((s.pool.generate d).nodes d).id) : ℚ) : WithTop ℚ),
                parent := some r }
            else (s.pool.generate d).nodes w }
        hR hrest hgr hPr hrel rfl (fun w hw => by simp [hw]) (by simp)
        (by simp [hp1id]) (by simp [hp1id]) (by simp)
      exact ih _ (fun x hx => hrest x (List.mem_cons_of_mem _ hx)) hgrN hPr hRN
    · rw [if_neg hrel]
      have htd : s.pool.touched d = true := by
        by_contra htd2
        have htdf : s.pool.touched d = false := by
          cases h2 : s.pool.touched d
          · rfl
          · exact absurd h2 htd2
        apply hrel
        rw [PState.generate_nodes_self_untouched s.pool d htdf]
        show ((pg : ℚ) : WithTop ℚ) + ((c : ℚ) : WithTop ℚ) < (⊤ : WithTop ℚ)
        rw [← WithTop.coe_add]
        exact WithTop.coe_lt_top _
      have hpool1 : s.pool.generate d = s.pool :=
        PState.generate_of_touched s.pool d htd
      rw [hpool1]
      apply ih ⟨s.pool, s.heap⟩
        (fun x hx => hrest x (List.mem_cons_of_mem _ hx)) hgr hPr
      refine ⟨hR.hid, hR.qinv, hR.realized, hR.settledTouched, hR.settledOpt,
        ?_, hR.heapLb, hR.srcTouched, hR.srcG, hR.cover, hR.psrc⟩
      intro u v' c' hPu hm'
      rcases hR.settledEdges u v' c' hPu hm' with ⟨hur, hmem'⟩ | hdone
      · rcases List.mem_cons.mp hmem' with he | hmem''
        · right
          injection he with he1 he2
          subst he1
          subst he2
          refine ⟨htd, ?_⟩
          have h6 := not_lt.mp hrel
          rw [hpool1] at h6
          subst hur
          show (s.pool.nodes v').g ≤ (s.pool.nodes u).g +
            ((c' : ℚ) : WithTop ℚ)
          rw [hgr]
          exact h6
        · exact Or.inl ⟨hur, hmem''⟩
      · exact Or.inr hdone

/-- Soundness of the loop: under the search invariant, every recorded pop
carries a realized, minimal path cost. -/
theorem astarLoopGo_sound (e : V → List (V × ℚ)) (h : V → ℚ) (goal src : V)
    (hcost : ∀ u v c, (v, c) ∈ e u → 0 ≤ c)
    (hcons : ∀ u v c, (v, c) ∈ e u → h u ≤ c + h v) :
    ∀ (fuel : Nat) (P : V → Prop) (s : QState V), AInv e h src P s →
      ∀ v gv, (v, gv) ∈ astarLoopGo e h goal fuel s →
        ∃ c : ℚ, gv = ((c : ℚ) : WithTop ℚ) ∧ PathTo e src v c ∧
          ∀ c', PathTo e src v c' → c ≤ c' := by
  intro fuel
  induction fuel with
  | zero =>
    intro P s hI v gv hmem
    exact absurd hmem (List.not_mem_nil _)
  | succ fuel ih =>
    intro P s hI v gv hmem
    cases hpop : QState.qpop astarOrd s with
    | none =>
      rw [astarLoopGo_succ, hpop] at hmem
      exact absurd hmem (List.not_mem_nil _)
    | some p =>
      obtain ⟨r, s1⟩ := p
      rw [astarLoopGo_succ, hpop] at hmem
      obtain ⟨cr, hcr, hpath, hmin⟩ := pop_opt hcost hcons hI hpop
      obtain ⟨-, hsome⟩ := QState.qpop_spec astarOrd QState.astarOrd_leStable
        QState.astarOrd_leTotal QState.astarOrd_leTrans s hI.qinv
      obtain ⟨hr0, hrmem, hmem1, hq1, heq1⟩ := hsome r s1 hpop
      have hgrec : ((s1.pool.bumpExp r).nodes r).g = (s.pool.nodes r).g := by
        rw [(PState.bumpExp_eqExceptGL s1.pool r r).1]
        exact (heq1.2 r).1
      have hidrec : ((s1.pool.bumpExp r).nodes r).id = r := by
        rw [(PState.bumpExp_eqExceptGL s1.pool r r).2.2.2.1,
          (heq1.2 r).2.2.2.2]
        exact hI.hid r
      have hmem2 : (v, gv) ∈
          (if ((s1.pool.bumpExp r).nodes r).id = goal then
            [(r, ((s1.pool.bumpExp r).nodes r).g)]
          else (r, ((s1.pool.bumpExp r).nodes r).g) ::
            astarLoopGo e h goal fuel
              (relaxAll h (((s1.pool.bumpExp r).nodes r).g)
                (((s1.pool.bumpExp r).nodes r).id)
                (e (((s1.pool.bumpExp r).nodes r).id))
                ⟨s1.pool.bumpExp r, s1.heap⟩)) := hmem
      by_cases hgoal : ((s1.pool.bumpExp r).nodes r).id = goal
      · rw [if_pos hgoal, List.mem_singleton] at hmem2
        injection hmem2 with hv1 hv2
        exact ⟨cr, by rw [hv2, hgrec, hcr], hv1.symm ▸ hpath,
          hv1.symm ▸ hmin⟩
      · rw [if_neg hgoal, List.mem_cons] at hmem2
        rcases hmem2 with hhd | htl
        · injection hhd with hv1 hv2
          exact ⟨cr, by rw [hv2, hgrec, hcr], hv1.symm ▸ hpath,
            hv1.symm ▸ hmin⟩
        · rw [hidrec,
            show ((s1.pool.bumpExp r).nodes r).g = ((cr : ℚ) : WithTop ℚ)
              from by rw [hgrec, hcr]] at htl
          refine ih (fun w => P w ∨ w = r) _ ?_ v gv htl
          have hbg : ∀ w, ((s1.pool.bumpExp r).nodes w).g =
              (s.pool.nodes w).g := fun w =>
            ((PState.bumpExp_eqExceptGL s1.pool r w).1).trans ((heq1.2 w).1)
          have hblb : ∀ w, ((s1.pool.bumpExp r).nodes w).lb =
              (s.pool.nodes w).lb := fun w =>
            ((PState.bumpExp_eqExceptGL s1.pool r w).2.1).trans
              ((heq1.2 w).2.1)
          have hbid : ∀ w, ((s1.pool.bumpExp r).nodes w).id =
              (s.pool.nodes w).id := fun w =>
            ((PState.bumpExp_eqExceptGL s1.pool r w).2.2.2.1).trans
              ((heq1.2 w).2.2.2.2)
          have hbt : (s1.pool.bumpExp r).touched = s.pool.touched :=
            (PState.bumpExp_touched s1.pool r).trans heq1.1
          apply relaxAll_spec e h src hcost (fun w => P w ∨ w = r) r cr (e r)
            ⟨s1.pool.bumpExp r, s1.heap⟩ (fun x hx => hx)
            (by
              show ((s1.pool.bumpExp r).nodes r).g = ((cr : ℚ) : WithTop ℚ)
              rw [hgrec, hcr])
            (Or.inr rfl)
          refine ⟨?_, ⟨?_, ⟨?_, ?_⟩, ?_⟩, ?_, ?_, ?_, ?_, ?_, ?_, ?_, ?_, ?_⟩
          · -- hid
            exact fun w => (hbid w).trans (hI.hid w)
          · -- HeapProp
            intro k hk0 hklen
            have hklen' : k < s1.heap.length := hklen
            show QState.leIdx astarOrd _ ((k - 1) / 2) k = true
            unfold QState.leIdx QState.heapVal
            rw [astarOrd_congr
              ((PState.bumpExp_eqExceptGL s1.pool r
                (s1.heap.getD ((k - 1) / 2) default)).1)
              ((PState.bumpExp_eqExceptGL s1.pool r
                (s1.heap.getD ((k - 1) / 2) default)).2.1)
              ((PState.bumpExp_eqExceptGL s1.pool r
                (s1.heap.getD k default)).1)
              ((PState.bumpExp_eqExceptGL s1.pool r
                (s1.heap.getD k default)).2.1)]
            exact hq1.1 k hk0 hklen'
          · -- Nodup
            exact hq1.2.1.1
          · -- locations
            intro k hk
            have hk' : k < s1.heap.length := hk
            show ((s1.pool.bumpExp r).nodes
              (s1.heap.getD k default)).pqueueLocation = k
            rw [(PState.bumpExp_eqExceptGL s1.pool r
              (s1.heap.getD k default)).2.2.1]
            exact hq1.2.1.2 k hk'
          · -- HeapTouched
            intro w hw
            show (s1.pool.bumpExp r).touched w = true
            rw [PState.bumpExp_touched]
            exact hq1.2.2 w hw
          · -- realized
            intro w htw
            have htw' : s.pool.touched w = true := by
              rw [← hbt]
              exact htw
            obtain ⟨cw, hgw, hpw⟩ := hI.realized w htw'
            exact ⟨cw, by rw [hbg w]; exact hgw, hpw⟩
          · -- settledTouched
            intro w hPw
            show (s1.pool.bumpExp r).touched w = true
            rw [hbt]
            rcases hPw with hP | hwr
            · exact hI.settledTouched w hP
            · subst hwr
              exact hI.qinv.2.2 w hrmem
          · -- settledOpt
            intro w hPw
            rcases hPw with hP | hwr
            · obtain ⟨cw, hgw, hpw, hmw⟩ := hI.settledOpt w hP
              exact ⟨cw, by rw [hbg w]; exact hgw, hpw, hmw⟩
            · subst hwr
              exact ⟨cr, by rw [hbg w]; exact hcr, hpath, hmin⟩
          · -- settledEdges
            intro u v' c' hPu hm'
            rcases hPu with hP | hur
            · obtain ⟨ht', hle'⟩ := hI.settledEdges u v' c' hP hm'
              right
              refine ⟨?_, ?_⟩
              · show (s1.pool.bumpExp r).touched v' = true
                rw [hbt]
                exact ht'
              · show ((s1.pool.bumpExp r).nodes v').g ≤ _
                rw [hbg v', hbg u]
                exact hle'
            · left
              refine ⟨hur, ?_⟩
              rw [hur] at hm'
              exact hm'
          · -- heapLb
            intro w hw hwsrc
            have hw1 : w ∈ s1.heap := hw
            obtain ⟨hwS, hwr⟩ := (hmem1 w).mp hw1
            show ((s1.pool.bumpExp r).nodes w).lb = _
            rw [hblb w, hbg w]
            exact hI.heapLb w hwS hwsrc
          · -- srcTouched
            show (s1.pool.bumpExp r).touched src = true
            rw [hbt]
            exact hI.srcTouched
          · -- srcG
            show ((s1.pool.bumpExp r).nodes src).g = _
            rw [hbg src]
            exact hI.srcG
          · -- cover
            intro w htw
            have htw' : s.pool.touched w = true := by
              rw [← hbt]
              exact htw
            rcases hI.cover w htw' with hP | hmem3
            · exact Or.inl (Or.inl hP)
            · by_cases hwr : w = r
              · exact Or.inl (Or.inr hwr)
              · exact Or.inr (show w ∈ s1.heap from (hmem1 w).mpr ⟨hmem3, hwr⟩)
          · -- psrc
            rcases hI.phase with ⟨hnone, hall⟩ | hPs
            · exact Or.inr (hall r hrmem).symm
            · exact Or.inl hPs

/-- Pushing the source on an empty queue from a pool in which only the
source is touched (with `g = 0`) establishes the search invariant with an
empty settled set. -/
theorem qpush_empty_ainv (e : V → List (V × ℚ)) (h : V → ℚ) (src : V)
    (p2 : PState V)
    (htsrc : p2.touched src = true)
    (htonly : ∀ w, p2.touched w = true → w = src)
    (hgsrc : (p2.nodes src).g = (0 : WithTop ℚ))
    (hids : ∀ w, (p2.nodes w).id = w) :
    AInv e h src (fun _ => False) (QState.qpush astarOrd ⟨p2, []⟩ src) := by
  have hq0 : QState.QInv astarOrd (⟨p2, []⟩ : QState V) :=
    ⟨fun i _ h2 => absurd h2 (Nat.not_lt_zero i),
     ⟨List.nodup_nil, fun i hi => absurd hi (Nat.not_lt_zero i)⟩,
     fun u hu => absurd hu (List.not_mem_nil u)⟩
  obtain ⟨hqN, hmemN, heqN⟩ := QState.qpush_spec astarOrd
    QState.astarOrd_leStable QState.astarOrd_leTotal QState.astarOrd_leTrans
    ⟨p2, []⟩ ⟨p2, []⟩ src rfl rfl (fun _ _ => rfl) rfl htsrc hq0
  refine ⟨fun w => ((heqN.2 w).2.2.2.2).trans (hids w), hqN, ?_,
    fun v hF => hF.elim, fun v hF => hF.elim, fun u v c hF _ => hF.elim,
    ?_, ?_, ?_, ?_, ?_⟩
  · -- realized
    intro w htw
    rw [heqN.1] at htw
    have hws := htonly w htw
    subst hws
    refine ⟨0, ?_, PathTo.nil⟩
    rw [(heqN.2 w).1, hgsrc]
    norm_num
  · -- heapLb
    intro w hw hwsrc
    rcases (hmemN w).mp hw with hw2 | hw2
    · exact absurd hw2 (List.not_mem_nil w)
    · exact absurd hw2 hwsrc
  · -- srcTouched
    rw [heqN.1]
    exact htsrc
  · -- srcG
    rw [(heqN.2 src).1]
    exact hgsrc
  · -- cover
    intro w htw
    rw [heqN.1] at htw
    exact Or.inr ((hmemN w).mpr (Or.inr (htonly w htw)))
  · -- phase
    left
    refine ⟨fun v hF => hF, ?_⟩
    intro w hw
    rcases (hmemN w).mp hw with hw2 | hw2
    · exact absurd hw2 (List.not_mem_nil w)
    · exact hw2

/-- `astarInit` establishes the search invariant. -/
theorem astarInit_ainv (e : V → List (V × ℚ)) (h : V → ℚ)
    (nodes0 : V → SearchNode V) (hid0 : ∀ v, (nodes0 v).id = v) (src : V) :
    AInv e h src (fun _ => False) (astarInit nodes0 src) := by
  apply qpush_empty_ainv e h src
  · show ((PState.mk nodes0 fun _ => false).generate src).touched src = true
    rw [PState.generate_touched_eq]
    simp
  · intro w htw
    have htw' : ((PState.mk nodes0 fun _ => false).generate src).touched w =
        true := htw
    rw [PState.generate_touched_eq] at htw'
    simpa using htw'
  · simp
  · intro w
    by_cases hws : w = src
    · subst hws
      have hp1 : ((PState.mk nodes0 fun _ => false).generate w).nodes w =
          { nodes0 w with lb := ⊤, g := ⊤, expansions := 0, parent := none } :=
        PState.generate_nodes_self_untouched _ _ rfl
      simp [hp1, hid0 w]
    · have hp1 : ((PState.mk nodes0 fun _ => false).generate src).nodes w =
          nodes0 w := PState.generate_nodes_ne _ _ _ hws
      simp [hws, hp1, hid0 w]

end Engine

/-- C1: for every search run by the best-first engine (`astar_unchecked`)
over a node pool whose stored ids are correct and an expansion policy with
finite non-negative edge costs, with a consistent heuristic, every node
popped from the priority queue has its `g` field equal to the true
shortest-path cost from the source under the policy's edge relation — in
particular the first pop of the goal yields the optimal `g` (the zero
heuristic of Dijkstra is consistent, so the statement covers it). -/
theorem claim1_astar_popped_g_optimal {V : Type} [DecidableEq V]
    [Inhabited V]
    (nodes0 : V → SearchNode V) (hid0 : ∀ v, (nodes0 v).id = v)
    (e : V → List (V × ℚ)) (h : V → ℚ)
    (hcost : ∀ u v c, (v, c) ∈ e u → 0 ≤ c)
    (hcons : ∀ u v c, (v, c) ∈ e u → h u ≤ c + h v)
    (src goal : V) (fuel : Nat) (v : V) (gv : WithTop ℚ)
    (hmem : (v, gv) ∈ astarRun nodes0 e h src goal fuel) :
    ∃ c : ℚ, gv = ((c : ℚ) : WithTop ℚ) ∧ PathTo e src v c ∧
      ∀ c', PathTo e src v c' → c ≤ c' :=
  astarLoopGo_sound e h goal src hcost hcons fuel (fun _ => False)
    (astarInit nodes0 src) (astarInit_ainv e h nodes0 hid0 src) v gv hmem

theorem claim1_astar_popped_g_optimal_witness :
    ∃ c : ℚ, ((0 : WithTop ℚ)) = ((c : ℚ) : WithTop ℚ) ∧
      PathTo (fun _ : Bool => ([] : List (Bool × ℚ))) false false c ∧
      ∀ c', PathTo (fun _ : Bool => ([] : List (Bool × ℚ))) false false c' →
        c ≤ c' :=
  claim1_astar_popped_g_optimal
    (fun b => ⟨0, 0, 0, b, none, 0, 0⟩) (fun _ => rfl)
    (fun _ => []) (fun _ => 0)
    (fun u v c hm => absurd hm (List.not_mem_nil _))
    (fun u v c hm => absurd hm (List.not_mem_nil _))
    false false 1 false 0 (by decide)

end Pathfinding
